import Mathlib

/-!
# Instrumented array of the sorting visualizer

A shallow embedding of `src/Array.c`, of the reference strategies built on it, of
`src/procedural_audio.c` and of the pacing macro of `src/main.c`.

* `size_t` is taken to be 64 bits wide and `unsigned int` 32 bits wide; a `size_t`
  computation of the source that can wrap is written with an explicit `% SIZE_MOD`.
* The struct `Array` is a buffer together with a `len` field.  The buffer is the list of the
  whole `unsigned int` elements the allocation holds, so its length is the byte size the
  allocator works with divided by `sizeof (unsigned int)`.  The allocator is raylib's, whose
  size parameter is an `unsigned int`: the byte size is taken `% UINT_MOD`.
* Where it matters which arrays share storage, the arrays live in a `Memory` of structs and
  blocks and the functions are applied through pointers.
* The type `float` is IEEE 754 binary32 (`Float32`), every operation rounded to nearest, ties
  to even.  The audio module is given twice: in binary32, as the program computes, and over
  `ℚ`, for the statements that are about sums taken in exact arithmetic.
* The two callback slots are a record `Callbacks σ`.  A callback receives the array and the
  index, may change the array it is handed, and acts on a world state `σ` that stands for all
  other program state (sound list, pacing clock, counters).
* Loops whose bound is re-read from the array on every iteration take a fuel argument; `none`
  means the fuel ran out before the loop ended.
-/

namespace SortVis

/-! ## Machine constants -/

/-- Modulus of `size_t` arithmetic (64-bit). -/
def SIZE_MOD : Nat := 18446744073709551616

/-- Modulus of `unsigned int` arithmetic (32-bit). -/
def UINT_MOD : Nat := 4294967296

/-- Value of `sizeof (unsigned int)`. -/
def sizeof_unsigned_int : Nat := 4

/-- Value of `PTRDIFF_MAX`, the size in bytes of the largest object an allocator hands out. -/
def PTRDIFF_MAX : Nat := 9223372036854775807

/-- Subtraction of two `size_t` values, wrapping around below zero. -/
def size_sub (a b : Nat) : Nat := (a + SIZE_MOD - b % SIZE_MOD) % SIZE_MOD

/-! ## Data model -/

/-- The struct `Array`: the owned buffer `_arr` and the length field `len`. -/
structure Array where
  _arr : List Nat
  len : Nat
deriving DecidableEq

/-- The enum `Array_ResultCondition`. -/
inductive Array_ResultCondition where
  | ARRAY_OK
  | ARRAY_ERR
deriving DecidableEq

open Array_ResultCondition

/-- The struct `Array_Result`; a compound literal that names only the condition leaves
`value` zero. -/
structure Array_Result where
  condition : Array_ResultCondition
  value : Nat
deriving DecidableEq

/-- The struct `Array_Result_Bool`. -/
structure Array_Result_Bool where
  condition : Array_ResultCondition
  value : Bool
deriving DecidableEq

/-- The type `Array_CallbackType`: called with the array accessed and the index. -/
abbrev Array_CallbackType (σ : Type) : Type := Array → Nat → σ → Array × σ

/-- The default callback does nothing. -/
def _Array_default_callback {σ : Type} : Array_CallbackType σ := fun array _ w => (array, w)

/-- The two process-wide callback slots. -/
structure Callbacks (σ : Type) where
  _Array_at_callback : Array_CallbackType σ
  _Array_set_callback : Array_CallbackType σ

/-- Initial content of the slots. -/
def Callbacks.default {σ : Type} : Callbacks σ :=
  ⟨_Array_default_callback, _Array_default_callback⟩

/-- `Array_set_at_callback`: overwrite the read slot. -/
def Array_set_at_callback {σ : Type} (callback : Array_CallbackType σ) (slots : Callbacks σ) :
    Callbacks σ :=
  ⟨callback, slots._Array_set_callback⟩

/-- `Array_set_set_callback`: overwrite the write slot. -/
def Array_set_set_callback {σ : Type} (callback : Array_CallbackType σ) (slots : Callbacks σ) :
    Callbacks σ :=
  ⟨slots._Array_at_callback, callback⟩

/-! ## Allocation -/

/-- `Array_mem_alloc` is raylib's `MemAlloc (unsigned int size)`: the byte count it is called
with is converted to `unsigned int`, and the block holds the whole elements that fit in the
converted count, all zero. -/
def Array_mem_alloc (size : Nat) : List Nat :=
  List.replicate ((size % UINT_MOD) / sizeof_unsigned_int) 0

/-- `Array_mem_realloc` is raylib's `MemRealloc (void *ptr, unsigned int size)`: the byte count
is converted to `unsigned int` and the block is resized to that many bytes; elements that fit
both the old and the new block are kept, fresh elements hold the indeterminate values `junk`. -/
def Array_mem_realloc (junk : Nat → Nat) (ptr : List Nat) (size : Nat) : List Nat :=
  (List.range ((size % UINT_MOD) / sizeof_unsigned_int)).map fun k => ptr.getD k (junk k)

/-- `Array_new`: the buffer is allocated with `len * sizeof (unsigned int)` bytes, a `size_t`
product handed to `Array_mem_alloc`, and `memset` zeroes `sizeof (unsigned int) * len` bytes
of it.  The buffer of the result is the block the allocator returned: when the product does
not fit the allocator's `unsigned int` the block is shorter than `len` elements and the
`memset` runs past its end, which is undefined in C. -/
def Array_new (len : Nat) : Array :=
  ⟨Array_mem_alloc (len * sizeof_unsigned_int % SIZE_MOD), len⟩

/-! ## Element access -/

/-- `Array_at`.  A read at an index below `len` that lies outside the buffer is undefined in
C; the embedding reads `0` there and no theorem relies on that value. -/
def Array_at {σ : Type} (cb : Callbacks σ) (array : Array) (index : Nat) (w : σ) :
    Array_Result × Array × σ :=
  if index ≥ array.len then (⟨ARRAY_ERR, 0⟩, array, w)
  else
    let returned := array._arr.getD index 0
    let r := cb._Array_at_callback array index w
    (⟨ARRAY_OK, returned⟩, r.1, r.2)

/-- `Array_set`. -/
def Array_set {σ : Type} (cb : Callbacks σ) (array : Array) (index value : Nat) (w : σ) :
    Array_ResultCondition × Array × σ :=
  if index ≥ array.len then (ARRAY_ERR, array, w)
  else
    let r := cb._Array_set_callback ⟨array._arr.set index value, array.len⟩ index w
    (ARRAY_OK, r.1, r.2)

/-- `Array_new_init`, the loop: `len` is the parameter of the function, `i` the counter and
`returned` the array under construction.  The result `none` inside is the `NULL` return. -/
def Array_new_init_loop {σ : Type} (cb : Callbacks σ) (len : Nat) :
    Nat → Nat → Array → σ → Option (Option Array × σ)
  | 0, _, _, _ => none
  | fuel + 1, i, returned, w =>
    if i < len then
      let r := Array_set cb returned i (i % UINT_MOD) w
      if r.1 = ARRAY_ERR then some (none, r.2.2)
      else Array_new_init_loop cb len fuel ((i + 1) % SIZE_MOD) r.2.1 r.2.2
    else some (some returned, w)

/-- `Array_new_init`: the counter `i` is a `size_t`, converted to `unsigned int` when it is
passed to `Array_set`. -/
def Array_new_init {σ : Type} (cb : Callbacks σ) (fuel len : Nat) (w : σ) :
    Option (Option Array × σ) :=
  Array_new_init_loop cb len fuel 0 (Array_new len) w

/-- `Array_push`. -/
def Array_push {σ : Type} (cb : Callbacks σ) (junk : Nat → Nat) (array : Array) (value : Nat)
    (w : σ) : Array_ResultCondition × Array × σ :=
  let array_prev_len := array.len
  let len1 := (array.len + 1) % SIZE_MOD
  let arr1 := Array_mem_realloc junk array._arr (len1 * sizeof_unsigned_int % SIZE_MOD)
  Array_set cb ⟨arr1, len1⟩ array_prev_len value w

/-- `Array_pop`: the buffer is resized with `new_array_len` as the byte count. -/
def Array_pop {σ : Type} (cb : Callbacks σ) (junk : Nat → Nat) (array : Array) (w : σ) :
    Array_Result × Array × σ :=
  if array.len = 0 then (⟨ARRAY_ERR, 0⟩, array, w)
  else
    let new_array_len := array.len - 1
    let returned := Array_at cb array new_array_len w
    if returned.1.condition = ARRAY_ERR then returned
    else
      (returned.1, ⟨Array_mem_realloc junk returned.2.1._arr new_array_len, new_array_len⟩,
        returned.2.2)

/-- `Array_swap`: get, get, set, set, leaving at the first error. -/
def Array_swap {σ : Type} (cb : Callbacks σ) (array : Array) (index1 index2 : Nat) (w : σ) :
    Array_ResultCondition × Array × σ :=
  let value1 := Array_at cb array index1 w
  if value1.1.condition = ARRAY_ERR then (ARRAY_ERR, value1.2)
  else
    let value2 := Array_at cb value1.2.1 index2 value1.2.2
    if value2.1.condition = ARRAY_ERR then (ARRAY_ERR, value2.2)
    else
      let s1 := Array_set cb value2.2.1 index1 value2.1.value value2.2.2
      if s1.1 = ARRAY_ERR then (ARRAY_ERR, s1.2)
      else
        let s2 := Array_set cb s1.2.1 index2 value1.1.value s1.2.2
        if s2.1 = ARRAY_ERR then (ARRAY_ERR, s2.2)
        else (ARRAY_OK, s2.2)

/-- The condition under which `Array_reorder` returns without exchanging, as the source
writes it: `v1v == v2v || (!(index1 > index2 || v1v > v2v) || (index1 > index2 && v1v > v2v))`. -/
def Array_reorder_skip (index1 index2 v1v v2v : Nat) : Bool :=
  v1v == v2v
    || (!(decide (index1 > index2) || decide (v1v > v2v))
        || (decide (index1 > index2) && decide (v1v > v2v)))

/-- `Array_reorder`. -/
def Array_reorder {σ : Type} (cb : Callbacks σ) (array : Array) (index1 index2 : Nat) (w : σ) :
    Array_Result_Bool × Array × σ :=
  let value1 := Array_at cb array index1 w
  if value1.1.condition = ARRAY_ERR then (⟨ARRAY_ERR, false⟩, value1.2)
  else
    let v1v := value1.1.value
    let value2 := Array_at cb value1.2.1 index2 value1.2.2
    if value2.1.condition = ARRAY_ERR then (⟨ARRAY_ERR, false⟩, value2.2)
    else
      let v2v := value2.1.value
      if Array_reorder_skip index1 index2 v1v v2v = true then
        (⟨ARRAY_OK, false⟩, value2.2)
      else
        let s1 := Array_set cb value2.2.1 index1 v2v value2.2.2
        if s1.1 = ARRAY_ERR then (⟨ARRAY_ERR, false⟩, s1.2)
        else
          let s2 := Array_set cb s1.2.1 index2 v1v s1.2.2
          if s2.1 = ARRAY_ERR then (⟨ARRAY_ERR, false⟩, s2.2)
          else (⟨ARRAY_OK, true⟩, s2.2)

/-- `Array_copy`, the loop: `array` is the source and `returned` the copy; the bound
`returned->len` is read again on every iteration.  The result holds the copy (`none` for
`NULL`), the source array and the world. -/
def Array_copy_loop {σ : Type} (cb : Callbacks σ) :
    Nat → Nat → Array → Array → σ → Option (Option Array × Array × σ)
  | 0, _, _, _, _ => none
  | fuel + 1, i, array, returned, w =>
    if i < returned.len then
      let value := Array_at cb array i w
      if value.1.condition = ARRAY_ERR then some (none, value.2)
      else
        let s := Array_set cb returned i value.1.value value.2.2
        if s.1 = ARRAY_ERR then some (none, value.2.1, s.2.2)
        else Array_copy_loop cb fuel ((i + 1) % SIZE_MOD) value.2.1 s.2.1 s.2.2
    else some (some returned, array, w)

/-- `Array_copy`. -/
def Array_copy {σ : Type} (cb : Callbacks σ) (fuel : Nat) (array : Array) (w : σ) :
    Option (Option Array × Array × σ) :=
  Array_copy_loop cb fuel 0 array (Array_new array.len) w

/-- `Array_reverse`, the loop. -/
def Array_reverse_loop {σ : Type} (cb : Callbacks σ) :
    Nat → Nat → Array → σ → Option (Array_ResultCondition × Array × σ)
  | 0, _, _, _ => none
  | fuel + 1, i, array, w =>
    if i < array.len / 2 then
      let s := Array_swap cb array i (size_sub (size_sub array.len 1) i) w
      if s.1 = ARRAY_ERR then some (ARRAY_ERR, s.2)
      else Array_reverse_loop cb fuel ((i + 1) % SIZE_MOD) s.2.1 s.2.2
    else some (ARRAY_OK, array, w)

/-- `Array_reverse`. -/
def Array_reverse {σ : Type} (cb : Callbacks σ) (fuel : Nat) (array : Array) (w : σ) :
    Option (Array_ResultCondition × Array × σ) :=
  Array_reverse_loop cb fuel 0 array w

/-! ## Selection sort -/

/-- The inner loop of `_ewweew`: the scan for the minimum from `j` on.  The result `none`
inside stands for `Array_propagate_err` leaving the function with `false`; otherwise it is
the final `min_index` and `min_value`. -/
def _ewweew_inner {σ : Type} (cb : Callbacks σ) :
    Nat → Nat → Nat → Array_Result → Array → σ → Option (Option (Nat × Array_Result) × Array × σ)
  | 0, _, _, _, _, _ => none
  | fuel + 1, j, min_index, min_value, array, w =>
    if j < array.len then
      let j_val := Array_at cb array j w
      if j_val.1.condition = ARRAY_ERR then some (none, j_val.2)
      else if j_val.1.value < min_value.value then
        _ewweew_inner cb fuel ((j + 1) % SIZE_MOD) j ⟨min_value.condition, j_val.1.value⟩
          j_val.2.1 j_val.2.2
      else
        _ewweew_inner cb fuel ((j + 1) % SIZE_MOD) min_index min_value j_val.2.1 j_val.2.2
    else some (some (min_index, min_value), array, w)

/-- The outer loop of `_ewweew`; the bound `array->len - 1` is a `size_t` difference. -/
def _ewweew_loop {σ : Type} (cb : Callbacks σ) :
    Nat → Nat → Array → σ → Option (Bool × Array × σ)
  | 0, _, _, _ => none
  | fuel + 1, i, array, w =>
    if i < size_sub array.len 1 then
      let min_value := Array_at cb array i w
      if min_value.1.condition = ARRAY_ERR then some (false, min_value.2)
      else
        match _ewweew_inner cb fuel ((i + 1) % SIZE_MOD) i min_value.1 min_value.2.1
            min_value.2.2 with
        | none => none
        | some (none, rest) => some (false, rest)
        | some (some (min_index, _), array1, w1) =>
          let s := Array_swap cb array1 min_index i w1
          if s.1 = ARRAY_ERR then some (false, s.2)
          else _ewweew_loop cb fuel ((i + 1) % SIZE_MOD) s.2.1 s.2.2
    else some (true, array, w)

/-- The function `_ewweew` of `SelectionSort.c`. -/
def _ewweew {σ : Type} (cb : Callbacks σ) (fuel : Nat) (array : Array) (w : σ) :
    Option (Bool × Array × σ) :=
  _ewweew_loop cb fuel 0 array w

/-- The struct `Algorithm`: the strategy function and its name. -/
structure Algorithm (σ : Type) where
  fun_ : Callbacks σ → Nat → Array → σ → Option (Bool × Array × σ)
  name : String

/-- The strategy `SelectionSort`. -/
def SelectionSort {σ : Type} : Algorithm σ := ⟨_ewweew, "Selection Sort"⟩

/-! ## Validity and frame conditions -/

/-- The data-model invariant: `len` is the number of elements the buffer holds, and the
buffer is an object of at most `PTRDIFF_MAX` bytes. -/
def Array.valid (a : Array) : Prop :=
  a._arr.length = a.len ∧ a.len * sizeof_unsigned_int ≤ PTRDIFF_MAX

instance (a : Array) : Decidable a.valid := by
  unfold Array.valid; infer_instance

/-- Both callbacks hand the array back as they received it. -/
def Callbacks.preserves {σ : Type} (cb : Callbacks σ) : Prop :=
  ∀ (a : Array) (i : Nat) (w : σ),
    (cb._Array_at_callback a i w).1 = a ∧ (cb._Array_set_callback a i w).1 = a


/-- A read callback that only counts its invocations, in the first component of the world. -/
def counting_at_callback : Array_CallbackType (Nat × Nat) :=
  fun array _ w => (array, (w.1 + 1, w.2))

/-- A write callback that only counts its invocations, in the second component of the
world. -/
def counting_set_callback : Array_CallbackType (Nat × Nat) :=
  fun array _ w => (array, (w.1, w.2 + 1))


/-- The number of inversions of `l` among the positions `lo .. hi` (both included): the pairs
of positions `p < q` in that range with `l[p] > l[q]`. -/
def inversions (l : List Nat) (lo hi : Nat) : Nat :=
  ((Finset.Icc lo hi ×ˢ Finset.Icc lo hi).filter
    fun pq => pq.1 < pq.2 ∧ l.getD pq.2 0 < l.getD pq.1 0).card

/-! ## Standard shuffle -/

/-- Conversion of a `size_t` to `int` (32-bit two's complement), as happens to the arguments
of `GetRandomValue`. -/
def size_to_int (x : Nat) : Int :=
  if x % 4294967296 < 2147483648 then ((x % 4294967296 : Nat) : Int)
  else ((x % 4294967296 : Nat) : Int) - 4294967296

/-- Conversion of an `int` to `size_t`, as happens to the result of `GetRandomValue`. -/
def int_to_size (x : Int) : Nat := (x % (SIZE_MOD : Int)).toNat

/-- The loop of `_kjfeefnje`.  The function `GetRandomValue` belongs to the graphics
library; `rand i lo hi` is what its call in iteration `i` returns when asked for the range
`lo .. hi`. -/
def _kjfeefnje_loop {σ : Type} (cb : Callbacks σ) (rand : Nat → Int → Int → Int) :
    Nat → Nat → Array → σ → Option (Bool × Array × σ)
  | 0, _, _, _ => none
  | fuel + 1, i, array, w =>
    if i < size_sub array.len 1 then
      let r := rand i (size_to_int i) (size_to_int (size_sub array.len 1))
      let s := Array_swap cb array i (int_to_size r) w
      if s.1 = ARRAY_ERR then some (false, s.2)
      else _kjfeefnje_loop cb rand fuel ((i + 1) % SIZE_MOD) s.2.1 s.2.2
    else some (true, array, w)

/-- The function `_kjfeefnje` of `StandardShuffle.c`. -/
def _kjfeefnje {σ : Type} (cb : Callbacks σ) (rand : Nat → Int → Int → Int) (fuel : Nat)
    (array : Array) (w : σ) : Option (Bool × Array × σ) :=
  _kjfeefnje_loop cb rand fuel 0 array w

/-- The strategy `StandardShuffle`, for a given random source. -/
def StandardShuffle {σ : Type} (rand : Nat → Int → Int → Int) : Algorithm σ :=
  ⟨fun cb => _kjfeefnje cb rand, "Standard Shuffle"⟩


/-! ## Procedural audio

The audio module in exact arithmetic: in this section a `float` is a rational number and no
operation rounds.  This is the reading of the statements that take the accumulated sum in
exact arithmetic (the order of the pushes, the conversion of a sum to a sample); what the
program computes in binary32 is the section `Procedural audio in binary32` below.  The sound
list lives in a memory of nodes addressed by natural numbers; `MemAlloc` hands out the
address `brk`, which no live node has, and `MemFree` empties a cell.  The mutex is not
modelled: `push_sound` and `next_sample` are the atomic steps. -/

/-- The macro `SAMPLE_RATE`. -/
def SAMPLE_RATE : ℚ := 44100

/-- The function `frequency`. -/
def frequency (value : ℚ) : ℚ := 1320 * value

/-- The struct `SoundList`: one node of the linked list; `next_item` is `none` for `NULL`. -/
structure SoundList where
  waveform : ℚ → ℚ
  volume : ℚ
  value : ℚ
  duration : ℚ
  elapsed : ℚ
  remaining_amplitude : ℚ
  next_item : Option Nat

/-- The state of the audio module: the node memory, the next address `MemAlloc` hands out,
and the global `sound_list`. -/
structure AudioState where
  mem : Nat → Option SoundList
  brk : Nat
  sound_list : Option Nat

/-- The memory with cell `p` replaced by `v`. -/
def mem_write (mem : Nat → Option SoundList) (p : Nat) (v : Option SoundList) :
    Nat → Option SoundList :=
  fun q => if q = p then v else mem q

/-- The empty registry. -/
def AudioState.empty : AudioState := ⟨fun _ => none, 0, none⟩

/-- `push_sound`: a node with `elapsed = 0`, `remaining_amplitude = 1` and the old head as
`next_item` is copied to freshly allocated memory, which becomes the head. -/
def push_sound (waveform : ℚ → ℚ) (volume value duration : ℚ) (st : AudioState) : AudioState :=
  ⟨mem_write st.mem st.brk (some ⟨waveform, volume, value, duration, 0, 1, st.sound_list⟩),
    st.brk + 1, some st.brk⟩

/-- Conversion of a `float` to `short`: the value is truncated toward zero. -/
def float_to_short (x : ℚ) : Int := if 0 ≤ x then ⌊x⌋ else ⌈x⌉

/-- The `return` expression of `next_sample`, as a function of `accumulated_amplitude`. -/
def sample_of (accumulated_amplitude : ℚ) : Int :=
  if accumulated_amplitude ≥ 1 then 32767
  else if accumulated_amplitude < -1 then -32768
  else float_to_short (accumulated_amplitude * 32768)

/-- The loop of `next_sample`.  `current_item` is the pointer the next iteration starts
from: after a removal the source points it to a temporary whose `next_item` is
`sound_to_replace`, so that the loop increment lands on `sound_to_replace`.  Reading a cell
that holds no node is undefined in C and gives `none` here, as does running out of fuel. -/
def next_sample_loop :
    Nat → ℚ → Option Nat → Option Nat → AudioState → Option (ℚ × AudioState)
  | 0, _, _, _, _ => none
  | fuel + 1, accumulated_amplitude, previous_item, current_item, st =>
    match current_item with
    | none => some (accumulated_amplitude, st)
    | some c =>
      match st.mem c with
      | none => none
      | some item =>
        let acc1 := accumulated_amplitude +
          item.waveform (frequency item.value * item.elapsed) * item.volume
            * item.remaining_amplitude
        let item1 : SoundList := ⟨item.waveform, item.volume, item.value, item.duration,
          item.elapsed, item.remaining_amplitude - 1 / item.duration / SAMPLE_RATE,
          item.next_item⟩
        if item1.remaining_amplitude ≥ 0 then
          let item2 : SoundList := ⟨item1.waveform, item1.volume, item1.value, item1.duration,
            item1.elapsed + 1 / SAMPLE_RATE, item1.remaining_amplitude, item1.next_item⟩
          next_sample_loop fuel acc1 (some c) item2.next_item
            ⟨mem_write st.mem c (some item2), st.brk, st.sound_list⟩
        else
          let sound_to_replace := item1.next_item
          let mem1 := mem_write st.mem c none
          match previous_item with
          | none => next_sample_loop fuel acc1 none sound_to_replace
              ⟨mem1, st.brk, sound_to_replace⟩
          | some p =>
            match mem1 p with
            | none => none
            | some prev =>
              next_sample_loop fuel acc1 (some p) sound_to_replace
                ⟨mem_write mem1 p (some ⟨prev.waveform, prev.volume, prev.value,
                    prev.duration, prev.elapsed, prev.remaining_amplitude, sound_to_replace⟩),
                  st.brk, st.sound_list⟩

/-- `next_sample`: the sample and the state afterwards. -/
def next_sample (fuel : Nat) (st : AudioState) : Option (Int × AudioState) :=
  (next_sample_loop fuel 0 none st.sound_list st).map fun r => (sample_of r.1, r.2)

/-- The samples of `k` calls of `next_sample` in a row, and the state afterwards. -/
def next_samples (fuel : Nat) : Nat → AudioState → Option (List Int × AudioState)
  | 0, st => some ([], st)
  | k + 1, st =>
    match next_sample fuel st with
    | none => none
    | some (s, st1) => (next_samples fuel k st1).map fun r => (s :: r.1, r.2)

/-! ### The registry as the specification describes it -/

/-- A sound event: waveform selector, volume, pitch parameter, duration, elapsed time and
remaining amplitude. -/
structure SoundEvent where
  waveform : ℚ → ℚ
  volume : ℚ
  value : ℚ
  duration : ℚ
  elapsed : ℚ
  remaining_amplitude : ℚ

/-- The event a node carries. -/
def SoundList.event (n : SoundList) : SoundEvent :=
  ⟨n.waveform, n.volume, n.value, n.duration, n.elapsed, n.remaining_amplitude⟩

/-- Specification: the contribution of an event to a sample,
`waveform(frequency(value) * elapsed) * volume * remaining_amplitude`. -/
def spec_contribution (e : SoundEvent) : ℚ :=
  e.waveform (frequency e.value * e.elapsed) * e.volume * e.remaining_amplitude

/-- Specification: the amplitude is decreased by `1 / (duration * 44100)`; the event is
retained, with `elapsed` advanced by `1 / 44100`, when the result is `>= 0`, and removed
otherwise. -/
def spec_advance (e : SoundEvent) : Option SoundEvent :=
  if e.remaining_amplitude - 1 / (e.duration * 44100) ≥ 0 then
    some ⟨e.waveform, e.volume, e.value, e.duration, e.elapsed + 1 / 44100,
      e.remaining_amplitude - 1 / (e.duration * 44100)⟩
  else none

/-- Specification: one render step is a filter-map over the registry; the sum of the
contributions and the registry afterwards. -/
def spec_render (registry : List SoundEvent) : ℚ × List SoundEvent :=
  ((registry.map spec_contribution).sum, registry.filterMap spec_advance)

/-- Specification: the samples of `k` render steps. -/
def spec_samples : Nat → List SoundEvent → List Int
  | 0, _ => []
  | k + 1, registry =>
    sample_of (spec_render registry).1 :: spec_samples k (spec_render registry).2

/-- The list segment of the node memory that starts at pointer `p`, runs through the
addresses `addrs` carrying the events `events`, and ends with the pointer `q`. -/
def lseg (mem : Nat → Option SoundList) : Option Nat → List Nat → List SoundEvent →
    Option Nat → Prop
  | p, [], [], q => p = q
  | p, a :: addrs, e :: events, q =>
    p = some a ∧ ∃ node, mem a = some node ∧ node.event = e ∧
      lseg mem node.next_item addrs events q
  | _, _, _, _ => False

/-- The state holds the registry `events` at the pairwise distinct live addresses `addrs`. -/
def AudioState.holds (st : AudioState) (addrs : List Nat) (events : List SoundEvent) : Prop :=
  lseg st.mem st.sound_list addrs events none ∧ addrs.Nodup ∧ ∀ a ∈ addrs, a < st.brk


/-- The part of the list already walked through: `ks` are the addresses of the nodes kept so
far, `kes` their events, `prev` is the source's `previous_item` and `cur` the pointer the
last kept node (or the head, when none was kept) holds. -/
def kept (mem : Nat → Option SoundList) (head prev cur : Option Nat) (ks : List Nat)
    (kes : List SoundEvent) : Prop :=
  match prev with
  | none => ks = [] ∧ kes = [] ∧ head = cur
  | some p => ∃ ks0 kes0 node, ks = ks0 ++ [p] ∧ kes = kes0 ++ [node.event] ∧
      lseg mem head ks0 kes0 (some p) ∧ mem p = some node ∧ node.next_item = cur


/-- The C library function `fmod`: the remainder of `x / y` with the quotient truncated
toward zero, so that the result has the sign of `x`. -/
def fmod (x y : ℚ) : ℚ := x - y * (if 0 ≤ x / y then (⌊x / y⌋ : ℚ) else (⌈x / y⌉ : ℚ))

/-- The function `triangle_wave`. -/
def triangle_wave (x : ℚ) : ℚ :=
  let intermediate := fmod (x + 1 / 4) 1
  if intermediate < 1 / 2 then 4 * intermediate - 1 else -4 * intermediate + 3


/-! ## The demonstration pipeline -/

/-- Value of `INT_MAX` (32-bit `int`). -/
def INT_MAX : Int := 2147483647

/-- The array steps of `show_sort`: `sort_array = Array_new_init(array_size)`, then
`if (!shuffle.fun(sort_array)) return false;`, then `if (!sort.fun(sort_array)) return
false;`, then `return true`.  The pacing calls, the status text and the access delay act on
program state the array does not depend on and are left out.  The result is `none` when the
fuel runs out or when `Array_new_init` returns `NULL`, which the source hands to the shuffle
unchecked. -/
def show_sort {σ : Type} (cb : Callbacks σ) (sort : Algorithm σ) (fuel array_size : Nat)
    (shuffle : Algorithm σ) (w : σ) : Option (Bool × Array × σ) :=
  match Array_new_init cb fuel array_size w with
  | none => none
  | some (none, _) => none
  | some (some sort_array, w1) =>
    match shuffle.fun_ cb fuel sort_array w1 with
    | none => none
    | some (false, rest) => some (false, rest)
    | some (true, array2, w2) => sort.fun_ cb fuel array2 w2


/-- A callback that checks, at each invocation, that the accessed element is below `len`,
and keeps in the world whether every check so far has passed. -/
def range_check_callback : Array_CallbackType Bool :=
  fun array index ok => (array, ok && decide (array._arr.getD index 0 < array.len))

/-- The checking callback in both slots. -/
def range_check : Callbacks Bool := ⟨range_check_callback, range_check_callback⟩

/-! ## Arrays in memory

`Array` is a pointer to a `struct Array`, whose `_arr` points to the buffer.  What two
arrays share is a matter of addresses, so here the functions above are applied through
pointers into a memory of structs and blocks.  An address names a block of the allocator:
a block that `Array_mem_realloc` resizes keeps its name, wherever the allocator places
it. -/

/-- The memory the arrays live in: `structs p` is the `struct Array` at address `p`, given by
the address of its buffer and its `len`; `blocks q` holds the elements of the block at
address `q`; `brk` is the next address the allocator hands out. -/
structure Memory where
  structs : Nat → Option (Nat × Nat)
  blocks : Nat → Option (List Nat)
  brk : Nat

/-- The array a pointer refers to: `array->_arr` and `array->len`, with the elements of the
buffer; `none` when the pointer refers to no live array. -/
def Memory.load (m : Memory) (array : Nat) : Option Array :=
  match m.structs array with
  | none => none
  | some (q, len) =>
    match m.blocks q with
    | none => none
    | some l => some ⟨l, len⟩

/-- Writing back the length and the elements of the array a pointer refers to. -/
def Memory.store (m : Memory) (array : Nat) (a : Array) : Memory :=
  match m.structs array with
  | none => m
  | some (q, _) =>
    ⟨fun x => if x = array then some (q, a.len) else m.structs x,
      fun y => if y = q then some a._arr else m.blocks y, m.brk⟩

/-- A function of the library applied through the pointer `array`: it works on the struct and
the buffer `array` refers to and on nothing else in memory. -/
def Memory.through {σ ρ : Type} (m : Memory) (array : Nat) (f : Array → ρ × Array × σ) :
    Option (ρ × Memory × σ) :=
  (m.load array).map fun a => ((f a).1, m.store array (f a).2.1, (f a).2.2)

/-- `Array_new` in memory: the struct and the buffer are two fresh blocks of the allocator. -/
def Memory.Array_new (m : Memory) (len : Nat) : Nat × Memory :=
  (m.brk,
    ⟨fun x => if x = m.brk then some (m.brk + 1, len) else m.structs x,
      fun y => if y = m.brk + 1 then some (SortVis.Array_new len)._arr else m.blocks y,
      m.brk + 2⟩)

/-- `Array_free`: the buffer and the struct are given back. -/
def Memory.Array_free (m : Memory) (array : Nat) : Memory :=
  match m.structs array with
  | none => m
  | some (q, _) =>
    ⟨fun x => if x = array then none else m.structs x,
      fun y => if y = q then none else m.blocks y, m.brk⟩

/-- `Array_at` through a pointer. -/
def Memory.Array_at {σ : Type} (cb : Callbacks σ) (m : Memory) (array index : Nat) (w : σ) :
    Option (Array_Result × Memory × σ) :=
  m.through array fun a => SortVis.Array_at cb a index w

/-- `Array_set` through a pointer. -/
def Memory.Array_set {σ : Type} (cb : Callbacks σ) (m : Memory) (array index value : Nat)
    (w : σ) : Option (Array_ResultCondition × Memory × σ) :=
  m.through array fun a => SortVis.Array_set cb a index value w

/-- `Array_swap` through a pointer. -/
def Memory.Array_swap {σ : Type} (cb : Callbacks σ) (m : Memory) (array index1 index2 : Nat)
    (w : σ) : Option (Array_ResultCondition × Memory × σ) :=
  m.through array fun a => SortVis.Array_swap cb a index1 index2 w

/-- `Array_push` through a pointer. -/
def Memory.Array_push {σ : Type} (cb : Callbacks σ) (junk : Nat → Nat) (m : Memory)
    (array value : Nat) (w : σ) : Option (Array_ResultCondition × Memory × σ) :=
  m.through array fun a => SortVis.Array_push cb junk a value w

/-- `Array_pop` through a pointer. -/
def Memory.Array_pop {σ : Type} (cb : Callbacks σ) (junk : Nat → Nat) (m : Memory)
    (array : Nat) (w : σ) : Option (Array_Result × Memory × σ) :=
  m.through array fun a => SortVis.Array_pop cb junk a w

/-- `Array_copy`, the loop, on pointers: `array` is the source and `returned` the copy; the
result holds the returned pointer (`none` for `NULL`), the memory and the world. -/
def Memory.Array_copy_loop {σ : Type} (cb : Callbacks σ) :
    Nat → Nat → Nat → Nat → Memory → σ → Option (Option Nat × Memory × σ)
  | 0, _, _, _, _, _ => none
  | fuel + 1, i, array, returned, m, w =>
    match m.load returned with
    | none => none
    | some r =>
      if i < r.len then
        match Memory.Array_at cb m array i w with
        | none => none
        | some value =>
          if value.1.condition = ARRAY_ERR then
            some (none, Memory.Array_free value.2.1 returned, value.2.2)
          else
            match Memory.Array_set cb value.2.1 returned i value.1.value value.2.2 with
            | none => none
            | some s =>
              if s.1 = ARRAY_ERR then some (none, Memory.Array_free s.2.1 returned, s.2.2)
              else Memory.Array_copy_loop cb fuel ((i + 1) % SIZE_MOD) array returned s.2.1 s.2.2
      else some (some returned, m, w)

/-- `Array_copy` on pointers: `returned = Array_new (array->len)`, then the loop. -/
def Memory.Array_copy {σ : Type} (cb : Callbacks σ) (fuel : Nat) (m : Memory) (array : Nat)
    (w : σ) : Option (Option Nat × Memory × σ) :=
  match m.load array with
  | none => none
  | some a =>
    Memory.Array_copy_loop cb fuel 0 array (Memory.Array_new m a.len).1
      (Memory.Array_new m a.len).2 w

/-- A binary32 value: a finite value `units * 2^-149` with its sign (so that the two zeros
differ), an infinity, or a NaN. -/
inductive Float32 where
  | finite (negative : Bool) (units : Nat)
  | infinite (negative : Bool)
  | nan
deriving DecidableEq

/-- The value 1 in units: `2^149`. -/
def Float32.ONE_UNITS : Nat := 713623846352979940529142984724747568191373312

/-- The first magnitude that is too large to be finite, `2^128`, in units: `2^277`. -/
def Float32.LIMIT_UNITS : Nat :=
  242833611528216133864932738352939863330300854881517440156476551217363035650651062272

/-- The exponent of the quantum: `q` is halved until it is below `2^24`. -/
def Float32.shift_loop : Nat → Nat → Nat
  | 0, _ => 0
  | fuel + 1, q => if q < 16777216 then 0 else Float32.shift_loop fuel (q / 2) + 1

/-- The exponent `s` of the quantum `2^s` units of a magnitude of `q` whole units: 0 for the
subnormal values and the first binade of normal ones, otherwise the `s` for which `q / 2^s`
has 24 significant bits. -/
def Float32.shift (q : Nat) : Nat := Float32.shift_loop q q

/-- The magnitude `n / d` units rounded to nearest, ties to even: in units. -/
@[irreducible]
def Float32.round_units (n d : Nat) : Nat :=
  let s := Float32.shift (n / d)
  let q := n / (d * 2 ^ s)
  let r := n % (d * 2 ^ s)
  (if 2 * r < d * 2 ^ s then q
    else if d * 2 ^ s < 2 * r then q + 1
    else if q % 2 = 0 then q else q + 1) * 2 ^ s

/-- The binary32 value nearest to `± n / d` units; a result of magnitude `2^128` or more is
an infinity. -/
def Float32.round (negative : Bool) (n d : Nat) : Float32 :=
  if Float32.round_units n d < Float32.LIMIT_UNITS then
    Float32.finite negative (Float32.round_units n d)
  else Float32.infinite negative

/-- Unary minus. -/
def Float32.neg : Float32 → Float32
  | Float32.finite s k => Float32.finite (!s) k
  | Float32.infinite s => Float32.infinite (!s)
  | Float32.nan => Float32.nan

/-- Addition.  An exact zero sum of opposite signs is `+0`. -/
def Float32.add : Float32 → Float32 → Float32
  | Float32.finite s j, Float32.finite t k =>
    if s = t then Float32.round s (j + k) 1
    else if k < j then Float32.round s (j - k) 1
    else if j < k then Float32.round t (k - j) 1
    else Float32.finite false 0
  | Float32.finite _ _, Float32.infinite t => Float32.infinite t
  | Float32.infinite s, Float32.finite _ _ => Float32.infinite s
  | Float32.infinite s, Float32.infinite t => if s = t then Float32.infinite s else Float32.nan
  | _, _ => Float32.nan

/-- Subtraction. -/
def Float32.sub (x y : Float32) : Float32 := Float32.add x (Float32.neg y)

/-- Multiplication. -/
def Float32.mul : Float32 → Float32 → Float32
  | Float32.finite s j, Float32.finite t k =>
    Float32.round (xor s t) (j * k) Float32.ONE_UNITS
  | Float32.finite s j, Float32.infinite t =>
    if j = 0 then Float32.nan else Float32.infinite (xor s t)
  | Float32.infinite s, Float32.finite t k =>
    if k = 0 then Float32.nan else Float32.infinite (xor s t)
  | Float32.infinite s, Float32.infinite t => Float32.infinite (xor s t)
  | _, _ => Float32.nan

/-- Division. -/
def Float32.div : Float32 → Float32 → Float32
  | Float32.finite s j, Float32.finite t k =>
    if k = 0 then (if j = 0 then Float32.nan else Float32.infinite (xor s t))
    else Float32.round (xor s t) (j * Float32.ONE_UNITS) k
  | Float32.finite s _, Float32.infinite t => Float32.finite (xor s t) 0
  | Float32.infinite s, Float32.finite t _ => Float32.infinite (xor s t)
  | _, _ => Float32.nan

/-- The place of a value in the order of the comparisons: the two zeros are equal, the
infinities lie beyond every finite value, and a NaN has no place. -/
def Float32.key : Float32 → Option Int
  | Float32.finite s k => some (if s then -(k : Int) else (k : Int))
  | Float32.infinite s =>
    some (if s then -(Float32.LIMIT_UNITS : Int) else (Float32.LIMIT_UNITS : Int))
  | Float32.nan => none

/-- The comparison `x < y`; false when an operand is a NaN. -/
def Float32.lt (x y : Float32) : Bool :=
  match Float32.key x, Float32.key y with
  | some a, some b => decide (a < b)
  | _, _ => false

/-- The comparison `x <= y`, which is also `y >= x`; false when an operand is a NaN. -/
def Float32.le (x y : Float32) : Bool :=
  match Float32.key x, Float32.key y with
  | some a, some b => decide (a ≤ b)
  | _, _ => false

/-- Conversion of a non-negative integer to `float`. -/
def Float32.of_nat (n : Nat) : Float32 := Float32.round false (n * Float32.ONE_UNITS) 1

/-- The `float` nearest to the fraction `n / d`: the value of a decimal constant. -/
def Float32.of_ratio (n d : Nat) : Float32 := Float32.round false (n * Float32.ONE_UNITS) d

/-- The rational number a finite value stands for (0 for an infinity or a NaN). -/
def Float32.toRat : Float32 → ℚ
  | Float32.finite s k =>
    if s then -((k : ℚ) / (Float32.ONE_UNITS : ℚ)) else (k : ℚ) / (Float32.ONE_UNITS : ℚ)
  | _ => 0

/-- The magnitude `n` units rounded with the quantum `2^s` units, ties to even. -/
def Float32.rne (n s : Nat) : Nat :=
  (if 2 * (n % 2 ^ s) < 2 ^ s then n / 2 ^ s
    else if 2 ^ s < 2 * (n % 2 ^ s) then n / 2 ^ s + 1
    else if (n / 2 ^ s) % 2 = 0 then n / 2 ^ s else n / 2 ^ s + 1) * 2 ^ s

/-- The exponent `s` is that of the quantum of `n` units. -/
def Float32.shift_valid (s n : Nat) : Bool :=
  decide (n / 2 ^ s < 16777216) && (s == 0 || decide (8388608 ≤ n / 2 ^ s))

/-! ## Pacing -/

/-- The pacing state: the global accumulator `pause`, a `float`, the number of readings of
`clock()` made so far, and the number of calls of `sched_yield()` made so far. -/
structure Pacing where
  pause : Float32
  reads : Nat
  yields : Nat
deriving DecidableEq

/-- The loop `while (clock() < pause) sched_yield();` of the macro `pause_for`.  The value
`clock k` is what the `k`-th reading of the processor clock returns; it is converted to
`float` for the comparison with `pause`. -/
def pause_for_wait (clock : Nat → Nat) : Nat → Pacing → Option Pacing
  | 0, _ => none
  | fuel + 1, st =>
    if Float32.lt (Float32.of_nat (clock st.reads)) st.pause = true then
      pause_for_wait clock fuel ⟨st.pause, st.reads + 1, st.yields + 1⟩
    else some ⟨st.pause, st.reads + 1, st.yields⟩

/-- The delay of `pause_for (ms)` in clock ticks, the `float` expression
`ms * CLOCKS_PER_SEC / 1000`: the two integers are converted to `float`, the product and the
quotient are rounded. -/
def pause_ticks (CLOCKS_PER_SEC : Nat) (ms : Float32) : Float32 :=
  Float32.div (Float32.mul ms (Float32.of_nat CLOCKS_PER_SEC)) (Float32.of_nat 1000)

/-- The macro `pause_for (ms)`: `pause += ms * CLOCKS_PER_SEC / 1000;` and then the loop.
`CLOCKS_PER_SEC` is a constant of the C library and is a parameter here. -/
def pause_for (CLOCKS_PER_SEC : Nat) (clock : Nat → Nat) (fuel : Nat) (ms : Float32)
    (st : Pacing) : Option Pacing :=
  pause_for_wait clock fuel
    ⟨Float32.add st.pause (pause_ticks CLOCKS_PER_SEC ms), st.reads, st.yields⟩

/-- The macro `pause_for (ms)` expanded `n` times in a row. -/
def pause_for_times (CLOCKS_PER_SEC : Nat) (clock : Nat → Nat) (fuel : Nat) (ms : Float32) :
    Nat → Pacing → Option Pacing
  | 0, st => some st
  | n + 1, st =>
    match pause_for CLOCKS_PER_SEC clock fuel ms st with
    | none => none
    | some st1 => pause_for_times CLOCKS_PER_SEC clock fuel ms n st1

/-- The accumulator after `n` additions of the delay `ticks`, each of them rounded. -/
def pause_after (ticks : Float32) : Nat → Float32 → Float32
  | 0, pause => pause
  | n + 1, pause => pause_after ticks n (Float32.add pause ticks)

/-! ## Procedural audio in binary32

The audio module again, with every `float` a `Float32` and every operation rounded as the
program rounds it.  The memory of nodes, the allocation and the atomic steps are as above. -/

/-- The macro `SAMPLE_RATE`, the `int` 44100, converted to `float` where it meets one. -/
def Binary32.SAMPLE_RATE : Float32 := Float32.of_nat 44100

/-- The function `frequency`: `1320.0f * value`. -/
def Binary32.frequency (value : Float32) : Float32 := Float32.mul (Float32.of_nat 1320) value

/-- The struct `SoundList`: one node of the linked list; `next_item` is `none` for `NULL`. -/
structure Binary32.SoundList where
  waveform : Float32 → Float32
  volume : Float32
  value : Float32
  duration : Float32
  elapsed : Float32
  remaining_amplitude : Float32
  next_item : Option Nat

/-- The state of the audio module: the node memory, the next address `MemAlloc` hands out,
and the global `sound_list`. -/
structure Binary32.AudioState where
  mem : Nat → Option Binary32.SoundList
  brk : Nat
  sound_list : Option Nat

/-- The memory with cell `p` replaced by `v`. -/
def Binary32.mem_write (mem : Nat → Option Binary32.SoundList) (p : Nat)
    (v : Option Binary32.SoundList) : Nat → Option Binary32.SoundList :=
  fun q => if q = p then v else mem q

/-- The empty registry. -/
def Binary32.AudioState.empty : Binary32.AudioState := ⟨fun _ => none, 0, none⟩

/-- `push_sound`: a node with `elapsed = 0.0f`, `remaining_amplitude = 1.0f` and the old head
as `next_item` is copied to freshly allocated memory, which becomes the head. -/
def Binary32.push_sound (waveform : Float32 → Float32) (volume value duration : Float32)
    (st : Binary32.AudioState) : Binary32.AudioState :=
  ⟨Binary32.mem_write st.mem st.brk (some ⟨waveform, volume, value, duration,
      Float32.of_nat 0, Float32.of_nat 1, st.sound_list⟩),
    st.brk + 1, some st.brk⟩

/-- Conversion of a `float` to `short`: a finite value is truncated toward zero.  The
conversion of a value whose truncation is outside the range of `short`, of an infinity or of
a NaN is undefined in C and is 0 here. -/
def Binary32.float_to_short : Float32 → Int
  | Float32.finite s k =>
    if s then (if k / Float32.ONE_UNITS ≤ 32768 then -((k / Float32.ONE_UNITS : Nat) : Int)
      else 0)
    else (if k / Float32.ONE_UNITS ≤ 32767 then ((k / Float32.ONE_UNITS : Nat) : Int) else 0)
  | _ => 0

/-- The `return` expression of `next_sample`, as a function of `accumulated_amplitude`:
`accumulated_amplitude >= 1 ? 32767 : accumulated_amplitude < -1 ? -32768 :
accumulated_amplitude * 32768.0f`. -/
def Binary32.sample_of (accumulated_amplitude : Float32) : Int :=
  if Float32.le (Float32.of_nat 1) accumulated_amplitude = true then 32767
  else if Float32.lt accumulated_amplitude (Float32.neg (Float32.of_nat 1)) = true then -32768
  else Binary32.float_to_short (Float32.mul accumulated_amplitude (Float32.of_nat 32768))

/-- The amount `1.0f / duration / SAMPLE_RATE` by which a call of `next_sample` decreases the
amplitude: two divisions, each rounded. -/
def Binary32.decrement (duration : Float32) : Float32 :=
  Float32.div (Float32.div (Float32.of_nat 1) duration) Binary32.SAMPLE_RATE

/-- The loop of `next_sample`.  `current_item` is the pointer the next iteration starts
from: after a removal the source points it to a temporary whose `next_item` is
`sound_to_replace`, so that the loop increment lands on `sound_to_replace`.  Reading a cell
that holds no node is undefined in C and gives `none` here, as does running out of fuel. -/
def Binary32.next_sample_loop :
    Nat → Float32 → Option Nat → Option Nat → Binary32.AudioState →
      Option (Float32 × Binary32.AudioState)
  | 0, _, _, _, _ => none
  | fuel + 1, accumulated_amplitude, previous_item, current_item, st =>
    match current_item with
    | none => some (accumulated_amplitude, st)
    | some c =>
      match st.mem c with
      | none => none
      | some item =>
        let acc1 := Float32.add accumulated_amplitude
          (Float32.mul
            (Float32.mul (item.waveform (Float32.mul (Binary32.frequency item.value)
              item.elapsed)) item.volume)
            item.remaining_amplitude)
        let item1 : Binary32.SoundList := ⟨item.waveform, item.volume, item.value,
          item.duration, item.elapsed,
          Float32.sub item.remaining_amplitude
            (Float32.div (Float32.div (Float32.of_nat 1) item.duration) Binary32.SAMPLE_RATE),
          item.next_item⟩
        if Float32.le (Float32.of_nat 0) item1.remaining_amplitude = true then
          let item2 : Binary32.SoundList := ⟨item1.waveform, item1.volume, item1.value,
            item1.duration,
            Float32.add item1.elapsed (Float32.div (Float32.of_nat 1) Binary32.SAMPLE_RATE),
            item1.remaining_amplitude, item1.next_item⟩
          Binary32.next_sample_loop fuel acc1 (some c) item2.next_item
            ⟨Binary32.mem_write st.mem c (some item2), st.brk, st.sound_list⟩
        else
          let sound_to_replace := item1.next_item
          let mem1 := Binary32.mem_write st.mem c none
          match previous_item with
          | none => Binary32.next_sample_loop fuel acc1 none sound_to_replace
              ⟨mem1, st.brk, sound_to_replace⟩
          | some p =>
            match mem1 p with
            | none => none
            | some prev =>
              Binary32.next_sample_loop fuel acc1 (some p) sound_to_replace
                ⟨Binary32.mem_write mem1 p (some ⟨prev.waveform, prev.volume, prev.value,
                    prev.duration, prev.elapsed, prev.remaining_amplitude, sound_to_replace⟩),
                  st.brk, st.sound_list⟩

/-- `next_sample`: the sample and the state afterwards. -/
def Binary32.next_sample (fuel : Nat) (st : Binary32.AudioState) :
    Option (Int × Binary32.AudioState) :=
  (Binary32.next_sample_loop fuel (Float32.of_nat 0) none st.sound_list st).map
    fun r => (Binary32.sample_of r.1, r.2)

/-- The samples of `k` calls of `next_sample` in a row, and the state afterwards. -/
def Binary32.next_samples (fuel : Nat) :
    Nat → Binary32.AudioState → Option (List Int × Binary32.AudioState)
  | 0, st => some ([], st)
  | k + 1, st =>
    match Binary32.next_sample fuel st with
    | none => none
    | some (s, st1) => (Binary32.next_samples fuel k st1).map fun r => (s :: r.1, r.2)

/-! ### The registry as the specification describes it, in binary32 -/

/-- A sound event: waveform selector, volume, pitch parameter, duration, elapsed time and
remaining amplitude. -/
structure Binary32.SoundEvent where
  waveform : Float32 → Float32
  volume : Float32
  value : Float32
  duration : Float32
  elapsed : Float32
  remaining_amplitude : Float32

/-- The event a node carries. -/
def Binary32.SoundList.event (n : Binary32.SoundList) : Binary32.SoundEvent :=
  ⟨n.waveform, n.volume, n.value, n.duration, n.elapsed, n.remaining_amplitude⟩

/-- Specification: the contribution of an event to a sample,
`waveform(frequency(value) * elapsed) * volume * remaining_amplitude`, the products
rounded. -/
def Binary32.spec_contribution (e : Binary32.SoundEvent) : Float32 :=
  Float32.mul
    (Float32.mul (e.waveform (Float32.mul (Binary32.frequency e.value) e.elapsed)) e.volume)
    e.remaining_amplitude

/-- Specification: the amplitude is decreased by the `float` value of
`1.0f / duration / 44100`; the event is retained, with `elapsed` advanced by the `float`
value of `1 / 44100`, when the result is `>= 0`, and removed otherwise. -/
def Binary32.spec_advance (e : Binary32.SoundEvent) : Option Binary32.SoundEvent :=
  if Float32.le (Float32.of_nat 0)
      (Float32.sub e.remaining_amplitude (Binary32.decrement e.duration)) = true then
    some ⟨e.waveform, e.volume, e.value, e.duration,
      Float32.add e.elapsed (Float32.div (Float32.of_nat 1) (Float32.of_nat 44100)),
      Float32.sub e.remaining_amplitude (Binary32.decrement e.duration)⟩
  else none

/-- Specification: one render step is a filter-map over the registry; the contributions are
added to `0.0f` one after the other, from the head of the registry on, and the result is the
sum and the registry afterwards. -/
def Binary32.spec_render (registry : List Binary32.SoundEvent) :
    Float32 × List Binary32.SoundEvent :=
  ((registry.map Binary32.spec_contribution).foldl Float32.add (Float32.of_nat 0),
    registry.filterMap Binary32.spec_advance)

/-- Specification: the registry after `k` render steps. -/
def Binary32.spec_registry : Nat → List Binary32.SoundEvent → List Binary32.SoundEvent
  | 0, registry => registry
  | k + 1, registry => Binary32.spec_registry k (Binary32.spec_render registry).2

/-- The list segment of the node memory that starts at pointer `p`, runs through the
addresses `addrs` carrying the events `events`, and ends with the pointer `q`. -/
def Binary32.lseg (mem : Nat → Option Binary32.SoundList) :
    Option Nat → List Nat → List Binary32.SoundEvent → Option Nat → Prop
  | p, [], [], q => p = q
  | p, a :: addrs, e :: events, q =>
    p = some a ∧ ∃ node, mem a = some node ∧ node.event = e ∧
      Binary32.lseg mem node.next_item addrs events q
  | _, _, _, _ => False

/-- The state holds the registry `events` at the pairwise distinct live addresses `addrs`. -/
def Binary32.AudioState.holds (st : Binary32.AudioState) (addrs : List Nat)
    (events : List Binary32.SoundEvent) : Prop :=
  Binary32.lseg st.mem st.sound_list addrs events none ∧ addrs.Nodup ∧
    ∀ a ∈ addrs, a < st.brk

/-- The part of the list already walked through: `ks` are the addresses of the nodes kept so
far, `kes` their events, `prev` is the source's `previous_item` and `cur` the pointer the
last kept node (or the head, when none was kept) holds. -/
def Binary32.kept (mem : Nat → Option Binary32.SoundList) (head prev cur : Option Nat)
    (ks : List Nat) (kes : List Binary32.SoundEvent) : Prop :=
  match prev with
  | none => ks = [] ∧ kes = [] ∧ head = cur
  | some p => ∃ ks0 kes0 node, ks = ks0 ++ [p] ∧ kes = kes0 ++ [node.event] ∧
      Binary32.lseg mem head ks0 kes0 (some p) ∧ mem p = some node ∧ node.next_item = cur

/-- The states the audio module can be in: the empty registry, a state after `push_sound`
with a duration above 0, a state after a call of `next_sample` that returned. -/
inductive Binary32.Reachable : Binary32.AudioState → Prop where
  | empty : Binary32.Reachable Binary32.AudioState.empty
  | push (st : Binary32.AudioState) (waveform : Float32 → Float32)
      (volume value duration : Float32) :
      Binary32.Reachable st → Float32.lt (Float32.of_nat 0) duration = true →
      Binary32.Reachable (Binary32.push_sound waveform volume value duration st)
  | next (st st1 : Binary32.AudioState) (fuel : Nat) (s : Int) :
      Binary32.Reachable st → Binary32.next_sample fuel st = some (s, st1) →
      Binary32.Reachable st1

/-- The bounds of an event: amplitude in `[0, 1]`, elapsed time not below 0, duration above
0, as the comparisons of the program see them. -/
def Binary32.SoundEvent.bounded (e : Binary32.SoundEvent) : Prop :=
  Float32.le (Float32.of_nat 0) e.remaining_amplitude = true ∧
  Float32.le e.remaining_amplitude (Float32.of_nat 1) = true ∧
  Float32.le (Float32.of_nat 0) e.elapsed = true ∧
  Float32.lt (Float32.of_nat 0) e.duration = true

/-- Specification: `k` render steps on one event; `none` once it has been removed. -/
def Binary32.spec_advance_times : Nat → Binary32.SoundEvent → Option Binary32.SoundEvent
  | 0, e => some e
  | k + 1, e =>
    match Binary32.spec_advance e with
    | none => none
    | some e1 => Binary32.spec_advance_times k e1

/-- The amplitude `r` after `k` calls of `next_sample`, each of which decreases it by `δ`;
`none` once a decrease has made it negative, which is when the event is removed. -/
def Binary32.amplitude_after (δ : Float32) : Nat → Float32 → Option Float32
  | 0, r => some r
  | k + 1, r =>
    if Float32.le (Float32.of_nat 0) (Float32.sub r δ) = true then
      Binary32.amplitude_after δ k (Float32.sub r δ)
    else none

/-- The events `push_sound` makes of a list of calls, given as waveform, volume, value and
duration: the last call first. -/
def Binary32.pushed_events :
    List ((Float32 → Float32) × Float32 × Float32 × Float32) → List Binary32.SoundEvent
  | [] => []
  | c :: calls =>
    Binary32.pushed_events calls ++
      [⟨c.1, c.2.1, c.2.2.1, c.2.2.2, Float32.of_nat 0, Float32.of_nat 1⟩]

/-- The calls of `push_sound` of a list made one after the other, the first of the list
first. -/
def Binary32.push_sounds :
    List ((Float32 → Float32) × Float32 × Float32 × Float32) → Binary32.AudioState →
      Binary32.AudioState
  | [], st => st
  | c :: calls, st =>
    Binary32.push_sounds calls (Binary32.push_sound c.1 c.2.1 c.2.2.1 c.2.2.2 st)

/-- A run of `k` decreases of an amplitude of `r` units by `δ` units, all rounded with the
quantum `2^s` units; `none` when a decrease makes the amplitude negative, or when `s` is not
the exponent of the quantum of a difference. -/
def Float32.decay_run (δ s : Nat) : Nat → Nat → Option Nat
  | 0, r => some r
  | k + 1, r =>
    if δ ≤ r ∧ Float32.shift_valid s (r - δ) = true ∧
        Float32.rne (r - δ) s < Float32.LIMIT_UNITS then
      Float32.decay_run δ s k (Float32.rne (r - δ) s)
    else none

/-- Runs of decreases, each given by the exponent of its quantum and its length. -/
def Float32.decay_runs (δ : Nat) : List (Nat × Nat) → Nat → Option Nat
  | [], r => some r
  | run :: runs, r =>
    match Float32.decay_run δ run.1 run.2 r with
    | none => none
    | some r1 => Float32.decay_runs δ runs r1

theorem Callbacks.default_preserves {σ : Type} : (Callbacks.default : Callbacks σ).preserves := by
  intro a i w; exact ⟨rfl, rfl⟩

/-! ## Basic facts on `Array_at` and `Array_set` -/

theorem Array_at_err {σ : Type} (cb : Callbacks σ) (a : Array) (i : Nat) (w : σ)
    (h : a.len ≤ i) : Array_at cb a i w = (⟨ARRAY_ERR, 0⟩, a, w) := by
  simp [Array_at, h]

theorem Array_at_ok {σ : Type} (cb : Callbacks σ) (hcb : cb.preserves) (a : Array) (i : Nat)
    (w : σ) (h : i < a.len) :
    Array_at cb a i w = (⟨ARRAY_OK, a._arr.getD i 0⟩, a, (cb._Array_at_callback a i w).2) := by
  simp [Array_at, Nat.not_le.mpr h, (hcb a i w).1]

theorem Array_set_err {σ : Type} (cb : Callbacks σ) (a : Array) (i v : Nat) (w : σ)
    (h : a.len ≤ i) : Array_set cb a i v w = (ARRAY_ERR, a, w) := by
  simp [Array_set, h]

theorem Array_set_ok {σ : Type} (cb : Callbacks σ) (hcb : cb.preserves) (a : Array) (i v : Nat)
    (w : σ) (h : i < a.len) :
    Array_set cb a i v w =
      (ARRAY_OK, ⟨a._arr.set i v, a.len⟩,
        (cb._Array_set_callback ⟨a._arr.set i v, a.len⟩ i w).2) := by
  simp [Array_set, Nat.not_le.mpr h, (hcb _ i w).2]

theorem Array_swap_ok {σ : Type} (cb : Callbacks σ) (hcb : cb.preserves) (a : Array)
    (i j : Nat) (w : σ) (hi : i < a.len) (hj : j < a.len) :
    ∃ w1, Array_swap cb a i j w =
      (ARRAY_OK, ⟨(a._arr.set i (a._arr.getD j 0)).set j (a._arr.getD i 0), a.len⟩, w1) := by
  unfold Array_swap
  simp only [Array_at_ok cb hcb a i w hi]
  simp only [Array_at_ok cb hcb a j _ hj]
  simp only [Array_set_ok cb hcb a i _ _ hi]
  simp only [Array_set_ok cb hcb ⟨a._arr.set i (a._arr.getD j 0), a.len⟩ j _ _ hj]
  simp

theorem getD_eq_of_lt (l : List Nat) (k : Nat) (h : k < l.length) :
    l[k]? = some (l.getD k 0) := by
  simp [List.getD_eq_getElem?_getD, h]

theorem Array_reorder_skip_iff (i j v1 v2 : Nat) (hsame : i = j → v1 = v2) :
    Array_reorder_skip i j v1 v2 = true ↔ ¬ ((i < j ∧ v2 < v1) ∨ (j < i ∧ v1 < v2)) := by
  unfold Array_reorder_skip
  simp only [Bool.or_eq_true, Bool.and_eq_true, Bool.not_eq_true', decide_eq_true_eq,
    beq_iff_eq, Bool.or_eq_false_iff, decide_eq_false_iff_not]
  constructor
  · intro h; omega
  · intro h; omega

theorem Array_reorder_skip_true {σ : Type} (cb : Callbacks σ) (hcb : cb.preserves) (a : Array)
    (i j : Nat) (w : σ) (hi : i < a.len) (hj : j < a.len)
    (h : Array_reorder_skip i j (a._arr.getD i 0) (a._arr.getD j 0) = true) :
    ∃ w1, Array_reorder cb a i j w = (⟨ARRAY_OK, false⟩, a, w1) := by
  unfold Array_reorder
  simp only [Array_at_ok cb hcb a i w hi]
  simp only [Array_at_ok cb hcb a j _ hj]
  simp only [reduceCtorEq, reduceIte, h]
  exact ⟨_, rfl⟩

theorem Array_reorder_skip_false {σ : Type} (cb : Callbacks σ) (hcb : cb.preserves) (a : Array)
    (i j : Nat) (w : σ) (hi : i < a.len) (hj : j < a.len)
    (h : Array_reorder_skip i j (a._arr.getD i 0) (a._arr.getD j 0) = false) :
    ∃ w1, Array_reorder cb a i j w =
      (⟨ARRAY_OK, true⟩,
        ⟨(a._arr.set i (a._arr.getD j 0)).set j (a._arr.getD i 0), a.len⟩, w1) := by
  unfold Array_reorder
  simp only [Array_at_ok cb hcb a i w hi]
  simp only [Array_at_ok cb hcb a j _ hj]
  simp only [Array_set_ok cb hcb a i _ _ hi]
  simp only [Array_set_ok cb hcb ⟨a._arr.set i (a._arr.getD j 0), a.len⟩ j _ _ hj]
  simp only [reduceCtorEq, reduceIte, h, Bool.false_eq_true]
  exact ⟨_, rfl⟩

theorem set_set_getElem? (l : List Nat) (i j : Nat) (hi : i < l.length) (hj : j < l.length) :
    ((l.set i (l.getD j 0)).set j (l.getD i 0))[i]? = l[j]? ∧
    ((l.set i (l.getD j 0)).set j (l.getD i 0))[j]? = l[i]? ∧
    (∀ k, k ≠ i → k ≠ j → ((l.set i (l.getD j 0)).set j (l.getD i 0))[k]? = l[k]?) := by
  refine ⟨?_, ?_, ?_⟩
  · by_cases hij : i = j
    · subst hij; simp [hi, getD_eq_of_lt]
    · simp [List.getElem?_set, hi, hj, getD_eq_of_lt, hij, Ne.symm hij]
  · simp [List.getElem?_set, hi, hj, getD_eq_of_lt]
  · intro k hki hkj
    simp [List.getElem?_set, Ne.symm hki, Ne.symm hkj]

theorem Array_new_eq (n : Nat) (h : n * sizeof_unsigned_int < UINT_MOD) :
    Array_new n = ⟨List.replicate n 0, n⟩ := by
  have h64 : n * sizeof_unsigned_int < SIZE_MOD :=
    Nat.lt_trans h (by simp only [UINT_MOD, SIZE_MOD]; omega)
  unfold Array_new Array_mem_alloc
  rw [Nat.mod_eq_of_lt h64, Nat.mod_eq_of_lt h]
  simp [sizeof_unsigned_int]

theorem valid_len_lt (a : Array) (ha : a.valid) : a.len * sizeof_unsigned_int < SIZE_MOD := by
  have h := ha.2
  simp only [sizeof_unsigned_int, PTRDIFF_MAX, SIZE_MOD] at *
  omega

theorem succ_mod_size (i n : Nat) (hi : i < n) (hn : n * sizeof_unsigned_int < SIZE_MOD) :
    (i + 1) % SIZE_MOD = i + 1 := by
  apply Nat.mod_eq_of_lt
  simp only [sizeof_unsigned_int, SIZE_MOD] at *
  omega

theorem Array_copy_loop_ok {σ : Type} (cb : Callbacks σ) (hcb : cb.preserves) (a : Array)
    (ha : a.valid) :
    ∀ (fuel i : Nat) (ret : Array) (w : σ), ret.len = a.len → ret._arr.length = a.len →
      i ≤ a.len → a.len - i < fuel → (∀ k, k < i → ret._arr[k]? = a._arr[k]?) →
      ∃ ret1 w1, Array_copy_loop cb fuel i a ret w = some (some ret1, a, w1) ∧
        ret1.len = a.len ∧ ret1._arr.length = a.len ∧
        ∀ k, k < a.len → ret1._arr[k]? = a._arr[k]? := by
  intro fuel
  induction fuel with
  | zero => intro i ret w _ _ _ hf; omega
  | succ fuel ih =>
    intro i ret w hlen hbuf hi hf hinv
    unfold Array_copy_loop
    by_cases hlt : i < a.len
    · have hlt1 : i < ret.len := by rw [hlen]; exact hlt
      rw [if_pos hlt1]
      simp only [Array_at_ok cb hcb a i w hlt]
      simp only [Array_set_ok cb hcb ret i _ _ hlt1]
      simp only [reduceCtorEq, reduceIte]
      rw [succ_mod_size i a.len hlt (valid_len_lt a ha)]
      apply ih
      · exact hlen
      · simp [hbuf]
      · omega
      · omega
      · intro k hk
        by_cases hki : k = i
        · subst hki
          have hka : k < a._arr.length := by rw [ha.1]; exact hlt
          rw [getD_eq_of_lt a._arr k hka, List.getElem?_set]
          simp [hbuf, hlt]
        · have : k < i := by omega
          simp [List.getElem?_set, Ne.symm hki, hinv k this]
    · have hlt1 : ¬ i < ret.len := by rw [hlen]; exact hlt
      rw [if_neg hlt1]
      refine ⟨ret, w, rfl, hlen, hbuf, ?_⟩
      intro k hk
      exact hinv k (by omega)

theorem size_sub_eq (x y : Nat) (hy : y ≤ x) (hx : x < SIZE_MOD) : size_sub x y = x - y := by
  unfold size_sub
  simp only [SIZE_MOD] at *
  omega

theorem Array_reverse_loop_ok {σ : Type} (cb : Callbacks σ) (hcb : cb.preserves) (a : Array)
    (ha : a.valid) :
    ∀ (fuel i : Nat) (l : List Nat) (w : σ), l.length = a.len → a.len / 2 - i < fuel →
      (∀ k, k < a.len →
        l[k]? = if k < i ∨ a.len - 1 - k < i then a._arr[a.len - 1 - k]? else a._arr[k]?) →
      ∃ l1 w1, Array_reverse_loop cb fuel i ⟨l, a.len⟩ w = some (ARRAY_OK, ⟨l1, a.len⟩, w1) ∧
        l1.length = a.len ∧ ∀ k, k < a.len → l1[k]? = a._arr[a.len - 1 - k]? := by
  have hsz := valid_len_lt a ha
  intro fuel
  induction fuel with
  | zero => intro i l w _ hf; omega
  | succ fuel ih =>
    intro i l w hlen hf hinv
    unfold Array_reverse_loop
    by_cases hlt : i < a.len / 2
    · have hlt1 : i < (⟨l, a.len⟩ : Array).len / 2 := hlt
      rw [if_pos hlt1]
      have hi : i < a.len := by omega
      have hj : a.len - 1 - i < a.len := by omega
      have hs1 : size_sub a.len 1 = a.len - 1 := by
        apply size_sub_eq
        · omega
        · simp only [sizeof_unsigned_int, SIZE_MOD] at *; omega
      have hs2 : size_sub (a.len - 1) i = a.len - 1 - i := by
        apply size_sub_eq
        · omega
        · simp only [sizeof_unsigned_int, SIZE_MOD] at *; omega
      simp only [hs1, hs2]
      obtain ⟨w1, hw⟩ := Array_swap_ok cb hcb ⟨l, a.len⟩ i (a.len - 1 - i) w hi hj
      rw [hw]
      simp only [reduceCtorEq, reduceIte]
      rw [succ_mod_size i a.len hi hsz]
      have hx := set_set_getElem? l i (a.len - 1 - i) (by omega) (by omega)
      apply ih
      · simp [hlen]
      · omega
      · intro k hk
        by_cases hki : k = i
        · subst hki
          show ((l.set k (l.getD (a.len - 1 - k) 0)).set (a.len - 1 - k) (l.getD k 0))[k]? = _
          rw [hx.1, hinv _ hj, if_neg (by omega), if_pos (by omega)]
        · by_cases hkj : k = a.len - 1 - i
          · subst hkj
            show ((l.set i (l.getD (a.len - 1 - i) 0)).set (a.len - 1 - i) (l.getD i 0))[
              a.len - 1 - i]? = _
            have hback : a.len - 1 - (a.len - 1 - i) = i := by omega
            rw [hx.2.1, hinv _ hi, if_neg (by omega), if_pos (by omega), hback]
          · show ((l.set i (l.getD (a.len - 1 - i) 0)).set (a.len - 1 - i) (l.getD i 0))[k]? = _
            rw [hx.2.2 k hki hkj, hinv k hk]
            by_cases hc : k < i ∨ a.len - 1 - k < i
            · rw [if_pos hc, if_pos (by omega)]
            · rw [if_neg hc, if_neg (by omega)]
    · have hlt1 : ¬ i < (⟨l, a.len⟩ : Array).len / 2 := hlt
      rw [if_neg hlt1]
      refine ⟨l, w, rfl, hlen, ?_⟩
      intro k hk
      rw [hinv k hk]
      by_cases hc : k < i ∨ a.len - 1 - k < i
      · rw [if_pos hc]
      · have hmid : a.len - 1 - k = k := by omega
        rw [if_neg hc, hmid]

theorem Array_new_init_loop_ok {σ : Type} (cb : Callbacks σ) (hcb : cb.preserves) (n : Nat)
    (hn : n * sizeof_unsigned_int < SIZE_MOD) :
    ∀ (fuel i : Nat) (l : List Nat) (w : σ), l.length = n → i ≤ n → n - i < fuel →
      (∀ k, k < i → l[k]? = some (k % UINT_MOD)) →
      ∃ l1 w1, Array_new_init_loop cb n fuel i ⟨l, n⟩ w = some (some ⟨l1, n⟩, w1) ∧
        l1.length = n ∧ ∀ k, k < n → l1[k]? = some (k % UINT_MOD) := by
  intro fuel
  induction fuel with
  | zero => intro i l w _ _ hf; omega
  | succ fuel ih =>
    intro i l w hlen hi hf hinv
    unfold Array_new_init_loop
    by_cases hlt : i < n
    · rw [if_pos hlt]
      simp only [Array_set_ok cb hcb ⟨l, n⟩ i _ _ hlt]
      simp only [reduceCtorEq, reduceIte]
      rw [succ_mod_size i n hlt hn]
      apply ih
      · simp [hlen]
      · omega
      · omega
      · intro k hk
        by_cases hki : k = i
        · subst hki
          rw [List.getElem?_set]
          simp [hlen, hlt]
        · have hlt2 : k < i := by omega
          simp [List.getElem?_set, Ne.symm hki, hinv k hlt2]
    · rw [if_neg hlt]
      exact ⟨l, w, rfl, hlen, fun k hk => hinv k (by omega)⟩

theorem Array_mem_realloc_length (junk : Nat → Nat) (ptr : List Nat) (size : Nat) :
    (Array_mem_realloc junk ptr size).length = (size % UINT_MOD) / sizeof_unsigned_int := by
  simp [Array_mem_realloc]

theorem Array_mem_realloc_getElem? (junk : Nat → Nat) (ptr : List Nat) (size k : Nat)
    (hk : k < (size % UINT_MOD) / sizeof_unsigned_int) (hp : k < ptr.length) :
    (Array_mem_realloc junk ptr size)[k]? = ptr[k]? := by
  unfold Array_mem_realloc
  rw [List.getElem?_map, List.getElem?_range hk]
  simp [List.getD_eq_getElem?_getD, hp]

theorem Array_push_ok {σ : Type} (cb : Callbacks σ) (hcb : cb.preserves) (junk : Nat → Nat)
    (a : Array) (v : Nat) (w : σ) (ha : a.valid)
    (hsz : (a.len + 1) * sizeof_unsigned_int < UINT_MOD) :
    ∃ w1, Array_push cb junk a v w = (ARRAY_OK, ⟨a._arr ++ [v], a.len + 1⟩, w1) := by
  have h1 : (a.len + 1) % SIZE_MOD = a.len + 1 := by
    apply Nat.mod_eq_of_lt
    simp only [sizeof_unsigned_int, UINT_MOD, SIZE_MOD] at *; omega
  have h2 : (a.len + 1) * sizeof_unsigned_int % SIZE_MOD = (a.len + 1) * sizeof_unsigned_int := by
    apply Nat.mod_eq_of_lt
    simp only [sizeof_unsigned_int, UINT_MOD, SIZE_MOD] at *; omega
  have h3 : (a.len + 1) * sizeof_unsigned_int % UINT_MOD / sizeof_unsigned_int = a.len + 1 := by
    rw [Nat.mod_eq_of_lt hsz]
    simp [sizeof_unsigned_int]
  have hlist : (Array_mem_realloc junk a._arr ((a.len + 1) * sizeof_unsigned_int)).set a.len v
      = a._arr ++ [v] := by
    apply List.ext_getElem?
    intro k
    rw [List.getElem?_set, Array_mem_realloc_length, h3]
    by_cases hk : a.len = k
    · subst hk
      rw [if_pos rfl, if_pos (Nat.lt_succ_self _), List.getElem?_append_right (by rw [ha.1])]
      simp [ha.1]
    · rw [if_neg hk]
      by_cases hlt : k < a.len
      · rw [Array_mem_realloc_getElem? junk a._arr _ k (by rw [h3]; omega)
          (by rw [ha.1]; exact hlt), List.getElem?_append_left (by rw [ha.1]; exact hlt)]
      · rw [List.getElem?_eq_none (by rw [Array_mem_realloc_length, h3]; omega),
          List.getElem?_eq_none (by simp [ha.1]; omega)]
  unfold Array_push
  simp only [h1, h2]
  rw [Array_set_ok cb hcb _ a.len v w (Nat.lt_succ_self _)]
  dsimp only
  rw [hlist]
  exact ⟨_, rfl⟩

theorem Array_mem_realloc_shrink (junk : Nat → Nat) (ptr : List Nat) (size : Nat)
    (h : (size % UINT_MOD) / sizeof_unsigned_int ≤ ptr.length) :
    Array_mem_realloc junk ptr size = ptr.take ((size % UINT_MOD) / sizeof_unsigned_int) := by
  apply List.ext_getElem?
  intro k
  by_cases hk : k < (size % UINT_MOD) / sizeof_unsigned_int
  · rw [Array_mem_realloc_getElem? junk ptr size k hk (by omega), List.getElem?_take_of_lt hk]
  · rw [List.getElem?_eq_none (by rw [Array_mem_realloc_length]; omega),
      List.getElem?_eq_none (by rw [List.length_take]; omega)]

theorem Array_pop_empty {σ : Type} (cb : Callbacks σ) (junk : Nat → Nat) (a : Array) (w : σ)
    (h : a.len = 0) : Array_pop cb junk a w = (⟨ARRAY_ERR, 0⟩, a, w) := by
  simp [Array_pop, h]

theorem Array_pop_nonempty {σ : Type} (cb : Callbacks σ) (hcb : cb.preserves)
    (junk : Nat → Nat) (a : Array) (w : σ) (ha : a.valid) (h : a.len ≠ 0) :
    ∃ w1, Array_pop cb junk a w =
      (⟨ARRAY_OK, a._arr.getD (a.len - 1) 0⟩,
        ⟨a._arr.take (((a.len - 1) % UINT_MOD) / sizeof_unsigned_int), a.len - 1⟩, w1) := by
  have hdiv : ((a.len - 1) % UINT_MOD) / sizeof_unsigned_int ≤ a._arr.length := by
    rw [ha.1]
    exact Nat.le_trans (Nat.div_le_self _ _)
      (Nat.le_trans (Nat.mod_le _ _) (Nat.sub_le _ _))
  unfold Array_pop
  rw [if_neg h]
  simp only [Array_at_ok cb hcb a (a.len - 1) w (by omega)]
  simp only [reduceCtorEq, reduceIte]
  rw [Array_mem_realloc_shrink junk a._arr (a.len - 1) hdiv]
  exact ⟨_, rfl⟩

theorem set_set_getD (l : List Nat) (i j : Nat) (hi : i < l.length) (hj : j < l.length) :
    ((l.set i (l.getD j 0)).set j (l.getD i 0)).getD i 0 = l.getD j 0 ∧
    ((l.set i (l.getD j 0)).set j (l.getD i 0)).getD j 0 = l.getD i 0 ∧
    (∀ k, k ≠ i → k ≠ j → ((l.set i (l.getD j 0)).set j (l.getD i 0)).getD k 0 = l.getD k 0) := by
  have h := set_set_getElem? l i j hi hj
  refine ⟨?_, ?_, ?_⟩
  · rw [List.getD_eq_getElem?_getD, h.1, ← List.getD_eq_getElem?_getD]
  · rw [List.getD_eq_getElem?_getD, h.2.1, ← List.getD_eq_getElem?_getD]
  · intro k hki hkj
    rw [List.getD_eq_getElem?_getD, h.2.2 k hki hkj, ← List.getD_eq_getElem?_getD]

theorem set_set_perm (l : List Nat) (i j : Nat) (hi : i < l.length) (hj : j < l.length) :
    List.Perm ((l.set i (l.getD j 0)).set j (l.getD i 0)) l := by
  rw [List.perm_iff_count]
  intro b
  have hj1 : j < (l.set i (l.getD j 0)).length := by rw [List.length_set]; exact hj
  rw [List.count_set _ _ _ _ hj1, List.count_set _ _ _ _ hi]
  have e1 : l.getD i 0 = l[i] := by simp [List.getD_eq_getElem?_getD, hi]
  have e2 : l.getD j 0 = l[j] := by simp [List.getD_eq_getElem?_getD, hj]
  have e3 : (l.set i (l.getD j 0))[j] = l[j] := by
    rw [List.getElem_set]
    split
    · exact e2
    · rfl
  have b1 := List.boole_getElem_le_count b l i hi
  rw [e3, e1, e2]
  omega

theorem _ewweew_inner_ok {σ : Type} (cb : Callbacks σ) (hcb : cb.preserves) (l : List Nat)
    (n i : Nat) (hn : n * sizeof_unsigned_int < SIZE_MOD) :
    ∀ (fuel j m : Nat) (mv : Array_Result) (w : σ), n - j < fuel → i ≤ m → m < j → j ≤ n →
      mv.value = l.getD m 0 → (∀ k, i ≤ k → k < j → l.getD m 0 ≤ l.getD k 0) →
      ∃ m1 mv1 w1, _ewweew_inner cb fuel j m mv ⟨l, n⟩ w = some (some (m1, mv1), ⟨l, n⟩, w1) ∧
        i ≤ m1 ∧ m1 < n ∧ ∀ k, i ≤ k → k < n → l.getD m1 0 ≤ l.getD k 0 := by
  intro fuel
  induction fuel with
  | zero => intro j m mv w hf; omega
  | succ fuel ih =>
    intro j m mv w hf him hmj hjn hmv hmin
    unfold _ewweew_inner
    by_cases hlt : j < n
    · have hlt1 : j < (⟨l, n⟩ : Array).len := hlt
      rw [if_pos hlt1]
      simp only [Array_at_ok cb hcb ⟨l, n⟩ j w hlt]
      simp only [reduceCtorEq, reduceIte]
      rw [succ_mod_size j n hlt hn]
      by_cases hless : l.getD j 0 < mv.value
      · rw [if_pos hless]
        apply ih
        · omega
        · omega
        · omega
        · omega
        · rfl
        · intro k hik hkj
          by_cases hkj1 : k = j
          · subst hkj1; exact Nat.le_refl _
          · have := hmin k hik (by omega)
            omega
      · rw [if_neg hless]
        apply ih
        · omega
        · exact him
        · omega
        · omega
        · exact hmv
        · intro k hik hkj
          by_cases hkj1 : k = j
          · subst hkj1; omega
          · exact hmin k hik (by omega)
    · have hlt1 : ¬ j < (⟨l, n⟩ : Array).len := hlt
      rw [if_neg hlt1]
      exact ⟨m, mv, w, rfl, him, by omega, fun k hik hkn => hmin k hik (by omega)⟩

theorem _ewweew_loop_ok {σ : Type} (cb : Callbacks σ) (hcb : cb.preserves) (l0 : List Nat)
    (n : Nat) (hn : n * sizeof_unsigned_int < SIZE_MOD) (hpos : n ≠ 0) :
    ∀ (fuel i : Nat) (l : List Nat) (w : σ), n - i < fuel → l.length = n → List.Perm l l0 →
      (∀ p q, p < i → p < q → q < n → l.getD p 0 ≤ l.getD q 0) →
      ∃ l1 w1, _ewweew_loop cb fuel i ⟨l, n⟩ w = some (true, ⟨l1, n⟩, w1) ∧
        l1.length = n ∧ List.Perm l1 l0 ∧
        ∀ p q, p < q → q < n → l1.getD p 0 ≤ l1.getD q 0 := by
  have hs1 : size_sub n 1 = n - 1 := by
    apply size_sub_eq
    · omega
    · simp only [sizeof_unsigned_int, SIZE_MOD] at *; omega
  intro fuel
  induction fuel with
  | zero => intro i l w hf; omega
  | succ fuel ih =>
    intro i l w hf hlen hperm hinv
    rw [_ewweew_loop]
    by_cases hlt : i < n - 1
    · have hlt1 : i < size_sub (⟨l, n⟩ : Array).len 1 := by rw [hs1]; exact hlt
      have hin : i < n := by omega
      rw [if_pos hlt1]
      simp only [Array_at_ok cb hcb ⟨l, n⟩ i w hin]
      simp only [reduceCtorEq, reduceIte]
      rw [succ_mod_size i n hin hn]
      obtain ⟨m1, mv1, w1, hinner, him1, hm1n, hmin⟩ :=
        _ewweew_inner_ok cb hcb l n i hn fuel (i + 1) i ⟨ARRAY_OK, l.getD i 0⟩
          (cb._Array_at_callback ⟨l, n⟩ i w).2 (by omega) (Nat.le_refl _) (Nat.lt_succ_self _)
          (by omega) rfl
          (fun k hik hki => by
            have : k = i := by omega
            subst this; exact Nat.le_refl _)
      rw [hinner]
      obtain ⟨w2, hw2⟩ := Array_swap_ok cb hcb ⟨l, n⟩ m1 i w1 hm1n hin
      simp only [hw2, reduceCtorEq, reduceIte]
      have hx := set_set_getD l m1 i (by omega) (by omega)
      apply ih
      · omega
      · simp [hlen]
      · exact (set_set_perm l m1 i (by omega) (by omega)).trans hperm
      · intro p q hp hpq hq
        show ((l.set m1 (l.getD i 0)).set i (l.getD m1 0)).getD p 0 ≤
          ((l.set m1 (l.getD i 0)).set i (l.getD m1 0)).getD q 0
        by_cases hpi : p = i
        · subst hpi
          rw [hx.2.1]
          by_cases hqm : q = m1
          · subst hqm
            rw [hx.1]
            exact hmin p (Nat.le_refl _) hin
          · rw [hx.2.2 q hqm (by omega)]
            exact hmin q (by omega) hq
        · have hpi1 : p < i := by omega
          rw [hx.2.2 p (by omega) hpi]
          by_cases hqi : q = i
          · subst hqi
            rw [hx.2.1]
            by_cases hm : m1 = q
            · subst hm; exact hinv p m1 hpi1 hpq hq
            · exact hinv p m1 hpi1 (by omega) hm1n
          · by_cases hqm : q = m1
            · subst hqm
              rw [hx.1]
              exact hinv p i hpi1 hpi1 hin
            · rw [hx.2.2 q hqm hqi]
              exact hinv p q hpi1 hpq hq
    · have hlt1 : ¬ i < size_sub (⟨l, n⟩ : Array).len 1 := by rw [hs1]; exact hlt
      rw [if_neg hlt1]
      exact ⟨l, w, rfl, hlen, hperm, fun p q hpq hq => hinv p q (by omega) hpq hq⟩


theorem inversions_le_of_exchange (l l1 : List Nat) (lo hi : Nat)
    (hgt : l.getD hi 0 < l.getD lo 0) (h1 : l1.getD lo 0 = l.getD hi 0)
    (h2 : l1.getD hi 0 = l.getD lo 0)
    (h3 : ∀ k, k ≠ lo → k ≠ hi → l1.getD k 0 = l.getD k 0) :
    inversions l1 lo hi ≤ inversions l lo hi := by
  unfold inversions
  apply Finset.card_le_card
  intro pq hpq
  simp only [Finset.mem_filter, Finset.mem_product, Finset.mem_Icc] at hpq ⊢
  obtain ⟨⟨⟨hp1, hp2⟩, hq1, hq2⟩, hpq1, hinv⟩ := hpq
  refine ⟨⟨⟨hp1, hp2⟩, hq1, hq2⟩, hpq1, ?_⟩
  by_cases hplo : pq.1 = lo
  · by_cases hqhi : pq.2 = hi
    · rw [hplo, hqhi, h1, h2] at hinv
      omega
    · rw [hplo, h1, h3 pq.2 (by omega) hqhi] at hinv
      rw [hplo]
      omega
  · by_cases hqhi : pq.2 = hi
    · rw [hqhi, h2, h3 pq.1 hplo (by omega)] at hinv
      rw [hqhi]
      omega
    · rw [h3 pq.1 hplo (by omega), h3 pq.2 (by omega) hqhi] at hinv
      exact hinv

theorem int_to_size_natCast (r : Int) (k : Nat) (h0 : 0 ≤ r) (hk : r ≤ (k : Int))
    (hsz : k < SIZE_MOD) : int_to_size r < k + 1 ∧ ((int_to_size r : Nat) : Int) = r := by
  unfold int_to_size
  have hr : r % (SIZE_MOD : Int) = r := by
    apply Int.emod_eq_of_lt h0
    have : (k : Int) < (SIZE_MOD : Int) := by exact_mod_cast hsz
    omega
  rw [hr]
  constructor
  · omega
  · exact Int.toNat_of_nonneg h0

theorem _kjfeefnje_loop_ok {σ : Type} (cb : Callbacks σ) (hcb : cb.preserves)
    (rand : Nat → Int → Int → Int) (l0 : List Nat) (n : Nat)
    (hn : n * sizeof_unsigned_int < SIZE_MOD) (hpos : n ≠ 0)
    (hrand : ∀ i, i < n - 1 →
      (i : Int) ≤ rand i (size_to_int i) (size_to_int (n - 1)) ∧
      rand i (size_to_int i) (size_to_int (n - 1)) ≤ ((n - 1 : Nat) : Int)) :
    ∀ (fuel i : Nat) (l : List Nat) (w : σ), n - i < fuel → l.length = n → List.Perm l l0 →
      ∃ l1 w1, _kjfeefnje_loop cb rand fuel i ⟨l, n⟩ w = some (true, ⟨l1, n⟩, w1) ∧
        l1.length = n ∧ List.Perm l1 l0 := by
  have hs1 : size_sub n 1 = n - 1 := by
    apply size_sub_eq
    · omega
    · simp only [sizeof_unsigned_int, SIZE_MOD] at *; omega
  have hnsz : n - 1 < SIZE_MOD := by
    simp only [sizeof_unsigned_int, SIZE_MOD] at *; omega
  intro fuel
  induction fuel with
  | zero => intro i l w hf; omega
  | succ fuel ih =>
    intro i l w hf hlen hperm
    rw [_kjfeefnje_loop]
    by_cases hlt : i < n - 1
    · have hlt1 : i < size_sub (⟨l, n⟩ : Array).len 1 := by rw [hs1]; exact hlt
      have hin : i < n := by omega
      rw [if_pos hlt1]
      dsimp only
      rw [hs1]
      obtain ⟨hr1, hr2⟩ := hrand i hlt
      obtain ⟨hj, _⟩ := int_to_size_natCast _ (n - 1) (by omega) hr2 hnsz
      have hjn : int_to_size (rand i (size_to_int i) (size_to_int (n - 1))) < n := by omega
      obtain ⟨w2, hw2⟩ := Array_swap_ok cb hcb ⟨l, n⟩ i _ w hin hjn
      simp only [hw2, reduceCtorEq, reduceIte]
      rw [succ_mod_size i n hin hn]
      apply ih
      · omega
      · simp [hlen]
      · exact (set_set_perm l i _ (by omega) (by omega)).trans hperm
    · have hlt1 : ¬ i < size_sub (⟨l, n⟩ : Array).len 1 := by rw [hs1]; exact hlt
      rw [if_neg hlt1]
      exact ⟨l, w, rfl, hlen, hperm⟩


/-! ## The sound list -/

theorem lseg_frame (mem mem1 : Nat → Option SoundList) :
    ∀ (addrs : List Nat) (events : List SoundEvent) (p q : Option Nat),
      (∀ a ∈ addrs, mem1 a = mem a) → lseg mem p addrs events q → lseg mem1 p addrs events q := by
  intro addrs
  induction addrs with
  | nil =>
    intro events p q _ h
    cases events with
    | nil => exact h
    | cons e es => exact h
  | cons a addrs ih =>
    intro events p q hm h
    cases events with
    | nil => exact h
    | cons e es =>
      obtain ⟨hp, node, hnode, hev, hrest⟩ := h
      refine ⟨hp, node, ?_, hev, ?_⟩
      · rw [hm a (List.mem_cons_self _ _)]; exact hnode
      · exact ih es _ q (fun b hb => hm b (List.mem_cons_of_mem _ hb)) hrest

theorem lseg_snoc (mem : Nat → Option SoundList) (c : Nat) (node : SoundList)
    (hnode : mem c = some node) :
    ∀ (addrs : List Nat) (events : List SoundEvent) (p : Option Nat),
      lseg mem p addrs events (some c) →
      lseg mem p (addrs ++ [c]) (events ++ [node.event]) node.next_item := by
  intro addrs
  induction addrs with
  | nil =>
    intro events p h
    cases events with
    | nil => exact ⟨h, node, hnode, rfl, rfl⟩
    | cons e es => exact absurd h id
  | cons a addrs ih =>
    intro events p h
    cases events with
    | nil => exact absurd h id
    | cons e es =>
      obtain ⟨hp, n1, hn1, hev, hrest⟩ := h
      exact ⟨hp, n1, hn1, hev, ih es _ hrest⟩

theorem lseg_length (mem : Nat → Option SoundList) :
    ∀ (addrs : List Nat) (events : List SoundEvent) (p q : Option Nat),
      lseg mem p addrs events q → addrs.length = events.length := by
  intro addrs
  induction addrs with
  | nil =>
    intro events p q h
    cases events with
    | nil => rfl
    | cons e es => exact absurd h id
  | cons a addrs ih =>
    intro events p q h
    cases events with
    | nil => exact absurd h id
    | cons e es =>
      obtain ⟨_, n1, _, _, hrest⟩ := h
      simp [ih es _ q hrest]

theorem kept_lseg (mem : Nat → Option SoundList) (head prev cur : Option Nat) (ks : List Nat)
    (kes : List SoundEvent) (h : kept mem head prev cur ks kes) : lseg mem head ks kes cur := by
  cases prev with
  | none =>
    obtain ⟨h1, h2, h3⟩ := h
    subst h1; subst h2
    exact h3
  | some p =>
    obtain ⟨ks0, kes0, node, h1, h2, h3, h4, h5⟩ := h
    subst h1; subst h2; subst h5
    exact lseg_snoc mem p node h4 ks0 kes0 head h3

theorem mem_write_same (mem : Nat → Option SoundList) (p : Nat) (v : Option SoundList) :
    mem_write mem p v p = v := by
  simp [mem_write]

theorem mem_write_other (mem : Nat → Option SoundList) (p q : Nat) (v : Option SoundList)
    (h : q ≠ p) : mem_write mem p v q = mem q := by
  simp [mem_write, h]

theorem decrement_eq (r d : ℚ) : r - 1 / d / SAMPLE_RATE = r - 1 / (d * 44100) := by
  rw [SAMPLE_RATE, div_div]


theorem spec_advance_keep (node : SoundList)
    (h : node.remaining_amplitude - 1 / node.duration / SAMPLE_RATE ≥ 0) :
    spec_advance node.event =
      some (SoundList.event ⟨node.waveform, node.volume, node.value, node.duration,
        node.elapsed + 1 / SAMPLE_RATE,
        node.remaining_amplitude - 1 / node.duration / SAMPLE_RATE, node.next_item⟩) := by
  rw [decrement_eq] at h
  unfold spec_advance
  simp only [SoundList.event]
  rw [if_pos h, decrement_eq, SAMPLE_RATE]

theorem spec_advance_drop (node : SoundList)
    (h : ¬ node.remaining_amplitude - 1 / node.duration / SAMPLE_RATE ≥ 0) :
    spec_advance node.event = none := by
  rw [decrement_eq] at h
  unfold spec_advance
  simp only [SoundList.event]
  rw [if_neg h]

theorem next_sample_loop_ok :
    ∀ (as2 : List Nat) (es2 : List SoundEvent) (fuel : Nat) (acc : ℚ) (prev cur : Option Nat)
      (st : AudioState) (ks : List Nat) (kes : List SoundEvent),
      as2.length < fuel → kept st.mem st.sound_list prev cur ks kes →
      lseg st.mem cur as2 es2 none → (ks ++ as2).Nodup →
      ∃ st1 ks1, next_sample_loop fuel acc prev cur st
            = some (acc + (es2.map spec_contribution).sum, st1) ∧
          st1.brk = st.brk ∧
          lseg st1.mem st1.sound_list (ks ++ ks1) (kes ++ es2.filterMap spec_advance) none ∧
          ks1.Sublist as2 := by
  intro as2
  induction as2 with
  | nil =>
    intro es2 fuel acc prev cur st ks kes hf hk hl _
    cases es2 with
    | cons e es => exact absurd hl id
    | nil =>
      have hcur : cur = none := hl
      subst hcur
      obtain ⟨f, rfl⟩ : ∃ f, fuel = f + 1 := ⟨fuel - 1, by simp at hf; omega⟩
      refine ⟨st, [], ?_, rfl, ?_, List.Sublist.refl _⟩
      · simp [next_sample_loop]
      · simpa using kept_lseg _ _ _ _ _ _ hk
  | cons c as2 ih =>
    intro es2 fuel acc prev cur st ks kes hf hk hl hnd
    cases es2 with
    | nil => exact absurd hl id
    | cons e es =>
      obtain ⟨hcur, node, hnode, hev, hrest⟩ := hl
      subst hcur
      obtain ⟨f, rfl⟩ : ∃ f, fuel = f + 1 := ⟨fuel - 1, by simp at hf; omega⟩
      have hf1 : as2.length < f := by simpa using hf
      have hcks : c ∉ ks := fun hc =>
        (List.nodup_append.mp hnd).2.2 hc (List.mem_cons_self _ _)
      have hcas : c ∉ as2 := (List.nodup_cons.mp (List.nodup_append.mp hnd).2.1).1
      have hsum : acc + ((e :: es).map spec_contribution).sum =
          acc + node.waveform (frequency node.value * node.elapsed) * node.volume
            * node.remaining_amplitude + (es.map spec_contribution).sum := by
        rw [List.map_cons, List.sum_cons, ← hev, ← add_assoc]
        rfl
      rw [hsum, next_sample_loop]
      simp only [hnode]
      by_cases hge : node.remaining_amplitude - 1 / node.duration / SAMPLE_RATE ≥ 0
      · rw [if_pos hge]
        have hadv := spec_advance_keep node hge
        rw [hev] at hadv
        obtain ⟨st1, ks1, h1, h2, h3, h4⟩ := ih es f
          (acc + node.waveform (frequency node.value * node.elapsed) * node.volume
            * node.remaining_amplitude) (some c) node.next_item
          ⟨mem_write st.mem c (some ⟨node.waveform, node.volume, node.value, node.duration,
            node.elapsed + 1 / SAMPLE_RATE,
            node.remaining_amplitude - 1 / node.duration / SAMPLE_RATE, node.next_item⟩),
            st.brk, st.sound_list⟩
          (ks ++ [c])
          (kes ++ [SoundList.event ⟨node.waveform, node.volume, node.value, node.duration,
            node.elapsed + 1 / SAMPLE_RATE,
            node.remaining_amplitude - 1 / node.duration / SAMPLE_RATE, node.next_item⟩])
          hf1
          ⟨ks, kes, _, rfl, rfl,
            lseg_frame st.mem _ ks kes _ _
              (fun a ha => mem_write_other _ _ _ _ (fun hac => hcks (hac ▸ ha)))
              (kept_lseg _ _ _ _ _ _ hk),
            mem_write_same _ _ _, rfl⟩
          (lseg_frame st.mem _ as2 es _ _
            (fun a ha => mem_write_other _ _ _ _ (fun hac => hcas (hac ▸ ha))) hrest)
          (by simpa using hnd)
        refine ⟨st1, c :: ks1, h1, h2, ?_, List.Sublist.cons₂ _ h4⟩
        rw [List.filterMap_cons, hadv]
        simpa using h3
      · rw [if_neg hge]
        have hadv := spec_advance_drop node hge
        rw [hev] at hadv
        cases prev with
        | none =>
          obtain ⟨hk1, hk2, hk3⟩ := hk
          subst hk1; subst hk2
          obtain ⟨st1, ks1, h1, h2, h3, h4⟩ := ih es f
            (acc + node.waveform (frequency node.value * node.elapsed) * node.volume
              * node.remaining_amplitude) none node.next_item
            ⟨mem_write st.mem c none, st.brk, node.next_item⟩ [] [] hf1
            ⟨rfl, rfl, rfl⟩
            (lseg_frame st.mem _ as2 es _ _
              (fun a ha => mem_write_other _ _ _ _ (fun hac => hcas (hac ▸ ha))) hrest)
            (by simpa using (List.nodup_cons.mp (List.nodup_append.mp hnd).2.1).2)
          refine ⟨st1, ks1, h1, h2, ?_, List.Sublist.cons _ h4⟩
          rw [List.filterMap_cons, hadv]
          exact h3
        | some p =>
          obtain ⟨ks0, kes0, pn, hk1, hk2, hk3, hk4, hk5⟩ := hk
          have hpc : p ≠ c := by
            intro hpc
            apply hcks
            rw [hk1, ← hpc]
            simp
          have hpks0 : p ∉ ks0 := by
            have hn : (ks0 ++ [p]).Nodup := hk1 ▸ (List.nodup_append.mp hnd).1
            intro hp
            exact (List.nodup_append.mp hn).2.2 hp (List.mem_singleton_self _)
          have hpas : p ∉ as2 := by
            intro hp
            exact (List.nodup_append.mp hnd).2.2 (by rw [hk1]; simp)
              (List.mem_cons_of_mem _ hp)
          have hm1 : mem_write st.mem c none p = some pn := by
            rw [mem_write_other _ _ _ _ hpc]; exact hk4
          simp only [hm1]
          obtain ⟨st1, ks1, h1, h2, h3, h4⟩ := ih es f
            (acc + node.waveform (frequency node.value * node.elapsed) * node.volume
              * node.remaining_amplitude) (some p) node.next_item
            ⟨mem_write (mem_write st.mem c none) p (some ⟨pn.waveform, pn.volume, pn.value,
              pn.duration, pn.elapsed, pn.remaining_amplitude, node.next_item⟩),
              st.brk, st.sound_list⟩ ks kes hf1
            ⟨ks0, kes0, ⟨pn.waveform, pn.volume, pn.value,
              pn.duration, pn.elapsed, pn.remaining_amplitude, node.next_item⟩, hk1, hk2,
              lseg_frame st.mem _ ks0 kes0 _ _
                (fun a ha => by
                  have hap : a ≠ p := fun hap => hpks0 (hap ▸ ha)
                  have hac : a ≠ c := fun hac => hcks (by rw [hk1, ← hac]; simp [ha])
                  show mem_write (mem_write st.mem c none) p _ a = st.mem a
                  rw [mem_write_other _ _ _ _ hap, mem_write_other _ _ _ _ hac])
                hk3,
              mem_write_same _ _ _, rfl⟩
            (lseg_frame st.mem _ as2 es _ _
              (fun a ha => by
                have hap : a ≠ p := fun hap => hpas (hap ▸ ha)
                have hac : a ≠ c := fun hac => hcas (hac ▸ ha)
                show mem_write (mem_write st.mem c none) p _ a = st.mem a
                rw [mem_write_other _ _ _ _ hap, mem_write_other _ _ _ _ hac])
              hrest)
            (by
              have := List.nodup_append.mp hnd
              refine List.nodup_append.mpr ⟨this.1, (List.nodup_cons.mp this.2.1).2, ?_⟩
              intro a ha1 ha2
              exact this.2.2 ha1 (List.mem_cons_of_mem _ ha2))
          refine ⟨st1, ks1, h1, h2, ?_, List.Sublist.cons _ h4⟩
          rw [List.filterMap_cons, hadv]
          exact h3


theorem next_sample_holds (fuel : Nat) (st : AudioState) (addrs : List Nat)
    (events : List SoundEvent) (h : st.holds addrs events) (hf : addrs.length < fuel) :
    ∃ st1 addrs1, next_sample fuel st = some (sample_of (spec_render events).1, st1) ∧
      st1.holds addrs1 (spec_render events).2 ∧ addrs1.Sublist addrs ∧ st1.brk = st.brk := by
  obtain ⟨hl, hnd, hbrk⟩ := h
  obtain ⟨st1, ks1, h1, h2, h3, h4⟩ :=
    next_sample_loop_ok addrs events fuel 0 none st.sound_list st [] [] hf ⟨rfl, rfl, rfl⟩ hl
      (by simpa using hnd)
  refine ⟨st1, ks1, ?_, ⟨by simpa using h3, hnd.sublist h4, ?_⟩, h4, h2⟩
  · unfold next_sample
    rw [h1]
    simp [spec_render]
  · intro a ha
    rw [h2]
    exact hbrk a (h4.subset ha)

theorem push_sound_holds (waveform : ℚ → ℚ) (volume value duration : ℚ) (st : AudioState)
    (addrs : List Nat) (events : List SoundEvent) (h : st.holds addrs events) :
    (push_sound waveform volume value duration st).holds (st.brk :: addrs)
      (⟨waveform, volume, value, duration, 0, 1⟩ :: events) := by
  obtain ⟨hl, hnd, hbrk⟩ := h
  have hfresh : st.brk ∉ addrs := fun hm => Nat.lt_irrefl _ (hbrk _ hm)
  refine ⟨⟨rfl, _, mem_write_same _ _ _, rfl, ?_⟩, List.nodup_cons.mpr ⟨hfresh, hnd⟩, ?_⟩
  · exact lseg_frame st.mem _ addrs events _ _
      (fun a ha => mem_write_other _ _ _ _ (fun hab => hfresh (hab ▸ ha))) hl
  · intro a ha
    show a < st.brk + 1
    rcases List.mem_cons.mp ha with h1 | h1
    · omega
    · exact Nat.lt_succ_of_lt (hbrk a h1)

theorem next_samples_holds (fuel : Nat) :
    ∀ (k : Nat) (st : AudioState) (addrs : List Nat) (events : List SoundEvent),
      st.holds addrs events → addrs.length < fuel →
      ∃ st1, next_samples fuel k st = some (spec_samples k events, st1) := by
  intro k
  induction k with
  | zero => intro st addrs events _ _; exact ⟨st, rfl⟩
  | succ k ih =>
    intro st addrs events h hf
    obtain ⟨st1, addrs1, h1, h2, h3, _⟩ := next_sample_holds fuel st addrs events h hf
    obtain ⟨st2, h4⟩ := ih st1 addrs1 _ h2 (Nat.lt_of_le_of_lt h3.length_le hf)
    refine ⟨st2, ?_⟩
    rw [next_samples, h1]
    simp only [h4, Option.map_some', spec_samples]

theorem spec_samples_perm :
    ∀ (k : Nat) (l1 l2 : List SoundEvent), List.Perm l1 l2 →
      spec_samples k l1 = spec_samples k l2 := by
  intro k
  induction k with
  | zero => intro l1 l2 _; rfl
  | succ k ih =>
    intro l1 l2 h
    have hsum : (spec_render l1).1 = (spec_render l2).1 := (h.map spec_contribution).sum_eq
    have hrest : List.Perm (spec_render l1).2 (spec_render l2).2 := h.filterMap spec_advance
    simp only [spec_samples, hsum, ih _ _ hrest]


/-! ## Sample conversion -/

theorem float_to_short_mono (x y : ℚ) (h : x ≤ y) : float_to_short x ≤ float_to_short y := by
  unfold float_to_short
  by_cases hx : 0 ≤ x
  · have hy : 0 ≤ y := le_trans hx h
    rw [if_pos hx, if_pos hy]
    exact Int.floor_mono h
  · rw [if_neg hx]
    by_cases hy : 0 ≤ y
    · rw [if_pos hy]
      have h1 : ⌈x⌉ ≤ 0 := Int.ceil_le.mpr (by push_cast; exact le_of_lt (not_le.mp hx))
      have h2 : (0 : Int) ≤ ⌊y⌋ := Int.le_floor.mpr (by push_cast; exact hy)
      omega
    · rw [if_neg hy]
      exact Int.ceil_mono h

theorem float_to_short_range (x : ℚ) (h1 : -32768 ≤ x) (h2 : x < 32768) :
    -32768 ≤ float_to_short x ∧ float_to_short x ≤ 32767 := by
  unfold float_to_short
  by_cases hx : 0 ≤ x
  · rw [if_pos hx]
    have h3 : (0 : Int) ≤ ⌊x⌋ := Int.le_floor.mpr (by push_cast; exact hx)
    have h4 : ⌊x⌋ < 32768 := Int.floor_lt.mpr (by push_cast; exact h2)
    omega
  · rw [if_neg hx]
    have h3 : ⌈x⌉ ≤ 0 := Int.ceil_le.mpr (by push_cast; exact le_of_lt (not_le.mp hx))
    have h4 : (-32768 : Int) ≤ ⌈x⌉ := by
      have : ((-32768 : Int) : ℚ) ≤ x := by push_cast; exact h1
      exact Int.cast_le.mp (le_trans this (Int.le_ceil x))
    omega

theorem sample_of_range (s : ℚ) : -32768 ≤ sample_of s ∧ sample_of s ≤ 32767 := by
  unfold sample_of
  by_cases h1 : s ≥ 1
  · rw [if_pos h1]; omega
  · rw [if_neg h1]
    by_cases h2 : s < -1
    · rw [if_pos h2]; omega
    · rw [if_neg h2]
      apply float_to_short_range
      · have : -1 ≤ s := not_lt.mp h2
        linarith
      · have : s < 1 := not_le.mp h1
        linarith

theorem sample_of_mono (s t : ℚ) (h : s ≤ t) : sample_of s ≤ sample_of t := by
  by_cases ht1 : t ≥ 1
  · have : sample_of t = 32767 := by unfold sample_of; rw [if_pos ht1]
    rw [this]
    exact (sample_of_range s).2
  · have hs1 : ¬ s ≥ 1 := fun hs => ht1 (le_trans hs h)
    by_cases hs2 : s < -1
    · have : sample_of s = -32768 := by unfold sample_of; rw [if_neg hs1, if_pos hs2]
      rw [this]
      exact (sample_of_range t).1
    · have ht2 : ¬ t < -1 := fun ht => hs2 (lt_of_le_of_lt h ht)
      unfold sample_of
      rw [if_neg hs1, if_neg hs2, if_neg ht1, if_neg ht2]
      apply float_to_short_mono
      linarith

theorem fmod_one_nonneg (y : ℚ) (hy : 0 ≤ y) : 0 ≤ fmod y 1 ∧ fmod y 1 < 1 := by
  unfold fmod
  rw [div_one, if_pos hy, one_mul]
  have h1 := Int.floor_le y
  have h2 := Int.lt_floor_add_one y
  constructor <;> linarith

theorem fmod_one_neg (y : ℚ) (hy : y < 0) : -1 < fmod y 1 ∧ fmod y 1 ≤ 0 := by
  unfold fmod
  rw [div_one, if_neg (not_le.mpr hy), one_mul]
  have h1 := Int.le_ceil y
  have h2 := Int.ceil_lt_add_one y
  constructor <;> linarith


/-! ## The buffer-size invariant -/

theorem Array_pop_buffer {σ : Type} (cb : Callbacks σ) (junk : Nat → Nat) (a : Array) (w : σ)
    (hcb : cb.preserves) (ha : a.valid) (h : 2 ≤ a.len) :
    (Array_pop cb junk a w).2.1.len = a.len - 1 ∧
    (Array_pop cb junk a w).2.1._arr.length
      = ((a.len - 1) % UINT_MOD) / sizeof_unsigned_int ∧
    (Array_pop cb junk a w).2.1._arr.length < (Array_pop cb junk a w).2.1.len := by
  obtain ⟨w1, hw⟩ := Array_pop_nonempty cb hcb junk a w ha (by omega)
  rw [hw]
  have hmod : (a.len - 1) % UINT_MOD ≤ a.len - 1 := Nat.mod_le _ _
  have hlen : (a._arr.take (((a.len - 1) % UINT_MOD) / sizeof_unsigned_int)).length
      = ((a.len - 1) % UINT_MOD) / sizeof_unsigned_int := by
    rw [List.length_take, ha.1]
    have := Nat.div_le_self ((a.len - 1) % UINT_MOD) sizeof_unsigned_int
    omega
  refine ⟨rfl, hlen, ?_⟩
  show (a._arr.take (((a.len - 1) % UINT_MOD) / sizeof_unsigned_int)).length < a.len - 1
  rw [hlen]
  simp only [sizeof_unsigned_int] at *
  omega

theorem buffer_size_kept {σ : Type} (cb : Callbacks σ) (hcb : cb.preserves) (junk : Nat → Nat)
    (a : Array) (ha : a.valid) (i j v fuel n : Nat) (w : σ) (hi : i < a.len) (hj : j < a.len)
    (hfuel : a.len < fuel) (hn : n * sizeof_unsigned_int < UINT_MOD) (hnf : n < fuel)
    (hsz : (a.len + 1) * sizeof_unsigned_int < UINT_MOD) :
    (Array_new n)._arr.length = (Array_new n).len ∧
    (∃ r w1, Array_new_init cb fuel n w = some (some r, w1) ∧ r._arr.length = r.len) ∧
    (Array_set cb a i v w).2.1._arr.length = (Array_set cb a i v w).2.1.len ∧
    (Array_swap cb a i j w).2.1._arr.length = (Array_swap cb a i j w).2.1.len ∧
    (Array_reorder cb a i j w).2.1._arr.length = (Array_reorder cb a i j w).2.1.len ∧
    (Array_push cb junk a v w).2.1._arr.length = (Array_push cb junk a v w).2.1.len ∧
    (∃ r w1, Array_reverse cb fuel a w = some (ARRAY_OK, r, w1) ∧ r._arr.length = r.len) ∧
    (∃ c w1, Array_copy cb fuel a w = some (some c, a, w1) ∧ c._arr.length = c.len) ∧
    (a.len ≤ 1 → (Array_pop cb junk a w).2.1._arr.length = (Array_pop cb junk a w).2.1.len) := by
  have hn64 : n * sizeof_unsigned_int < SIZE_MOD :=
    Nat.lt_trans hn (by simp only [UINT_MOD, SIZE_MOD]; omega)
  have hasz : a.len * sizeof_unsigned_int < UINT_MOD := by
    simp only [sizeof_unsigned_int] at *; omega
  refine ⟨?_, ?_, ?_, ?_, ?_, ?_, ?_, ?_, ?_⟩
  · rw [Array_new_eq n hn]; simp
  · obtain ⟨l1, w1, h, hlen, _⟩ :=
      Array_new_init_loop_ok cb hcb n hn64 fuel 0 (List.replicate n 0) w (by simp)
        (Nat.zero_le _) (by omega) (fun k hk => absurd hk (Nat.not_lt_zero k))
    refine ⟨⟨l1, n⟩, w1, ?_, hlen⟩
    unfold Array_new_init
    rw [Array_new_eq n hn]
    exact h
  · rw [Array_set_ok cb hcb a i v w hi]
    simp [ha.1]
  · obtain ⟨w1, hw⟩ := Array_swap_ok cb hcb a i j w hi hj
    rw [hw]
    simp [ha.1]
  · cases hs : Array_reorder_skip i j (a._arr.getD i 0) (a._arr.getD j 0)
    · obtain ⟨w1, hw⟩ := Array_reorder_skip_false cb hcb a i j w hi hj hs
      rw [hw]
      simp [ha.1]
    · obtain ⟨w1, hw⟩ := Array_reorder_skip_true cb hcb a i j w hi hj hs
      rw [hw]
      exact ha.1
  · obtain ⟨w1, hw⟩ := Array_push_ok cb hcb junk a v w ha hsz
    rw [hw]
    simp [ha.1]
  · obtain ⟨l1, w1, h, hlen, _⟩ :=
      Array_reverse_loop_ok cb hcb a ha fuel 0 a._arr w ha.1 (by omega)
        (fun k _ => by rw [if_neg (by omega)])
    exact ⟨⟨l1, a.len⟩, w1, h, hlen⟩
  · obtain ⟨c, w1, hc, hclen, hcbuf, _⟩ :=
      Array_copy_loop_ok cb hcb a ha fuel 0 (Array_new a.len) w
        (by rw [Array_new_eq a.len hasz])
        (by rw [Array_new_eq a.len hasz]; simp) (Nat.zero_le _) (by omega)
        (fun k hk => absurd hk (Nat.not_lt_zero k))
    exact ⟨c, w1, hc, by rw [hcbuf, hclen]⟩
  · intro hle
    by_cases h0 : a.len = 0
    · rw [Array_pop_empty cb junk a w h0]
      exact ha.1
    · obtain ⟨w1, hw⟩ := Array_pop_nonempty cb hcb junk a w ha h0
      rw [hw]
      have h1 : a.len = 1 := by omega
      simp [h1, sizeof_unsigned_int]


/-! ## The demonstration pipeline -/

theorem sorted_of_getD (l : List Nat) (n : Nat) (hlen : l.length = n)
    (h : ∀ p q, p < q → q < n → l.getD p 0 ≤ l.getD q 0) :
    List.Sorted (fun x y => x ≤ y) l := by
  show List.Pairwise (fun x y => x ≤ y) l
  rw [List.pairwise_iff_getElem]
  intro p q hp hq hpq
  have h1 := h p q hpq (by omega)
  rw [List.getD_eq_getElem?_getD, List.getD_eq_getElem?_getD,
    List.getElem?_eq_getElem hp, List.getElem?_eq_getElem hq] at h1
  exact h1

theorem eq_range_of_getElem? (l : List Nat) (n : Nat) (hlen : l.length = n)
    (h : ∀ k, k < n → l[k]? = some k) : l = List.range n := by
  apply List.ext_getElem?
  intro k
  by_cases hk : k < n
  · rw [h k hk, List.getElem?_range hk]
  · rw [List.getElem?_eq_none (by omega), List.getElem?_eq_none (by simp; omega)]

theorem show_sort_ok {σ : Type} (cb : Callbacks σ) (hcb : cb.preserves)
    (rand : Nat → Int → Int → Int) (fuel n : Nat) (w : σ) (hn : 1 ≤ n)
    (hn32 : n * sizeof_unsigned_int < UINT_MOD) (hfuel : n < fuel)
    (hrand : ∀ i, i < n - 1 →
      (i : Int) ≤ rand i (size_to_int i) (size_to_int (n - 1)) ∧
      rand i (size_to_int i) (size_to_int (n - 1)) ≤ ((n - 1 : Nat) : Int)) :
    ∃ w1, show_sort cb SelectionSort fuel n (StandardShuffle rand) w
      = some (true, ⟨List.range n, n⟩, w1) := by
  have hnsz : n * sizeof_unsigned_int < SIZE_MOD := by
    simp only [sizeof_unsigned_int, SIZE_MOD, UINT_MOD] at *; omega
  have hn2 : n ≤ UINT_MOD := by
    simp only [sizeof_unsigned_int, UINT_MOD] at *; omega
  obtain ⟨l1, w1, h1, hlen1, hel1⟩ :=
    Array_new_init_loop_ok cb hcb n hnsz fuel 0 (List.replicate n 0) w (by simp)
      (Nat.zero_le _) (by omega) (fun k hk => absurd hk (Nat.not_lt_zero k))
  have hl1 : l1 = List.range n := by
    apply eq_range_of_getElem? l1 n hlen1
    intro k hk
    rw [hel1 k hk, Nat.mod_eq_of_lt (lt_of_lt_of_le hk hn2)]
  subst hl1
  obtain ⟨l2, w2, h2, hlen2, hperm2⟩ :=
    _kjfeefnje_loop_ok cb hcb rand (List.range n) n hnsz (by omega) hrand fuel 0
      (List.range n) w1 (by omega) hlen1 (List.Perm.refl _)
  obtain ⟨l3, w3, h3, hlen3, hperm3, hsorted3⟩ :=
    _ewweew_loop_ok cb hcb (List.range n) n hnsz (by omega) fuel 0 l2 w2 (by omega) hlen2
      hperm2 (fun p q hp _ _ => absurd hp (Nat.not_lt_zero p))
  have hl3 : l3 = List.range n :=
    List.eq_of_perm_of_sorted hperm3 (sorted_of_getD l3 n hlen3 hsorted3)
      (List.sorted_le_range n)
  subst hl3
  refine ⟨w3, ?_⟩
  have hinit : Array_new_init cb fuel n w = some (some ⟨List.range n, n⟩, w1) := by
    unfold Array_new_init
    rw [Array_new_eq n hn32]
    exact h1
  have hshuffle : (StandardShuffle rand).fun_ cb fuel ⟨List.range n, n⟩ w1
      = some (true, ⟨l2, n⟩, w2) := h2
  have hsort : SelectionSort.fun_ cb fuel ⟨l2, n⟩ w2
      = some (true, ⟨List.range n, n⟩, w3) := h3
  unfold show_sort
  simp only [hinit, hshuffle, hsort]


/-! ## Values seen by the callbacks -/

theorem range_check_preserves : range_check.preserves := by
  intro a i w; exact ⟨rfl, rfl⟩

theorem getD_lt_of_all (l : List Nat) (n i : Nat) (hi : i < l.length)
    (hb : ∀ x ∈ l, x < n) : l.getD i 0 < n := by
  rw [List.getD_eq_getElem?_getD, List.getElem?_eq_getElem hi]
  exact hb _ (List.getElem_mem _)

theorem chk_at (l : List Nat) (n i : Nat) (hlen : l.length = n) (hb : ∀ x ∈ l, x < n) :
    Array_at range_check ⟨l, n⟩ i true =
      (if n ≤ i then ⟨ARRAY_ERR, 0⟩ else ⟨ARRAY_OK, l.getD i 0⟩, ⟨l, n⟩, true) := by
  by_cases h : n ≤ i
  · rw [Array_at_err range_check ⟨l, n⟩ i true h, if_pos h]
  · have hi : i < n := Nat.lt_of_not_le h
    rw [Array_at_ok range_check range_check_preserves ⟨l, n⟩ i true hi, if_neg h]
    have hv := getD_lt_of_all l n i (by omega) hb
    simp only [range_check, range_check_callback, hv, decide_True, Bool.and_self]

theorem chk_set (l : List Nat) (n i v : Nat) (hlen : l.length = n) (hb : ∀ x ∈ l, x < n)
    (hv : v < n) :
    ∃ c l1, Array_set range_check ⟨l, n⟩ i v true = (c, ⟨l1, n⟩, true) ∧ l1.length = n ∧
      ∀ x ∈ l1, x < n := by
  by_cases h : n ≤ i
  · exact ⟨ARRAY_ERR, l, Array_set_err range_check ⟨l, n⟩ i v true h, hlen, hb⟩
  · have hi : i < n := Nat.lt_of_not_le h
    refine ⟨ARRAY_OK, l.set i v, ?_, by simp [hlen], ?_⟩
    · rw [Array_set_ok range_check range_check_preserves ⟨l, n⟩ i v true hi]
      have hget : (l.set i v).getD i 0 = v := by
        rw [List.getD_eq_getElem?_getD, List.getElem?_set]
        simp [hlen, hi]
      simp only [range_check, range_check_callback, hget, hv, decide_True, Bool.and_self]
    · intro x hx
      rcases List.mem_or_eq_of_mem_set hx with h1 | h1
      · exact hb x h1
      · rw [h1]; exact hv

theorem chk_swap (l : List Nat) (n i j : Nat) (hlen : l.length = n) (hb : ∀ x ∈ l, x < n) :
    ∃ c l1, Array_swap range_check ⟨l, n⟩ i j true = (c, ⟨l1, n⟩, true) ∧ l1.length = n ∧
      ∀ x ∈ l1, x < n := by
  unfold Array_swap
  simp only [chk_at l n i hlen hb]
  by_cases hi : n ≤ i
  · simp only [hi, reduceIte]
    exact ⟨_, l, rfl, hlen, hb⟩
  · simp only [hi, reduceIte, reduceCtorEq, chk_at l n j hlen hb]
    by_cases hj : n ≤ j
    · simp only [hj, reduceIte]
      exact ⟨_, l, rfl, hlen, hb⟩
    · simp only [hj, reduceIte, reduceCtorEq]
      have hvi := getD_lt_of_all l n i (by omega) hb
      have hvj := getD_lt_of_all l n j (by omega) hb
      obtain ⟨c1, l1, h1, hlen1, hb1⟩ := chk_set l n i (l.getD j 0) hlen hb hvj
      simp only [h1]
      by_cases hc1 : c1 = ARRAY_ERR
      · simp only [hc1, reduceIte]
        exact ⟨_, l1, rfl, hlen1, hb1⟩
      · simp only [hc1, reduceIte]
        obtain ⟨c2, l2, h2, hlen2, hb2⟩ := chk_set l1 n j (l.getD i 0) hlen1 hb1 hvi
        simp only [h2]
        by_cases hc2 : c2 = ARRAY_ERR
        · simp only [hc2, reduceIte]
          exact ⟨_, l2, rfl, hlen2, hb2⟩
        · simp only [hc2, reduceIte]
          exact ⟨_, l2, rfl, hlen2, hb2⟩


theorem chk_new_init_loop (n : Nat) :
    ∀ (fuel i : Nat) (l : List Nat), l.length = n → (∀ x ∈ l, x < n) →
      ∀ r, Array_new_init_loop range_check n fuel i ⟨l, n⟩ true = some r →
        r.2 = true ∧ ∀ a, r.1 = some a → ∃ l1, a = ⟨l1, n⟩ ∧ l1.length = n ∧
          ∀ x ∈ l1, x < n := by
  intro fuel
  induction fuel with
  | zero => intro i l _ _ r h; simp [Array_new_init_loop] at h
  | succ fuel ih =>
    intro i l hlen hb r h
    rw [Array_new_init_loop] at h
    by_cases hlt : i < n
    · rw [if_pos hlt] at h
      have hv : i % UINT_MOD < n := lt_of_le_of_lt (Nat.mod_le _ _) hlt
      obtain ⟨c, l1, h1, hlen1, hb1⟩ := chk_set l n i (i % UINT_MOD) hlen hb hv
      simp only [h1] at h
      by_cases hc : c = ARRAY_ERR
      · simp only [hc, reduceIte] at h
        rw [← Option.some.inj h]
        exact ⟨rfl, fun a ha => by simp at ha⟩
      · simp only [hc, reduceIte] at h
        exact ih _ l1 hlen1 hb1 r h
    · rw [if_neg hlt] at h
      rw [← Option.some.inj h]
      refine ⟨rfl, fun a ha => ?_⟩
      have ha1 : (⟨l, n⟩ : Array) = a := Option.some.inj ha
      exact ⟨l, ha1.symm, hlen, hb⟩

theorem chk_inner (l : List Nat) (n : Nat) (hlen : l.length = n) (hb : ∀ x ∈ l, x < n) :
    ∀ (fuel j m : Nat) (mv : Array_Result) (r : Option (Nat × Array_Result) × Array × Bool),
      _ewweew_inner range_check fuel j m mv ⟨l, n⟩ true = some r → r.2 = (⟨l, n⟩, true) := by
  intro fuel
  induction fuel with
  | zero => intro j m mv r h; simp [_ewweew_inner] at h
  | succ fuel ih =>
    intro j m mv r h
    rw [_ewweew_inner] at h
    by_cases hlt : j < n
    · have hlt1 : j < (⟨l, n⟩ : Array).len := hlt
      rw [if_pos hlt1] at h
      simp only [chk_at l n j hlen hb, if_neg (Nat.not_le.mpr hlt), reduceCtorEq,
        reduceIte] at h
      by_cases hless : l.getD j 0 < mv.value
      · rw [if_pos hless] at h
        exact ih _ _ _ r h
      · rw [if_neg hless] at h
        exact ih _ _ _ r h
    · have hlt1 : ¬ j < (⟨l, n⟩ : Array).len := hlt
      rw [if_neg hlt1] at h
      rw [← Option.some.inj h]

theorem chk_sort_loop (n : Nat) :
    ∀ (fuel i : Nat) (l : List Nat), l.length = n → (∀ x ∈ l, x < n) →
      ∀ r, _ewweew_loop range_check fuel i ⟨l, n⟩ true = some r →
        r.2.2 = true ∧ ∃ l1, r.2.1 = ⟨l1, n⟩ ∧ l1.length = n ∧ ∀ x ∈ l1, x < n := by
  intro fuel
  induction fuel with
  | zero => intro i l _ _ r h; simp [_ewweew_loop] at h
  | succ fuel ih =>
    intro i l hlen hb r h
    rw [_ewweew_loop] at h
    by_cases hlt : i < size_sub (⟨l, n⟩ : Array).len 1
    · rw [if_pos hlt] at h
      simp only [chk_at l n i hlen hb] at h
      by_cases hi : n ≤ i
      · simp only [hi, reduceIte] at h
        rw [← Option.some.inj h]
        exact ⟨rfl, l, rfl, hlen, hb⟩
      · simp only [hi, reduceIte, reduceCtorEq] at h
        cases hinner : _ewweew_inner range_check fuel ((i + 1) % SIZE_MOD) i
            ⟨ARRAY_OK, l.getD i 0⟩ ⟨l, n⟩ true with
        | none => simp only [hinner, reduceCtorEq] at h
        | some x =>
          have hx := chk_inner l n hlen hb fuel _ _ _ x hinner
          obtain ⟨xo, xa, xw⟩ := x
          have hxa : xa = ⟨l, n⟩ := (Prod.mk.inj hx).1
          have hxw : xw = true := (Prod.mk.inj hx).2
          subst hxa; subst hxw
          cases xo with
          | none =>
            simp only [hinner] at h
            rw [← Option.some.inj h]
            exact ⟨rfl, l, rfl, hlen, hb⟩
          | some mi =>
            obtain ⟨min_index, mval⟩ := mi
            simp only [hinner] at h
            obtain ⟨c, l1, h1, hlen1, hb1⟩ := chk_swap l n min_index i hlen hb
            simp only [h1] at h
            by_cases hc : c = ARRAY_ERR
            · simp only [hc, reduceIte] at h
              rw [← Option.some.inj h]
              exact ⟨rfl, l1, rfl, hlen1, hb1⟩
            · simp only [hc, reduceIte] at h
              exact ih _ l1 hlen1 hb1 r h
    · rw [if_neg hlt] at h
      rw [← Option.some.inj h]
      exact ⟨rfl, l, rfl, hlen, hb⟩

theorem chk_shuffle_loop (rand : Nat → Int → Int → Int) (n : Nat) :
    ∀ (fuel i : Nat) (l : List Nat), l.length = n → (∀ x ∈ l, x < n) →
      ∀ r, _kjfeefnje_loop range_check rand fuel i ⟨l, n⟩ true = some r →
        r.2.2 = true ∧ ∃ l1, r.2.1 = ⟨l1, n⟩ ∧ l1.length = n ∧ ∀ x ∈ l1, x < n := by
  intro fuel
  induction fuel with
  | zero => intro i l _ _ r h; simp [_kjfeefnje_loop] at h
  | succ fuel ih =>
    intro i l hlen hb r h
    rw [_kjfeefnje_loop] at h
    by_cases hlt : i < size_sub (⟨l, n⟩ : Array).len 1
    · rw [if_pos hlt] at h
      obtain ⟨c, l1, h1, hlen1, hb1⟩ := chk_swap l n i
        (int_to_size (rand i (size_to_int i) (size_to_int (size_sub n 1)))) hlen hb
      simp only [h1] at h
      by_cases hc : c = ARRAY_ERR
      · simp only [hc, reduceIte] at h
        rw [← Option.some.inj h]
        exact ⟨rfl, l1, rfl, hlen1, hb1⟩
      · simp only [hc, reduceIte] at h
        exact ih _ l1 hlen1 hb1 r h
    · rw [if_neg hlt] at h
      rw [← Option.some.inj h]
      exact ⟨rfl, l, rfl, hlen, hb⟩


theorem show_sort_returns {σ : Type} (cb : Callbacks σ) (hcb : cb.preserves)
    (rand : Nat → Int → Int → Int) (fuel n : Nat) (w : σ) (hn : 1 ≤ n)
    (hn32 : n * sizeof_unsigned_int < UINT_MOD) (hfuel : n < fuel)
    (hrand : ∀ i, i < n - 1 →
      (i : Int) ≤ rand i (size_to_int i) (size_to_int (n - 1)) ∧
      rand i (size_to_int i) (size_to_int (n - 1)) ≤ ((n - 1 : Nat) : Int)) :
    ∃ l3 w3, show_sort cb SelectionSort fuel n (StandardShuffle rand) w
      = some (true, ⟨l3, n⟩, w3) := by
  have hnsz : n * sizeof_unsigned_int < SIZE_MOD :=
    Nat.lt_trans hn32 (by simp only [UINT_MOD, SIZE_MOD]; omega)
  obtain ⟨l1, w1, h1, hlen1, _⟩ :=
    Array_new_init_loop_ok cb hcb n hnsz fuel 0 (List.replicate n 0) w (by simp)
      (Nat.zero_le _) (by omega) (fun k hk => absurd hk (Nat.not_lt_zero k))
  obtain ⟨l2, w2, h2, hlen2, hperm2⟩ :=
    _kjfeefnje_loop_ok cb hcb rand l1 n hnsz (by omega) hrand fuel 0 l1 w1 (by omega) hlen1
      (List.Perm.refl _)
  obtain ⟨l3, w3, h3, _, _, _⟩ :=
    _ewweew_loop_ok cb hcb l1 n hnsz (by omega) fuel 0 l2 w2 (by omega) hlen2
      hperm2 (fun p q hp _ _ => absurd hp (Nat.not_lt_zero p))
  refine ⟨l3, w3, ?_⟩
  have hinit : Array_new_init cb fuel n w = some (some ⟨l1, n⟩, w1) := by
    unfold Array_new_init
    rw [Array_new_eq n hn32]
    exact h1
  have hshuffle : (StandardShuffle rand).fun_ cb fuel ⟨l1, n⟩ w1
      = some (true, ⟨l2, n⟩, w2) := h2
  have hsort : SelectionSort.fun_ cb fuel ⟨l2, n⟩ w2 = some (true, ⟨l3, n⟩, w3) := h3
  unfold show_sort
  simp only [hinit, hshuffle, hsort]

theorem chk_show_sort (rand : Nat → Int → Int → Int) (fuel n : Nat) (hn : 1 ≤ n)
    (hnsz : n * sizeof_unsigned_int < UINT_MOD) (r : Bool × Array × Bool)
    (h : show_sort range_check SelectionSort fuel n (StandardShuffle rand) true = some r) :
    r.2.2 = true := by
  unfold show_sort at h
  cases h0 : Array_new_init range_check fuel n true with
  | none => simp only [h0, reduceCtorEq] at h
  | some x =>
    have h0' : Array_new_init_loop range_check n fuel 0 ⟨List.replicate n 0, n⟩ true
        = some x := by
      rw [← Array_new_eq n hnsz]; exact h0
    obtain ⟨hw1, ha1⟩ := chk_new_init_loop n fuel 0 (List.replicate n 0) (by simp)
      (fun y hy => by rw [List.eq_of_mem_replicate hy]; omega) x h0'
    obtain ⟨ao, w1⟩ := x
    have hw1' : w1 = true := hw1
    subst hw1'
    cases ao with
    | none => simp only [h0, reduceCtorEq] at h
    | some a =>
      obtain ⟨l1, hl1, hlen1, hb1⟩ := ha1 a rfl
      subst hl1
      simp only [h0] at h
      cases h2 : (StandardShuffle rand).fun_ range_check fuel ⟨l1, n⟩ true with
      | none => simp only [h2, reduceCtorEq] at h
      | some y =>
        obtain ⟨hw2, l2, hl2, hlen2, hb2⟩ := chk_shuffle_loop rand n fuel 0 l1 hlen1 hb1 y h2
        obtain ⟨b, a2, w2⟩ := y
        have hw2' : w2 = true := hw2
        have hl2' : a2 = ⟨l2, n⟩ := hl2
        subst hw2'; subst hl2'
        cases b with
        | false =>
          simp only [h2] at h
          rw [← Option.some.inj h]
        | true =>
          simp only [h2] at h
          exact (chk_sort_loop n fuel 0 l2 hlen2 hb2 r h).1

theorem Array_push_wraps (junk : Nat → Nat) (l : List Nat) (v : Nat) :
    Array_push (Callbacks.default : Callbacks Unit) junk ⟨l, 1073741823⟩ v ()
      = (ARRAY_OK, ⟨[], 1073741824⟩, ()) := by
  have h1 : (1073741823 + 1) % SIZE_MOD = 1073741824 := by decide
  have h2 : 1073741824 * sizeof_unsigned_int % SIZE_MOD % UINT_MOD / sizeof_unsigned_int = 0 := by
    decide
  unfold Array_push Array_mem_realloc
  simp only [h1, h2, List.range_zero, List.map_nil]
  rfl

/-! ## The pipeline over a buffer without elements -/

theorem nil_at (n i : Nat) :
    Array_at (Callbacks.default : Callbacks Unit) ⟨[], n⟩ i () =
      (if n ≤ i then ⟨ARRAY_ERR, 0⟩ else ⟨ARRAY_OK, 0⟩, ⟨[], n⟩, ()) := by
  by_cases h : n ≤ i
  · rw [Array_at_err _ ⟨[], n⟩ i () h, if_pos h]
  · rw [Array_at_ok _ Callbacks.default_preserves ⟨[], n⟩ i () (Nat.lt_of_not_le h), if_neg h]
    rfl

theorem nil_set (n i v : Nat) :
    ∃ c, Array_set (Callbacks.default : Callbacks Unit) ⟨[], n⟩ i v () = (c, ⟨[], n⟩, ()) := by
  by_cases h : n ≤ i
  · exact ⟨ARRAY_ERR, Array_set_err _ ⟨[], n⟩ i v () h⟩
  · exact ⟨ARRAY_OK, by
      rw [Array_set_ok _ Callbacks.default_preserves ⟨[], n⟩ i v () (Nat.lt_of_not_le h)]
      rfl⟩

theorem nil_swap (n i j : Nat) :
    ∃ c, Array_swap (Callbacks.default : Callbacks Unit) ⟨[], n⟩ i j () = (c, ⟨[], n⟩, ()) := by
  unfold Array_swap
  simp only [nil_at n i]
  by_cases hi : n ≤ i
  · simp only [hi, reduceIte]
    exact ⟨_, rfl⟩
  · simp only [hi, reduceIte, reduceCtorEq, nil_at n j]
    by_cases hj : n ≤ j
    · simp only [hj, reduceIte]
      exact ⟨_, rfl⟩
    · simp only [hj, reduceIte, reduceCtorEq]
      obtain ⟨c1, h1⟩ := nil_set n i 0
      simp only [h1]
      by_cases hc1 : c1 = ARRAY_ERR
      · simp only [hc1, reduceIte]
        exact ⟨_, rfl⟩
      · simp only [hc1, reduceIte]
        obtain ⟨c2, h2⟩ := nil_set n j 0
        simp only [h2]
        by_cases hc2 : c2 = ARRAY_ERR
        · simp only [hc2, reduceIte]
          exact ⟨_, rfl⟩
        · simp only [hc2, reduceIte]
          exact ⟨_, rfl⟩

theorem nil_new_init_loop (n : Nat) :
    ∀ (fuel i : Nat) (r : Option Array × Unit),
      Array_new_init_loop (Callbacks.default : Callbacks Unit) n fuel i ⟨[], n⟩ () = some r →
        ∀ a, r.1 = some a → a = ⟨[], n⟩ := by
  intro fuel
  induction fuel with
  | zero => intro i r h; simp [Array_new_init_loop] at h
  | succ fuel ih =>
    intro i r h
    rw [Array_new_init_loop] at h
    by_cases hlt : i < n
    · rw [if_pos hlt] at h
      obtain ⟨c, h1⟩ := nil_set n i (i % UINT_MOD)
      simp only [h1] at h
      by_cases hc : c = ARRAY_ERR
      · simp only [hc, reduceIte] at h
        rw [← Option.some.inj h]
        intro a ha
        simp at ha
      · simp only [hc, reduceIte] at h
        exact ih _ r h
    · rw [if_neg hlt] at h
      rw [← Option.some.inj h]
      intro a ha
      exact (Option.some.inj ha).symm

theorem nil_inner (n : Nat) :
    ∀ (fuel j m : Nat) (mv : Array_Result) (r : Option (Nat × Array_Result) × Array × Unit),
      _ewweew_inner (Callbacks.default : Callbacks Unit) fuel j m mv ⟨[], n⟩ () = some r →
        r.2.1 = ⟨[], n⟩ := by
  intro fuel
  induction fuel with
  | zero => intro j m mv r h; simp [_ewweew_inner] at h
  | succ fuel ih =>
    intro j m mv r h
    rw [_ewweew_inner] at h
    by_cases hlt : j < n
    · have hlt1 : j < (⟨[], n⟩ : Array).len := hlt
      rw [if_pos hlt1] at h
      simp only [nil_at n j, if_neg (Nat.not_le.mpr hlt), reduceCtorEq, reduceIte] at h
      by_cases hless : 0 < mv.value
      · rw [if_pos hless] at h
        exact ih _ _ _ r h
      · rw [if_neg hless] at h
        exact ih _ _ _ r h
    · have hlt1 : ¬ j < (⟨[], n⟩ : Array).len := hlt
      rw [if_neg hlt1] at h
      rw [← Option.some.inj h]

theorem nil_sort_loop (n : Nat) :
    ∀ (fuel i : Nat) (r : Bool × Array × Unit),
      _ewweew_loop (Callbacks.default : Callbacks Unit) fuel i ⟨[], n⟩ () = some r →
        r.2.1 = ⟨[], n⟩ := by
  intro fuel
  induction fuel with
  | zero => intro i r h; simp [_ewweew_loop] at h
  | succ fuel ih =>
    intro i r h
    rw [_ewweew_loop] at h
    by_cases hlt : i < size_sub (⟨[], n⟩ : Array).len 1
    · rw [if_pos hlt] at h
      simp only [nil_at n i] at h
      by_cases hi : n ≤ i
      · simp only [hi, reduceIte] at h
        rw [← Option.some.inj h]
      · simp only [hi, reduceIte, reduceCtorEq] at h
        cases hinner : _ewweew_inner (Callbacks.default : Callbacks Unit) fuel
            ((i + 1) % SIZE_MOD) i ⟨ARRAY_OK, 0⟩ ⟨[], n⟩ () with
        | none => simp only [hinner, reduceCtorEq] at h
        | some x =>
          have hx := nil_inner n fuel _ _ _ x hinner
          obtain ⟨xo, xa, xw⟩ := x
          have hxa : xa = ⟨[], n⟩ := hx
          subst hxa
          cases xo with
          | none =>
            simp only [hinner] at h
            rw [← Option.some.inj h]
          | some mi =>
            obtain ⟨min_index, mval⟩ := mi
            simp only [hinner] at h
            obtain ⟨c, h1⟩ := nil_swap n min_index i
            simp only [h1] at h
            by_cases hc : c = ARRAY_ERR
            · simp only [hc, reduceIte] at h
              rw [← Option.some.inj h]
            · simp only [hc, reduceIte] at h
              exact ih _ r h
    · rw [if_neg hlt] at h
      rw [← Option.some.inj h]

theorem nil_shuffle_loop (rand : Nat → Int → Int → Int) (n : Nat) :
    ∀ (fuel i : Nat) (r : Bool × Array × Unit),
      _kjfeefnje_loop (Callbacks.default : Callbacks Unit) rand fuel i ⟨[], n⟩ () = some r →
        r.2.1 = ⟨[], n⟩ := by
  intro fuel
  induction fuel with
  | zero => intro i r h; simp [_kjfeefnje_loop] at h
  | succ fuel ih =>
    intro i r h
    rw [_kjfeefnje_loop] at h
    by_cases hlt : i < size_sub (⟨[], n⟩ : Array).len 1
    · rw [if_pos hlt] at h
      obtain ⟨c, h1⟩ := nil_swap n i
        (int_to_size (rand i (size_to_int i) (size_to_int (size_sub n 1))))
      simp only [h1] at h
      by_cases hc : c = ARRAY_ERR
      · simp only [hc, reduceIte] at h
        rw [← Option.some.inj h]
      · simp only [hc, reduceIte] at h
        exact ih _ r h
    · rw [if_neg hlt] at h
      rw [← Option.some.inj h]

theorem nil_show_sort (rand : Nat → Int → Int → Int) (fuel n : Nat)
    (hnew : Array_new n = ⟨[], n⟩) (r : Bool × Array × Unit)
    (h : show_sort (Callbacks.default : Callbacks Unit) SelectionSort fuel n
      (StandardShuffle rand) () = some r) :
    r.2.1 = ⟨[], n⟩ := by
  unfold show_sort at h
  cases h0 : Array_new_init (Callbacks.default : Callbacks Unit) fuel n () with
  | none => simp only [h0, reduceCtorEq] at h
  | some x =>
    have h0' : Array_new_init_loop (Callbacks.default : Callbacks Unit) n fuel 0 ⟨[], n⟩ ()
        = some x := by
      rw [← hnew]; exact h0
    have ha1 := nil_new_init_loop n fuel 0 x h0'
    obtain ⟨ao, w1⟩ := x
    cases ao with
    | none => simp only [h0, reduceCtorEq] at h
    | some a =>
      have hl1 := ha1 a rfl
      subst hl1
      simp only [h0] at h
      cases h2 : (StandardShuffle rand).fun_ (Callbacks.default : Callbacks Unit) fuel
          ⟨[], n⟩ () with
      | none => simp only [h2, reduceCtorEq] at h
      | some y =>
        have hl2 := nil_shuffle_loop rand n fuel 0 y h2
        obtain ⟨b, a2, w2⟩ := y
        have hl2' : a2 = ⟨[], n⟩ := hl2
        subst hl2'
        cases b with
        | false =>
          simp only [h2] at h
          rw [← Option.some.inj h]
        | true =>
          simp only [h2] at h
          exact nil_sort_loop n fuel 0 r h

theorem range_buffer_ne_nil (n : Nat) (hn : 0 < n) :
    (⟨List.range n, n⟩ : Array) ≠ ⟨[], n⟩ := by
  intro h
  have h1 : (List.range n).length = ([] : List Nat).length :=
    congrArg (fun a : Array => a._arr.length) h
  rw [List.length_range] at h1
  exact absurd h1 (Nat.ne_of_gt hn)

/-! ## Arrays in memory -/

theorem ONE_UNITS_eq : Float32.ONE_UNITS = 2 ^ 149 := by
  unfold Float32.ONE_UNITS; norm_num

theorem LIMIT_UNITS_eq : Float32.LIMIT_UNITS = 2 ^ 277 := by
  unfold Float32.LIMIT_UNITS; norm_num

theorem shift_loop_spec :
    ∀ (fuel q : Nat), q < 16777216 * 2 ^ fuel →
      q / 2 ^ Float32.shift_loop fuel q < 16777216 ∧
      (Float32.shift_loop fuel q = 0 ∨ 8388608 ≤ q / 2 ^ Float32.shift_loop fuel q) := by
  intro fuel
  induction fuel with
  | zero =>
    intro q h
    simp only [Float32.shift_loop, pow_zero, Nat.div_one]
    exact ⟨by omega, Or.inl trivial⟩
  | succ fuel ih =>
    intro q h
    rw [Float32.shift_loop]
    by_cases hq : q < 16777216
    · rw [if_pos hq]
      simp only [pow_zero, Nat.div_one]
      exact ⟨hq, Or.inl trivial⟩
    · rw [if_neg hq]
      have h2 : q / 2 < 16777216 * 2 ^ fuel := by
        rw [pow_succ] at h
        omega
      obtain ⟨h3, h4⟩ := ih (q / 2) h2
      have hdiv : q / 2 ^ (Float32.shift_loop fuel (q / 2) + 1)
          = q / 2 / 2 ^ Float32.shift_loop fuel (q / 2) := by
        rw [pow_succ, Nat.mul_comm, Nat.div_div_eq_div_mul]
      rw [hdiv]
      refine ⟨h3, Or.inr ?_⟩
      rcases h4 with h4 | h4
      · rw [h4, pow_zero, Nat.div_one]
        omega
      · exact h4

theorem shift_spec (q : Nat) :
    q / 2 ^ Float32.shift q < 16777216 ∧
    (Float32.shift q = 0 ∨ 8388608 ≤ q / 2 ^ Float32.shift q) := by
  apply shift_loop_spec
  have h1 : q < 2 ^ q := Nat.lt_two_pow q
  have h2 : 2 ^ q ≤ 16777216 * 2 ^ q := Nat.le_mul_of_pos_left _ (by norm_num)
  omega

theorem shift_unique (s n : Nat) (h : Float32.shift_valid s n = true) :
    Float32.shift n = s := by
  simp only [Float32.shift_valid, Bool.and_eq_true, Bool.or_eq_true, decide_eq_true_eq,
    beq_iff_eq] at h
  obtain ⟨h1, h2⟩ := h
  obtain ⟨h3, h4⟩ := shift_spec n
  have key : ∀ a b : Nat, a < b → n / 2 ^ a < 16777216 → 8388608 ≤ n / 2 ^ b → False := by
    intro a b hab ha hb
    have hb1 : 8388608 * 2 ^ b ≤ n := (Nat.le_div_iff_mul_le (Nat.two_pow_pos _)).mp hb
    have ha1 : n < 16777216 * 2 ^ a := (Nat.div_lt_iff_lt_mul (Nat.two_pow_pos _)).mp ha
    have hpow : 2 ^ (a + 1) ≤ 2 ^ b := Nat.pow_le_pow_right (by norm_num) hab
    rw [pow_succ] at hpow
    omega
  rcases Nat.lt_trichotomy (Float32.shift n) s with hlt | heq | hgt
  · rcases h2 with h2 | h2
    · omega
    · exact absurd (key _ _ hlt h3 h2) id
  · exact heq
  · rcases h4 with h4 | h4
    · omega
    · exact absurd (key _ _ hgt h1 h4) id

theorem round_units_one (n : Nat) :
    Float32.round_units n 1 = Float32.rne n (Float32.shift n) := by
  simp only [Float32.round_units, Float32.rne, Nat.div_one, Nat.one_mul]

theorem round_units_of_valid (s n : Nat) (h : Float32.shift_valid s n = true) :
    Float32.round_units n 1 = Float32.rne n s := by
  rw [round_units_one, shift_unique s n h]

theorem rne_le (n s : Nat) : Float32.rne n s ≤ (n / 2 ^ s + 1) * 2 ^ s := by
  unfold Float32.rne
  apply Nat.mul_le_mul_right
  split
  · omega
  · split
    · omega
    · split <;> omega

theorem rne_exact (n s : Nat) (h : n % 2 ^ s = 0) : Float32.rne n s = n := by
  unfold Float32.rne
  have hpos : 0 < 2 ^ s := Nat.two_pow_pos _
  rw [h, if_pos (by omega)]
  exact Nat.div_mul_cancel (Nat.dvd_of_mod_eq_zero h)

theorem rne_floor (n s : Nat) (h : 2 * (n % 2 ^ s) < 2 ^ s) :
    Float32.rne n s = n / 2 ^ s * 2 ^ s := by
  unfold Float32.rne
  rw [if_pos h]

theorem round_units_le_one (n : Nat) (h : n ≤ Float32.ONE_UNITS) :
    Float32.round_units n 1 ≤ Float32.ONE_UNITS := by
  rw [round_units_one]
  rw [ONE_UNITS_eq] at h ⊢
  obtain ⟨h1, h2⟩ := shift_spec n
  generalize Float32.shift n = s at h1 h2
  have hpos : 0 < 2 ^ s := Nat.two_pow_pos _
  have hs : s ≤ 149 := by
    rcases h2 with h2 | h2
    · omega
    · have h3 : 8388608 * 2 ^ s ≤ n := (Nat.le_div_iff_mul_le hpos).mp h2
      by_contra hgt
      have h4 : 2 ^ 150 ≤ 2 ^ s := Nat.pow_le_pow_right (by norm_num) (by omega)
      have h5 : (2 : Nat) ^ 149 < 2 ^ 150 := by norm_num
      omega
  have hsplit : (2 : Nat) ^ 149 = 2 ^ (149 - s) * 2 ^ s := by
    rw [← pow_add]
    congr 1
    omega
  by_cases hfloor : 2 * (n % 2 ^ s) < 2 ^ s
  · rw [rne_floor n s hfloor]
    exact le_trans (Nat.div_mul_le_self n (2 ^ s)) h
  · have hq : n / 2 ^ s < 2 ^ (149 - s) := by
      rw [Nat.div_lt_iff_lt_mul hpos, ← hsplit]
      rcases Nat.lt_or_eq_of_le h with hlt | heq
      · exact hlt
      · exfalso
        apply hfloor
        rw [heq, hsplit, Nat.mul_mod_left]
        omega
    calc Float32.rne n s ≤ (n / 2 ^ s + 1) * 2 ^ s := rne_le n s
      _ ≤ 2 ^ (149 - s) * 2 ^ s := Nat.mul_le_mul_right _ hq
      _ = 2 ^ 149 := hsplit.symm

/-! ## Pacing -/

theorem pause_for_wait_ok (clock : Nat → Nat) :
    ∀ (k fuel : Nat) (st : Pacing),
      Float32.lt (Float32.of_nat (clock (st.reads + k))) st.pause = false → k < fuel →
      ∃ st1, pause_for_wait clock fuel st = some st1 ∧ st1.pause = st.pause ∧
        st.reads < st1.reads ∧
        Float32.lt (Float32.of_nat (clock (st1.reads - 1))) st1.pause = false ∧
        (∀ t, st.reads ≤ t → t < st1.reads - 1 →
          Float32.lt (Float32.of_nat (clock t)) st1.pause = true) ∧
        st1.yields + st.reads + 1 = st1.reads + st.yields ∧
        (Float32.lt (Float32.of_nat (clock st.reads)) st.pause = false →
          st1 = ⟨st.pause, st.reads + 1, st.yields⟩) := by
  intro k
  induction k with
  | zero =>
    intro fuel st hk hf
    obtain ⟨f, rfl⟩ : ∃ f, fuel = f + 1 := ⟨fuel - 1, by omega⟩
    have hk0 : Float32.lt (Float32.of_nat (clock st.reads)) st.pause = false := hk
    rw [pause_for_wait, if_neg (by rw [hk0]; exact Bool.false_ne_true)]
    refine ⟨_, rfl, rfl, Nat.lt_succ_self _, hk0, ?_, by simp; omega, fun _ => rfl⟩
    intro t h1 h2
    simp at h2
    omega
  | succ k ih =>
    intro fuel st hk hf
    obtain ⟨f, rfl⟩ : ∃ f, fuel = f + 1 := ⟨fuel - 1, by omega⟩
    rw [pause_for_wait]
    by_cases hlt : Float32.lt (Float32.of_nat (clock st.reads)) st.pause = true
    · rw [if_pos hlt]
      obtain ⟨st1, h1, h2, h3, h4, h5, h6, _⟩ := ih f ⟨st.pause, st.reads + 1, st.yields + 1⟩
        (by
          have : st.reads + 1 + k = st.reads + (k + 1) := by omega
          show Float32.lt (Float32.of_nat (clock (st.reads + 1 + k))) st.pause = false
          rw [this]; exact hk)
        (by omega)
      refine ⟨st1, h1, h2, ?_, h4, ?_, ?_, ?_⟩
      · exact Nat.lt_trans (Nat.lt_succ_self _) h3
      · intro t ht1 ht2
        by_cases hts : t = st.reads
        · rw [hts, h2]; exact hlt
        · exact h5 t (by show st.reads + 1 ≤ t; omega) ht2
      · have h6' : st1.yields + (st.reads + 1) + 1 = st1.reads + (st.yields + 1) := h6
        omega
      · intro hc
        rw [hc] at hlt
        exact absurd hlt Bool.false_ne_true
    · rw [if_neg hlt]
      have hf0 : Float32.lt (Float32.of_nat (clock st.reads)) st.pause = false := by
        simpa using hlt
      refine ⟨_, rfl, rfl, Nat.lt_succ_self _, hf0, ?_, by simp; omega, fun _ => rfl⟩
      intro t h1 h2
      simp at h2
      omega

theorem pause_for_wait_fuel (clock : Nat → Nat) :
    ∀ (fuel : Nat) (st st1 : Pacing), pause_for_wait clock fuel st = some st1 →
      ∀ fuel2, fuel ≤ fuel2 → pause_for_wait clock fuel2 st = some st1 := by
  intro fuel
  induction fuel with
  | zero => intro st st1 h; simp [pause_for_wait] at h
  | succ fuel ih =>
    intro st st1 h fuel2 hle
    obtain ⟨f2, rfl⟩ : ∃ f2, fuel2 = f2 + 1 := ⟨fuel2 - 1, by omega⟩
    rw [pause_for_wait] at h ⊢
    by_cases hlt : Float32.lt (Float32.of_nat (clock st.reads)) st.pause = true
    · rw [if_pos hlt] at h ⊢
      exact ih _ _ h f2 (by omega)
    · rw [if_neg hlt] at h ⊢
      exact h

theorem pause_for_wait_pause (clock : Nat → Nat) :
    ∀ (fuel : Nat) (st st1 : Pacing), pause_for_wait clock fuel st = some st1 →
      st1.pause = st.pause := by
  intro fuel
  induction fuel with
  | zero => intro st st1 h; simp [pause_for_wait] at h
  | succ fuel ih =>
    intro st st1 h
    rw [pause_for_wait] at h
    by_cases hlt : Float32.lt (Float32.of_nat (clock st.reads)) st.pause = true
    · rw [if_pos hlt] at h
      exact ih ⟨st.pause, st.reads + 1, st.yields + 1⟩ st1 h
    · rw [if_neg hlt] at h
      rw [← Option.some.inj h]

theorem pause_for_times_pause (CPS : Nat) (clock : Nat → Nat) (fuel : Nat) (ms : Float32) :
    ∀ (n : Nat) (st st1 : Pacing), pause_for_times CPS clock fuel ms n st = some st1 →
      st1.pause = pause_after (pause_ticks CPS ms) n st.pause := by
  intro n
  induction n with
  | zero =>
    intro st st1 h
    rw [pause_for_times] at h
    rw [← Option.some.inj h]
    rfl
  | succ n ih =>
    intro st st1 h
    rw [pause_for_times] at h
    cases h1 : pause_for CPS clock fuel ms st with
    | none => rw [h1] at h; simp at h
    | some st2 =>
      rw [h1] at h
      have h2 : st2.pause = Float32.add st.pause (pause_ticks CPS ms) :=
        pause_for_wait_pause clock fuel _ _ h1
      rw [ih st2 st1 h, h2]
      rfl

theorem pause_after_add (ticks : Float32) :
    ∀ (n : Nat) (pause : Float32),
      pause_after ticks (n + 1) pause = Float32.add (pause_after ticks n pause) ticks := by
  intro n
  induction n with
  | zero => intro pause; rfl
  | succ n ih =>
    intro pause
    show pause_after ticks (n + 1) (Float32.add pause ticks) = _
    rw [ih]
    rfl

theorem pause_for_times_returns (CPS : Nat) (clock : Nat → Nat) (ms : Float32) :
    ∀ (n : Nat) (st : Pacing),
      (∀ (t j : Nat), 1 ≤ j → j ≤ n → ∃ k, Float32.lt (Float32.of_nat (clock (t + k)))
        (pause_after (pause_ticks CPS ms) j st.pause) = false) →
      ∃ fuel0 st1, ∀ fuel, fuel0 ≤ fuel →
        pause_for_times CPS clock fuel ms n st = some st1 := by
  intro n
  induction n with
  | zero => intro st _; exact ⟨0, st, fun _ _ => rfl⟩
  | succ n ih =>
    intro st hclock
    obtain ⟨k, hk⟩ := hclock st.reads 1 (le_refl _) (by omega)
    obtain ⟨st1, h1, h1p, _⟩ := pause_for_wait_ok clock k (k + 1)
      ⟨Float32.add st.pause (pause_ticks CPS ms), st.reads, st.yields⟩ hk (Nat.lt_succ_self _)
    have hp1 : st1.pause = Float32.add st.pause (pause_ticks CPS ms) := h1p
    obtain ⟨fuel0, st2, h2⟩ := ih st1 (by
      intro t j hj1 hjn
      obtain ⟨k2, hk2⟩ := hclock t (j + 1) (by omega) (by omega)
      refine ⟨k2, ?_⟩
      rw [hp1]
      exact hk2)
    refine ⟨max (k + 1) fuel0, st2, ?_⟩
    intro fuel hfuel
    have h3 : pause_for CPS clock fuel ms st = some st1 :=
      pause_for_wait_fuel clock (k + 1) _ _ h1 fuel (le_trans (le_max_left _ _) hfuel)
    rw [pause_for_times, h3]
    exact h2 fuel (le_trans (le_max_right _ _) hfuel)

theorem add_exact (p d : Nat) (hr : Float32.round_units (p + d) 1 = p + d)
    (hl : p + d < Float32.LIMIT_UNITS) :
    Float32.add (Float32.finite false p) (Float32.finite false d)
      = Float32.finite false (p + d) := by
  simp only [Float32.add, Float32.round, hr, hl, reduceIte]

theorem pause_after_exact (p0 d : Nat) :
    ∀ (n : Nat),
      (∀ j, 1 ≤ j → j ≤ n → Float32.round_units (p0 + j * d) 1 = p0 + j * d ∧
        p0 + j * d < Float32.LIMIT_UNITS) →
      pause_after (Float32.finite false d) n (Float32.finite false p0)
        = Float32.finite false (p0 + n * d) := by
  intro n
  induction n with
  | zero => intro _; simp [pause_after]
  | succ n ih =>
    intro h
    rw [pause_after_add, ih (fun j h1 h2 => h j h1 (by omega))]
    have h3 := h (n + 1) (by omega) (le_refl _)
    have h4 : p0 + n * d + d = p0 + (n + 1) * d := by ring
    rw [add_exact (p0 + n * d) d (by rw [h4]; exact h3.1) (by rw [h4]; exact h3.2), h4]

/-! ## The sound list in binary32 -/

theorem b32_lseg_frame (mem mem1 : Nat → Option Binary32.SoundList) :
    ∀ (addrs : List Nat) (events : List Binary32.SoundEvent) (p q : Option Nat),
      (∀ a ∈ addrs, mem1 a = mem a) → Binary32.lseg mem p addrs events q →
      Binary32.lseg mem1 p addrs events q := by
  intro addrs
  induction addrs with
  | nil =>
    intro events p q _ h
    cases events with
    | nil => exact h
    | cons e es => exact h
  | cons a addrs ih =>
    intro events p q hm h
    cases events with
    | nil => exact h
    | cons e es =>
      obtain ⟨hp, node, hnode, hev, hrest⟩ := h
      refine ⟨hp, node, ?_, hev, ?_⟩
      · rw [hm a (List.mem_cons_self _ _)]; exact hnode
      · exact ih es _ q (fun b hb => hm b (List.mem_cons_of_mem _ hb)) hrest

theorem b32_lseg_snoc (mem : Nat → Option Binary32.SoundList) (c : Nat)
    (node : Binary32.SoundList) (hnode : mem c = some node) :
    ∀ (addrs : List Nat) (events : List Binary32.SoundEvent) (p : Option Nat),
      Binary32.lseg mem p addrs events (some c) →
      Binary32.lseg mem p (addrs ++ [c]) (events ++ [node.event]) node.next_item := by
  intro addrs
  induction addrs with
  | nil =>
    intro events p h
    cases events with
    | nil => exact ⟨h, node, hnode, rfl, rfl⟩
    | cons e es => exact absurd h id
  | cons a addrs ih =>
    intro events p h
    cases events with
    | nil => exact absurd h id
    | cons e es =>
      obtain ⟨hp, n1, hn1, hev, hrest⟩ := h
      exact ⟨hp, n1, hn1, hev, ih es _ hrest⟩

theorem b32_lseg_length (mem : Nat → Option Binary32.SoundList) :
    ∀ (addrs : List Nat) (events : List Binary32.SoundEvent) (p q : Option Nat),
      Binary32.lseg mem p addrs events q → addrs.length = events.length := by
  intro addrs
  induction addrs with
  | nil =>
    intro events p q h
    cases events with
    | nil => rfl
    | cons e es => exact absurd h id
  | cons a addrs ih =>
    intro events p q h
    cases events with
    | nil => exact absurd h id
    | cons e es =>
      obtain ⟨_, n1, _, _, hrest⟩ := h
      simp [ih es _ q hrest]

theorem b32_kept_lseg (mem : Nat → Option Binary32.SoundList) (head prev cur : Option Nat)
    (ks : List Nat) (kes : List Binary32.SoundEvent)
    (h : Binary32.kept mem head prev cur ks kes) : Binary32.lseg mem head ks kes cur := by
  cases prev with
  | none =>
    obtain ⟨h1, h2, h3⟩ := h
    subst h1; subst h2
    exact h3
  | some p =>
    obtain ⟨ks0, kes0, node, h1, h2, h3, h4, h5⟩ := h
    subst h1; subst h2; subst h5
    exact b32_lseg_snoc mem p node h4 ks0 kes0 head h3

theorem b32_mem_write_same (mem : Nat → Option Binary32.SoundList) (p : Nat)
    (v : Option Binary32.SoundList) : Binary32.mem_write mem p v p = v := by
  simp [Binary32.mem_write]

theorem b32_mem_write_other (mem : Nat → Option Binary32.SoundList) (p q : Nat)
    (v : Option Binary32.SoundList) (h : q ≠ p) : Binary32.mem_write mem p v q = mem q := by
  simp [Binary32.mem_write, h]

theorem b32_spec_advance_keep (node : Binary32.SoundList)
    (h : Float32.le (Float32.of_nat 0) (Float32.sub node.remaining_amplitude
      (Float32.div (Float32.div (Float32.of_nat 1) node.duration) Binary32.SAMPLE_RATE))
        = true) :
    Binary32.spec_advance node.event =
      some (Binary32.SoundList.event ⟨node.waveform, node.volume, node.value, node.duration,
        Float32.add node.elapsed (Float32.div (Float32.of_nat 1) Binary32.SAMPLE_RATE),
        Float32.sub node.remaining_amplitude
          (Float32.div (Float32.div (Float32.of_nat 1) node.duration) Binary32.SAMPLE_RATE),
        node.next_item⟩) := by
  unfold Binary32.spec_advance
  simp only [Binary32.SoundList.event, Binary32.decrement]
  rw [if_pos h]
  rfl

theorem b32_spec_advance_drop (node : Binary32.SoundList)
    (h : ¬ Float32.le (Float32.of_nat 0) (Float32.sub node.remaining_amplitude
      (Float32.div (Float32.div (Float32.of_nat 1) node.duration) Binary32.SAMPLE_RATE))
        = true) :
    Binary32.spec_advance node.event = none := by
  unfold Binary32.spec_advance
  simp only [Binary32.SoundList.event, Binary32.decrement]
  rw [if_neg h]

theorem b32_next_sample_loop_ok :
    ∀ (as2 : List Nat) (es2 : List Binary32.SoundEvent) (fuel : Nat) (acc : Float32)
      (prev cur : Option Nat) (st : Binary32.AudioState) (ks : List Nat)
      (kes : List Binary32.SoundEvent),
      as2.length < fuel → Binary32.kept st.mem st.sound_list prev cur ks kes →
      Binary32.lseg st.mem cur as2 es2 none → (ks ++ as2).Nodup →
      ∃ st1 ks1, Binary32.next_sample_loop fuel acc prev cur st
            = some ((es2.map Binary32.spec_contribution).foldl Float32.add acc, st1) ∧
          st1.brk = st.brk ∧
          Binary32.lseg st1.mem st1.sound_list (ks ++ ks1)
            (kes ++ es2.filterMap Binary32.spec_advance) none ∧
          ks1.Sublist as2 := by
  intro as2
  induction as2 with
  | nil =>
    intro es2 fuel acc prev cur st ks kes hf hk hl _
    cases es2 with
    | cons e es => exact absurd hl id
    | nil =>
      have hcur : cur = none := hl
      subst hcur
      obtain ⟨f, rfl⟩ : ∃ f, fuel = f + 1 := ⟨fuel - 1, by simp at hf; omega⟩
      refine ⟨st, [], ?_, rfl, ?_, List.Sublist.refl _⟩
      · simp [Binary32.next_sample_loop]
      · simpa using b32_kept_lseg _ _ _ _ _ _ hk
  | cons c as2 ih =>
    intro es2 fuel acc prev cur st ks kes hf hk hl hnd
    cases es2 with
    | nil => exact absurd hl id
    | cons e es =>
      obtain ⟨hcur, node, hnode, hev, hrest⟩ := hl
      subst hcur
      obtain ⟨f, rfl⟩ : ∃ f, fuel = f + 1 := ⟨fuel - 1, by simp at hf; omega⟩
      have hf1 : as2.length < f := by simpa using hf
      have hcks : c ∉ ks := fun hc =>
        (List.nodup_append.mp hnd).2.2 hc (List.mem_cons_self _ _)
      have hcas : c ∉ as2 := (List.nodup_cons.mp (List.nodup_append.mp hnd).2.1).1
      have hsum : ((e :: es).map Binary32.spec_contribution).foldl Float32.add acc =
          (es.map Binary32.spec_contribution).foldl Float32.add
            (Float32.add acc
              (Float32.mul
                (Float32.mul (node.waveform (Float32.mul (Binary32.frequency node.value)
                  node.elapsed)) node.volume)
                node.remaining_amplitude)) := by
        rw [List.map_cons, List.foldl_cons, ← hev]
        rfl
      rw [hsum, Binary32.next_sample_loop]
      simp only [hnode]
      by_cases hge : Float32.le (Float32.of_nat 0) (Float32.sub node.remaining_amplitude
          (Float32.div (Float32.div (Float32.of_nat 1) node.duration) Binary32.SAMPLE_RATE))
            = true
      · rw [if_pos hge]
        have hadv := b32_spec_advance_keep node hge
        rw [hev] at hadv
        obtain ⟨st1, ks1, h1, h2, h3, h4⟩ := ih es f
          (Float32.add acc
            (Float32.mul
              (Float32.mul (node.waveform (Float32.mul (Binary32.frequency node.value)
                node.elapsed)) node.volume)
              node.remaining_amplitude)) (some c) node.next_item
          ⟨Binary32.mem_write st.mem c (some ⟨node.waveform, node.volume, node.value,
            node.duration,
            Float32.add node.elapsed (Float32.div (Float32.of_nat 1) Binary32.SAMPLE_RATE),
            Float32.sub node.remaining_amplitude
              (Float32.div (Float32.div (Float32.of_nat 1) node.duration)
                Binary32.SAMPLE_RATE),
            node.next_item⟩), st.brk, st.sound_list⟩
          (ks ++ [c])
          (kes ++ [Binary32.SoundList.event ⟨node.waveform, node.volume, node.value,
            node.duration,
            Float32.add node.elapsed (Float32.div (Float32.of_nat 1) Binary32.SAMPLE_RATE),
            Float32.sub node.remaining_amplitude
              (Float32.div (Float32.div (Float32.of_nat 1) node.duration)
                Binary32.SAMPLE_RATE),
            node.next_item⟩])
          hf1
          ⟨ks, kes, _, rfl, rfl,
            b32_lseg_frame st.mem _ ks kes _ _
              (fun a ha => b32_mem_write_other _ _ _ _ (fun hac => hcks (hac ▸ ha)))
              (b32_kept_lseg _ _ _ _ _ _ hk),
            b32_mem_write_same _ _ _, rfl⟩
          (b32_lseg_frame st.mem _ as2 es _ _
            (fun a ha => b32_mem_write_other _ _ _ _ (fun hac => hcas (hac ▸ ha))) hrest)
          (by simpa using hnd)
        refine ⟨st1, c :: ks1, h1, h2, ?_, List.Sublist.cons₂ _ h4⟩
        rw [List.filterMap_cons, hadv]
        simpa using h3
      · rw [if_neg hge]
        have hadv := b32_spec_advance_drop node hge
        rw [hev] at hadv
        cases prev with
        | none =>
          obtain ⟨hk1, hk2, hk3⟩ := hk
          subst hk1; subst hk2
          obtain ⟨st1, ks1, h1, h2, h3, h4⟩ := ih es f
            (Float32.add acc
              (Float32.mul
                (Float32.mul (node.waveform (Float32.mul (Binary32.frequency node.value)
                  node.elapsed)) node.volume)
                node.remaining_amplitude)) none node.next_item
            ⟨Binary32.mem_write st.mem c none, st.brk, node.next_item⟩ [] [] hf1
            ⟨rfl, rfl, rfl⟩
            (b32_lseg_frame st.mem _ as2 es _ _
              (fun a ha => b32_mem_write_other _ _ _ _ (fun hac => hcas (hac ▸ ha))) hrest)
            (by simpa using (List.nodup_cons.mp (List.nodup_append.mp hnd).2.1).2)
          refine ⟨st1, ks1, h1, h2, ?_, List.Sublist.cons _ h4⟩
          rw [List.filterMap_cons, hadv]
          exact h3
        | some p =>
          obtain ⟨ks0, kes0, pn, hk1, hk2, hk3, hk4, hk5⟩ := hk
          have hpc : p ≠ c := by
            intro hpc
            apply hcks
            rw [hk1, ← hpc]
            simp
          have hpks0 : p ∉ ks0 := by
            have hn : (ks0 ++ [p]).Nodup := hk1 ▸ (List.nodup_append.mp hnd).1
            intro hp
            exact (List.nodup_append.mp hn).2.2 hp (List.mem_singleton_self _)
          have hpas : p ∉ as2 := by
            intro hp
            exact (List.nodup_append.mp hnd).2.2 (by rw [hk1]; simp)
              (List.mem_cons_of_mem _ hp)
          have hm1 : Binary32.mem_write st.mem c none p = some pn := by
            rw [b32_mem_write_other _ _ _ _ hpc]; exact hk4
          simp only [hm1]
          obtain ⟨st1, ks1, h1, h2, h3, h4⟩ := ih es f
            (Float32.add acc
              (Float32.mul
                (Float32.mul (node.waveform (Float32.mul (Binary32.frequency node.value)
                  node.elapsed)) node.volume)
                node.remaining_amplitude)) (some p) node.next_item
            ⟨Binary32.mem_write (Binary32.mem_write st.mem c none) p
              (some ⟨pn.waveform, pn.volume, pn.value,
                pn.duration, pn.elapsed, pn.remaining_amplitude, node.next_item⟩),
              st.brk, st.sound_list⟩ ks kes hf1
            ⟨ks0, kes0, ⟨pn.waveform, pn.volume, pn.value,
              pn.duration, pn.elapsed, pn.remaining_amplitude, node.next_item⟩, hk1, hk2,
              b32_lseg_frame st.mem _ ks0 kes0 _ _
                (fun a ha => by
                  have hap : a ≠ p := fun hap => hpks0 (hap ▸ ha)
                  have hac : a ≠ c := fun hac => hcks (by rw [hk1, ← hac]; simp [ha])
                  show Binary32.mem_write (Binary32.mem_write st.mem c none) p _ a = st.mem a
                  rw [b32_mem_write_other _ _ _ _ hap, b32_mem_write_other _ _ _ _ hac])
                hk3,
              b32_mem_write_same _ _ _, rfl⟩
            (b32_lseg_frame st.mem _ as2 es _ _
              (fun a ha => by
                have hap : a ≠ p := fun hap => hpas (hap ▸ ha)
                have hac : a ≠ c := fun hac => hcas (hac ▸ ha)
                show Binary32.mem_write (Binary32.mem_write st.mem c none) p _ a = st.mem a
                rw [b32_mem_write_other _ _ _ _ hap, b32_mem_write_other _ _ _ _ hac])
              hrest)
            (by
              have := List.nodup_append.mp hnd
              refine List.nodup_append.mpr ⟨this.1, (List.nodup_cons.mp this.2.1).2, ?_⟩
              intro a ha1 ha2
              exact this.2.2 ha1 (List.mem_cons_of_mem _ ha2))
          refine ⟨st1, ks1, h1, h2, ?_, List.Sublist.cons _ h4⟩
          rw [List.filterMap_cons, hadv]
          exact h3

theorem b32_next_sample_holds (fuel : Nat) (st : Binary32.AudioState) (addrs : List Nat)
    (events : List Binary32.SoundEvent) (h : st.holds addrs events)
    (hf : addrs.length < fuel) :
    ∃ st1 addrs1, Binary32.next_sample fuel st
        = some (Binary32.sample_of (Binary32.spec_render events).1, st1) ∧
      st1.holds addrs1 (Binary32.spec_render events).2 ∧ addrs1.Sublist addrs ∧
      st1.brk = st.brk := by
  obtain ⟨hl, hnd, hbrk⟩ := h
  obtain ⟨st1, ks1, h1, h2, h3, h4⟩ :=
    b32_next_sample_loop_ok addrs events fuel (Float32.of_nat 0) none st.sound_list st [] []
      hf ⟨rfl, rfl, rfl⟩ hl (by simpa using hnd)
  refine ⟨st1, ks1, ?_, ⟨by simpa using h3, hnd.sublist h4, ?_⟩, h4, h2⟩
  · unfold Binary32.next_sample
    rw [h1]
    simp [Binary32.spec_render]
  · intro a ha
    rw [h2]
    exact hbrk a (h4.subset ha)

theorem b32_push_sound_holds (waveform : Float32 → Float32) (volume value duration : Float32)
    (st : Binary32.AudioState) (addrs : List Nat) (events : List Binary32.SoundEvent)
    (h : st.holds addrs events) :
    (Binary32.push_sound waveform volume value duration st).holds (st.brk :: addrs)
      (⟨waveform, volume, value, duration, Float32.of_nat 0, Float32.of_nat 1⟩ :: events) := by
  obtain ⟨hl, hnd, hbrk⟩ := h
  have hfresh : st.brk ∉ addrs := fun hm => Nat.lt_irrefl _ (hbrk _ hm)
  refine ⟨⟨rfl, ⟨waveform, volume, value, duration, Float32.of_nat 0, Float32.of_nat 1,
    st.sound_list⟩, b32_mem_write_same _ _ _, ?_, ?_⟩, List.nodup_cons.mpr ⟨hfresh, hnd⟩, ?_⟩
  · simp only [Binary32.SoundList.event]
  · exact b32_lseg_frame st.mem _ addrs events _ _
      (fun a ha => b32_mem_write_other _ _ _ _ (fun hab => hfresh (hab ▸ ha))) hl
  · intro a ha
    show a < st.brk + 1
    rcases List.mem_cons.mp ha with h1 | h1
    · omega
    · exact Nat.lt_succ_of_lt (hbrk a h1)

/-! ## Bounds of the events in binary32 -/

theorem of_nat_zero : Float32.of_nat 0 = Float32.finite false 0 := by decide!

theorem of_nat_one : Float32.of_nat 1 = Float32.finite false Float32.ONE_UNITS := by decide!

theorem SAMPLE_RATE_units :
    Binary32.SAMPLE_RATE = Float32.finite false (44100 * Float32.ONE_UNITS) := by decide!

theorem round_cases (s : Bool) (n d : Nat) :
    (Float32.round s n d = Float32.finite s (Float32.round_units n d) ∧
      Float32.round_units n d < Float32.LIMIT_UNITS) ∨
    Float32.round s n d = Float32.infinite s := by
  unfold Float32.round
  by_cases h : Float32.round_units n d < Float32.LIMIT_UNITS
  · rw [if_pos h]; exact Or.inl ⟨rfl, h⟩
  · rw [if_neg h]; exact Or.inr rfl

theorem le_zero_iff (x : Float32) :
    Float32.le (Float32.of_nat 0) x = true ↔
      (∃ k, x = Float32.finite false k) ∨ x = Float32.finite true 0 ∨
        x = Float32.infinite false := by
  rw [of_nat_zero]
  cases x with
  | finite s k =>
    cases s with
    | false => simp [Float32.le, Float32.key]
    | true => simp [Float32.le, Float32.key]
  | infinite s =>
    cases s with
    | false => simp [Float32.le, Float32.key, Float32.LIMIT_UNITS]
    | true => simp [Float32.le, Float32.key, Float32.LIMIT_UNITS]
  | nan => simp [Float32.le, Float32.key]

theorem le_one_iff (x : Float32) :
    Float32.le x (Float32.of_nat 1) = true ↔
      (∃ k, x = Float32.finite false k ∧ k ≤ Float32.ONE_UNITS) ∨
        (∃ k, x = Float32.finite true k) ∨ x = Float32.infinite true := by
  rw [of_nat_one]
  cases x with
  | finite s k =>
    cases s with
    | false => simp [Float32.le, Float32.key]
    | true =>
      simp only [Float32.le, Float32.key, reduceIte, Bool.false_eq_true, decide_eq_true_eq]
      constructor
      · intro _; exact Or.inr (Or.inl ⟨k, rfl⟩)
      · intro _
        have h1 : (0 : Int) ≤ (k : Int) := Int.ofNat_nonneg k
        have h2 : (0 : Int) ≤ (Float32.ONE_UNITS : Int) := Int.ofNat_nonneg _
        omega
  | infinite s =>
    cases s with
    | false =>
      simp only [Float32.le, Float32.key, Float32.LIMIT_UNITS, Float32.ONE_UNITS]
      simp
    | true =>
      simp only [Float32.le, Float32.key, Float32.LIMIT_UNITS, Float32.ONE_UNITS]
      simp
  | nan => simp [Float32.le, Float32.key]

theorem lt_zero_iff (x : Float32) :
    Float32.lt (Float32.of_nat 0) x = true ↔
      (∃ k, x = Float32.finite false k ∧ 0 < k) ∨ x = Float32.infinite false := by
  rw [of_nat_zero]
  cases x with
  | finite s k =>
    cases s with
    | false => simp [Float32.lt, Float32.key]
    | true =>
      simp only [Float32.lt, Float32.key, reduceIte, decide_eq_true_eq]
      constructor
      · intro h
        have h1 : (0 : Int) ≤ (k : Int) := Int.ofNat_nonneg k
        omega
      · intro h
        rcases h with ⟨k1, h1, _⟩ | h1
        · simp at h1
        · simp at h1
  | infinite s =>
    cases s with
    | false => simp [Float32.lt, Float32.key, Float32.LIMIT_UNITS]
    | true => simp [Float32.lt, Float32.key, Float32.LIMIT_UNITS]
  | nan => simp [Float32.lt, Float32.key]

theorem decrement_cases (d : Float32) (hd : Float32.lt (Float32.of_nat 0) d = true) :
    (∃ j, Binary32.decrement d = Float32.finite false j) ∨
      Binary32.decrement d = Float32.infinite false := by
  have hrate : (44100 * Float32.ONE_UNITS = 0) = False := by
    simp [Float32.ONE_UNITS]
  have hdiv : ∀ x : Float32, ((∃ j, x = Float32.finite false j) ∨ x = Float32.infinite false) →
      (∃ j, Float32.div x Binary32.SAMPLE_RATE = Float32.finite false j) ∨
        Float32.div x Binary32.SAMPLE_RATE = Float32.infinite false := by
    intro x hx
    rw [SAMPLE_RATE_units]
    rcases hx with ⟨j, hj⟩ | hj
    · subst hj
      simp only [Float32.div, hrate, reduceIte, Bool.xor_false]
      rcases round_cases false (j * Float32.ONE_UNITS) (44100 * Float32.ONE_UNITS) with h | h
      · exact Or.inl ⟨_, h.1⟩
      · exact Or.inr h
    · subst hj
      exact Or.inr rfl
  unfold Binary32.decrement
  apply hdiv
  rw [of_nat_one]
  rcases (lt_zero_iff d).mp hd with ⟨k, hk, hpos⟩ | hk
  · subst hk
    simp only [Float32.div, Nat.ne_of_gt hpos, reduceIte, Bool.xor_false]
    rcases round_cases false (Float32.ONE_UNITS * Float32.ONE_UNITS) k with h | h
    · exact Or.inl ⟨_, h.1⟩
    · exact Or.inr h
  · subst hk
    exact Or.inl ⟨0, rfl⟩

theorem sub_le_one (r δ : Float32)
    (h0 : Float32.le (Float32.of_nat 0) r = true) (h1 : Float32.le r (Float32.of_nat 1) = true)
    (hδ : (∃ j, δ = Float32.finite false j) ∨ δ = Float32.infinite false) :
    Float32.le (Float32.sub r δ) (Float32.of_nat 1) = true := by
  rw [le_one_iff]
  have hr : (∃ k, r = Float32.finite false k ∧ k ≤ Float32.ONE_UNITS) ∨
      r = Float32.finite true 0 := by
    rcases (le_one_iff r).mp h1 with h | ⟨k, h⟩ | h
    · exact Or.inl h
    · rcases (le_zero_iff r).mp h0 with ⟨k2, h2⟩ | h2 | h2
      · rw [h] at h2; simp at h2
      · exact Or.inr h2
      · rw [h] at h2; simp at h2
    · rcases (le_zero_iff r).mp h0 with ⟨k2, h2⟩ | h2 | h2
      · rw [h] at h2; simp at h2
      · rw [h] at h2; simp at h2
      · rw [h] at h2; simp at h2
  rcases hδ with ⟨j, hj⟩ | hj
  · subst hj
    rcases hr with ⟨k, hk, hle⟩ | hk
    · subst hk
      simp only [Float32.sub, Float32.neg, Float32.add, Bool.not_false, Bool.false_eq_true,
        reduceIte]
      by_cases hjk : j < k
      · rw [if_pos hjk]
        have hle2 : k - j ≤ Float32.ONE_UNITS := by omega
        have hru := round_units_le_one (k - j) hle2
        rcases round_cases false (k - j) 1 with h | h
        · exact Or.inl ⟨_, h.1, hru⟩
        · exfalso
          unfold Float32.round at h
          have hlim : Float32.round_units (k - j) 1 < Float32.LIMIT_UNITS :=
            lt_of_le_of_lt hru (by simp [Float32.ONE_UNITS, Float32.LIMIT_UNITS])
          rw [if_pos hlim] at h
          simp at h
      · rw [if_neg hjk]
        by_cases hkj : k < j
        · rw [if_pos hkj]
          rcases round_cases true (j - k) 1 with h | h
          · exact Or.inr (Or.inl ⟨_, h.1⟩)
          · exact Or.inr (Or.inr h)
        · rw [if_neg hkj]
          exact Or.inl ⟨0, rfl, Nat.zero_le _⟩
    · subst hk
      simp only [Float32.sub, Float32.neg, Float32.add, Bool.not_false, reduceIte]
      rcases round_cases true (0 + j) 1 with h | h
      · exact Or.inr (Or.inl ⟨_, h.1⟩)
      · exact Or.inr (Or.inr h)
  · subst hj
    rcases hr with ⟨k, hk, _⟩ | hk
    · subst hk
      exact Or.inr (Or.inr rfl)
    · subst hk
      exact Or.inr (Or.inr rfl)

theorem elapsed_step : Float32.div (Float32.of_nat 1) (Float32.of_nat 44100)
    = Float32.finite false 16181946332381117081730333459656141176832 := by decide!

theorem add_elapsed_nonneg (e : Float32) (h0 : Float32.le (Float32.of_nat 0) e = true) :
    Float32.le (Float32.of_nat 0)
      (Float32.add e (Float32.div (Float32.of_nat 1) (Float32.of_nat 44100))) = true := by
  rw [elapsed_step, le_zero_iff]
  rcases (le_zero_iff e).mp h0 with ⟨k, hk⟩ | hk | hk
  · subst hk
    simp only [Float32.add, reduceIte]
    rcases round_cases false (k + 16181946332381117081730333459656141176832) 1 with h | h
    · exact Or.inl ⟨_, h.1⟩
    · exact Or.inr (Or.inr h)
  · subst hk
    simp only [Float32.add, Bool.true_eq_false, reduceIte, Nat.not_lt_zero]
    rw [if_pos (by norm_num)]
    rcases round_cases false (16181946332381117081730333459656141176832 - 0) 1 with h | h
    · exact Or.inl ⟨_, h.1⟩
    · exact Or.inr (Or.inr h)
  · subst hk
    exact Or.inr (Or.inr rfl)

theorem b32_spec_advance_bounded (e e1 : Binary32.SoundEvent) (hb : e.bounded)
    (h : Binary32.spec_advance e = some e1) : e1.bounded := by
  obtain ⟨h1, h2, h3, h4⟩ := hb
  unfold Binary32.spec_advance at h
  by_cases hge : Float32.le (Float32.of_nat 0)
      (Float32.sub e.remaining_amplitude (Binary32.decrement e.duration)) = true
  · rw [if_pos hge] at h
    have he := Option.some.inj h
    subst he
    exact ⟨hge, sub_le_one _ _ h1 h2 (decrement_cases e.duration h4),
      add_elapsed_nonneg e.elapsed h3, h4⟩
  · rw [if_neg hge] at h
    simp at h

theorem b32_next_sample_loop_fuel :
    ∀ (fuel : Nat) (acc : Float32) (prev cur : Option Nat) (st : Binary32.AudioState)
      (r : Float32 × Binary32.AudioState),
      Binary32.next_sample_loop fuel acc prev cur st = some r →
      ∀ fuel2, fuel ≤ fuel2 → Binary32.next_sample_loop fuel2 acc prev cur st = some r := by
  intro fuel
  induction fuel with
  | zero => intro acc prev cur st r h; simp [Binary32.next_sample_loop] at h
  | succ fuel ih =>
    intro acc prev cur st r h fuel2 hle
    obtain ⟨f2, rfl⟩ : ∃ f2, fuel2 = f2 + 1 := ⟨fuel2 - 1, by omega⟩
    have hf : fuel ≤ f2 := by omega
    cases cur with
    | none =>
      rw [Binary32.next_sample_loop] at h ⊢
      exact h
    | some c =>
      rw [Binary32.next_sample_loop] at h ⊢
      cases hm : st.mem c with
      | none => simp [hm] at h
      | some item =>
        simp only [hm] at h ⊢
        by_cases hge : Float32.le (Float32.of_nat 0) (Float32.sub item.remaining_amplitude
            (Float32.div (Float32.div (Float32.of_nat 1) item.duration) Binary32.SAMPLE_RATE))
              = true
        · rw [if_pos hge] at h ⊢
          exact ih _ _ _ _ _ h f2 hf
        · rw [if_neg hge] at h ⊢
          cases prev with
          | none => exact ih _ _ _ _ _ h f2 hf
          | some p =>
            cases hp : Binary32.mem_write st.mem c none p with
            | none => simp [hp] at h
            | some pn =>
              simp only [hp] at h ⊢
              exact ih _ _ _ _ _ h f2 hf

theorem b32_next_sample_fuel (fuel fuel2 : Nat) (st : Binary32.AudioState)
    (r : Int × Binary32.AudioState) (h : Binary32.next_sample fuel st = some r)
    (hle : fuel ≤ fuel2) : Binary32.next_sample fuel2 st = some r := by
  unfold Binary32.next_sample at h ⊢
  cases hl : Binary32.next_sample_loop fuel (Float32.of_nat 0) none st.sound_list st with
  | none => rw [hl] at h; simp at h
  | some x =>
    rw [hl] at h
    rw [b32_next_sample_loop_fuel fuel _ none st.sound_list st x hl fuel2 hle]
    exact h

theorem b32_reachable_holds (st : Binary32.AudioState) (h : Binary32.Reachable st) :
    ∃ addrs events, st.holds addrs events ∧ ∀ e ∈ events, e.bounded := by
  induction h with
  | empty =>
    exact ⟨[], [], ⟨rfl, List.nodup_nil, fun _ ha => absurd ha (List.not_mem_nil _)⟩,
      fun _ he => absurd he (List.not_mem_nil _)⟩
  | push st waveform volume value duration _ hd ih =>
    obtain ⟨addrs, events, hh, hb⟩ := ih
    refine ⟨_, _, b32_push_sound_holds waveform volume value duration st addrs events hh, ?_⟩
    intro e he
    rcases List.mem_cons.mp he with h1 | h1
    · subst h1
      exact ⟨(le_zero_iff _).mpr (Or.inl ⟨_, of_nat_one⟩),
        (le_one_iff _).mpr (Or.inl ⟨_, of_nat_one, le_refl _⟩),
        (le_zero_iff _).mpr (Or.inl ⟨_, of_nat_zero⟩), hd⟩
    · exact hb e h1
  | next st st1 fuel s _ hs ih =>
    obtain ⟨addrs, events, hh, hb⟩ := ih
    obtain ⟨st2, addrs1, h1, h2, _, _⟩ :=
      b32_next_sample_holds (max fuel (addrs.length + 1)) st addrs events hh
        (lt_of_lt_of_le (Nat.lt_succ_self _) (le_max_right _ _))
    have h3 := b32_next_sample_fuel fuel (max fuel (addrs.length + 1)) st _ hs
      (le_max_left _ _)
    rw [h1] at h3
    have h4 : st2 = st1 := (Prod.mk.inj (Option.some.inj h3)).2
    subst h4
    refine ⟨addrs1, _, h2, ?_⟩
    intro e he
    obtain ⟨e0, he0, hadv⟩ := List.mem_filterMap.mp he
    exact b32_spec_advance_bounded e0 e (hb e0 he0) hadv

/-! ## The lifetime of an event in binary32 -/

theorem b32_next_samples_holds (fuel : Nat) :
    ∀ (k : Nat) (st : Binary32.AudioState) (addrs : List Nat)
      (events : List Binary32.SoundEvent),
      st.holds addrs events → addrs.length < fuel →
      ∃ samples st1 addrs1, Binary32.next_samples fuel k st = some (samples, st1) ∧
        samples.length = k ∧ st1.holds addrs1 (Binary32.spec_registry k events) ∧
        addrs1.Sublist addrs := by
  intro k
  induction k with
  | zero =>
    intro st addrs events h _
    exact ⟨[], st, addrs, rfl, rfl, h, List.Sublist.refl _⟩
  | succ k ih =>
    intro st addrs events h hf
    obtain ⟨st1, addrs1, h1, h2, h3, _⟩ := b32_next_sample_holds fuel st addrs events h hf
    obtain ⟨samples, st2, addrs2, h4, h5, h6, h7⟩ :=
      ih st1 addrs1 _ h2 (Nat.lt_of_le_of_lt h3.length_le hf)
    refine ⟨Binary32.sample_of (Binary32.spec_render events).1 :: samples, st2, addrs2,
      ?_, ?_, h6, h7.trans h3⟩
    · rw [Binary32.next_samples, h1]
      simp only [h4, Option.map_some']
    · simp [h5]

theorem spec_advance_times_succ (k : Nat) (e : Binary32.SoundEvent) :
    Binary32.spec_advance_times (k + 1) e
      = (Binary32.spec_advance e).bind (Binary32.spec_advance_times k) := by
  rw [Binary32.spec_advance_times]
  cases Binary32.spec_advance e <;> rfl

theorem spec_registry_eq :
    ∀ (k : Nat) (l : List Binary32.SoundEvent),
      Binary32.spec_registry k l = l.filterMap (Binary32.spec_advance_times k) := by
  intro k
  induction k with
  | zero =>
    intro l
    show l = l.filterMap (fun e => some e)
    rw [List.filterMap_some]
  | succ k ih =>
    intro l
    rw [Binary32.spec_registry, ih]
    show (l.filterMap Binary32.spec_advance).filterMap (Binary32.spec_advance_times k) = _
    rw [List.filterMap_filterMap]
    congr 1
    funext e
    rw [spec_advance_times_succ]

theorem spec_advance_times_amplitude :
    ∀ (k : Nat) (e : Binary32.SoundEvent),
      (Binary32.spec_advance_times k e).map (fun e1 => e1.remaining_amplitude)
        = Binary32.amplitude_after (Binary32.decrement e.duration) k e.remaining_amplitude := by
  intro k
  induction k with
  | zero => intro e; rfl
  | succ k ih =>
    intro e
    rw [Binary32.spec_advance_times, Binary32.amplitude_after]
    unfold Binary32.spec_advance
    by_cases hge : Float32.le (Float32.of_nat 0)
        (Float32.sub e.remaining_amplitude (Binary32.decrement e.duration)) = true
    · rw [if_pos hge, if_pos hge]
      exact ih _
    · rw [if_neg hge, if_neg hge]
      rfl

theorem b32_push_sounds_holds :
    ∀ (calls : List ((Float32 → Float32) × Float32 × Float32 × Float32))
      (st : Binary32.AudioState) (addrs : List Nat) (events : List Binary32.SoundEvent),
      st.holds addrs events →
      ∃ addrs1, (Binary32.push_sounds calls st).holds addrs1
          (Binary32.pushed_events calls ++ events) ∧
        addrs1.length = calls.length + addrs.length := by
  intro calls
  induction calls with
  | nil => intro st addrs events h; exact ⟨addrs, by simpa [Binary32.pushed_events] using h, by simp⟩
  | cons c calls ih =>
    intro st addrs events h
    obtain ⟨addrs1, h1, h2⟩ := ih _ _ _
      (b32_push_sound_holds c.1 c.2.1 c.2.2.1 c.2.2.2 st addrs events h)
    refine ⟨addrs1, ?_, ?_⟩
    · rw [Binary32.pushed_events, List.append_assoc]
      exact h1
    · rw [h2]
      simp
      omega

theorem holds_nil_iff (st : Binary32.AudioState) (addrs : List Nat)
    (events : List Binary32.SoundEvent) (h : st.holds addrs events) :
    st.sound_list = none ↔ events = [] := by
  obtain ⟨hl, _, _⟩ := h
  cases addrs with
  | nil =>
    cases events with
    | nil => exact ⟨fun _ => rfl, fun _ => hl⟩
    | cons e es => exact absurd hl id
  | cons a addrs =>
    cases events with
    | nil => exact absurd hl id
    | cons e es =>
      obtain ⟨hp, _⟩ := hl
      constructor
      · intro h0
        rw [h0] at hp
        simp at hp
      · intro h0
        simp at h0

theorem sample_of_zero : Binary32.sample_of (Float32.of_nat 0) = 0 := by decide!

theorem next_sample_empty (fuel : Nat) (st : Binary32.AudioState)
    (h : st.sound_list = none) (hf : 0 < fuel) : Binary32.next_sample fuel st = some (0, st) := by
  obtain ⟨f, rfl⟩ : ∃ f, fuel = f + 1 := ⟨fuel - 1, by omega⟩
  unfold Binary32.next_sample
  rw [h, Binary32.next_sample_loop]
  simp only [Option.map_some', sample_of_zero]

theorem amplitude_after_add (δ : Float32) :
    ∀ (a b : Nat) (r r1 : Float32), Binary32.amplitude_after δ a r = some r1 →
      Binary32.amplitude_after δ (a + b) r = Binary32.amplitude_after δ b r1 := by
  intro a
  induction a with
  | zero =>
    intro b r r1 h
    have h1 : r = r1 := Option.some.inj h
    subst h1
    rw [Nat.zero_add]
  | succ a ih =>
    intro b r r1 h
    rw [Binary32.amplitude_after] at h
    have hs : a + 1 + b = (a + b) + 1 := by omega
    rw [hs, Binary32.amplitude_after]
    by_cases hge : Float32.le (Float32.of_nat 0) (Float32.sub r δ) = true
    · rw [if_pos hge] at h ⊢
      exact ih b _ r1 h
    · rw [if_neg hge] at h
      simp at h

theorem amplitude_after_none (δ : Float32) :
    ∀ (a b : Nat) (r : Float32), Binary32.amplitude_after δ a r = none →
      Binary32.amplitude_after δ (a + b) r = none := by
  intro a
  induction a with
  | zero => intro b r h; simp [Binary32.amplitude_after] at h
  | succ a ih =>
    intro b r h
    rw [Binary32.amplitude_after] at h
    have hs : a + 1 + b = (a + b) + 1 := by omega
    rw [hs, Binary32.amplitude_after]
    by_cases hge : Float32.le (Float32.of_nat 0) (Float32.sub r δ) = true
    · rw [if_pos hge] at h ⊢
      exact ih b _ h
    · rw [if_neg hge]

theorem sub_of_valid (r δ s : Nat) (h1 : δ ≤ r)
    (h2 : Float32.shift_valid s (r - δ) = true)
    (h3 : Float32.rne (r - δ) s < Float32.LIMIT_UNITS) :
    Float32.sub (Float32.finite false r) (Float32.finite false δ)
      = Float32.finite false (Float32.rne (r - δ) s) := by
  simp only [Float32.sub, Float32.neg, Float32.add, Bool.not_false, Bool.false_eq_true,
    reduceIte]
  by_cases hlt : δ < r
  · rw [if_pos hlt]
    unfold Float32.round
    rw [round_units_of_valid s (r - δ) h2, if_pos h3]
  · have heq : r = δ := by omega
    subst heq
    rw [if_neg hlt, if_neg hlt, Nat.sub_self, rne_exact 0 s (Nat.zero_mod _)]

theorem decay_run_amplitude (δ s : Nat) :
    ∀ (k r r1 : Nat), Float32.decay_run δ s k r = some r1 →
      Binary32.amplitude_after (Float32.finite false δ) k (Float32.finite false r)
        = some (Float32.finite false r1) := by
  intro k
  induction k with
  | zero =>
    intro r r1 h
    have h1 : r = r1 := Option.some.inj h
    subst h1
    rfl
  | succ k ih =>
    intro r r1 h
    rw [Float32.decay_run] at h
    by_cases hc : δ ≤ r ∧ Float32.shift_valid s (r - δ) = true ∧
        Float32.rne (r - δ) s < Float32.LIMIT_UNITS
    · rw [if_pos hc] at h
      rw [Binary32.amplitude_after, sub_of_valid r δ s hc.1 hc.2.1 hc.2.2,
        if_pos ((le_zero_iff _).mpr (Or.inl ⟨_, rfl⟩))]
      exact ih _ r1 h
    · rw [if_neg hc] at h
      simp at h

theorem decay_runs_amplitude (δ : Nat) :
    ∀ (runs : List (Nat × Nat)) (r r1 : Nat), Float32.decay_runs δ runs r = some r1 →
      Binary32.amplitude_after (Float32.finite false δ) (runs.map fun run => run.2).sum
          (Float32.finite false r)
        = some (Float32.finite false r1) := by
  intro runs
  induction runs with
  | nil =>
    intro r r1 h
    have h1 : r = r1 := Option.some.inj h
    subst h1
    rfl
  | cons run runs ih =>
    intro r r1 h
    rw [Float32.decay_runs] at h
    cases hrun : Float32.decay_run δ run.1 run.2 r with
    | none => rw [hrun] at h; simp at h
    | some r2 =>
      rw [hrun] at h
      rw [List.map_cons, List.sum_cons,
        amplitude_after_add _ run.2 _ _ _ (decay_run_amplitude δ run.1 run.2 r r2 hrun)]
      exact ih r2 r1 h

theorem b32_registry_after (calls : List ((Float32 → Float32) × Float32 × Float32 × Float32))
    (k fuel : Nat) (hf : calls.length < fuel) :
    ∃ samples st1 addrs1,
      Binary32.next_samples fuel k (Binary32.push_sounds calls Binary32.AudioState.empty)
        = some (samples, st1) ∧
      samples.length = k ∧
      st1.holds addrs1
        ((Binary32.pushed_events calls).filterMap (Binary32.spec_advance_times k)) ∧
      (st1.sound_list = none ↔
        ∀ e ∈ Binary32.pushed_events calls,
          Binary32.amplitude_after (Binary32.decrement e.duration) k e.remaining_amplitude
            = none) := by
  have hempty : Binary32.AudioState.empty.holds [] [] :=
    ⟨rfl, List.nodup_nil, fun _ ha => absurd ha (List.not_mem_nil _)⟩
  obtain ⟨addrs0, h0, hlen0⟩ := b32_push_sounds_holds calls _ [] [] hempty
  rw [List.append_nil] at h0
  obtain ⟨samples, st1, addrs1, h1, h2, h3, _⟩ :=
    b32_next_samples_holds fuel k _ addrs0 _ h0 (by rw [hlen0]; simpa using hf)
  rw [spec_registry_eq] at h3
  refine ⟨samples, st1, addrs1, h1, h2, h3, ?_⟩
  rw [holds_nil_iff st1 addrs1 _ h3, List.filterMap_eq_nil_iff]
  constructor
  · intro h e he
    rw [← spec_advance_times_amplitude, h e he]
    rfl
  · intro h e he
    have h4 := h e he
    rw [← spec_advance_times_amplitude] at h4
    cases hadv : Binary32.spec_advance_times k e with
    | none => rfl
    | some e1 => rw [hadv] at h4; simp at h4

theorem mem_pushed_events :
    ∀ (calls : List ((Float32 → Float32) × Float32 × Float32 × Float32))
      (e : Binary32.SoundEvent),
      e ∈ Binary32.pushed_events calls ↔
        ∃ c ∈ calls, e = ⟨c.1, c.2.1, c.2.2.1, c.2.2.2, Float32.of_nat 0, Float32.of_nat 1⟩ := by
  intro calls
  induction calls with
  | nil => intro e; simp [Binary32.pushed_events]
  | cons c calls ih =>
    intro e
    rw [Binary32.pushed_events, List.mem_append, ih e, List.mem_singleton]
    simp only [List.mem_cons]
    constructor
    · rintro (⟨c1, h1, h2⟩ | h)
      · exact ⟨c1, Or.inr h1, h2⟩
      · exact ⟨c, Or.inl rfl, h⟩
    · rintro ⟨c1, h1 | h1, h2⟩
      · subst h1
        exact Or.inr h2
      · exact Or.inl ⟨c1, h1, h2⟩

theorem decrement_sustain : Binary32.decrement (Float32.of_ratio 1 20)
    = Float32.finite false 323638937032216058704261926254115481976832 := by decide!

theorem amplitude_2204 :
    Binary32.amplitude_after (Binary32.decrement (Float32.of_ratio 1 20)) 2204
        (Float32.of_nat 1) = some (Float32.finite false 314749226349906014460765377610843072495616) := by
  have hruns : Float32.decay_runs 323638937032216058704261926254115481976832
      [(125, 1102), (124, 551), (123, 276), (122, 138), (121, 69), (120, 34), (119, 17), (118, 9), (117, 4), (116, 2), (115, 1), (114, 1)]
      Float32.ONE_UNITS = some 314749226349906014460765377610843072495616 := by
    decide!
  have hsum : (([(125, 1102), (124, 551), (123, 276), (122, 138), (121, 69), (120, 34), (119, 17), (118, 9), (117, 4), (116, 2), (115, 1), (114, 1)] : List (Nat × Nat)).map fun run => run.2).sum = 2204 := by
    decide
  have h := decay_runs_amplitude _ _ _ _ hruns
  rw [hsum] at h
  rw [decrement_sustain, of_nat_one]
  exact h

theorem amplitude_2205 :
    Binary32.amplitude_after (Binary32.decrement (Float32.of_ratio 1 20)) 2205
        (Float32.of_nat 1) = none := by
  have h := amplitude_after_add (Binary32.decrement (Float32.of_ratio 1 20)) 2204 1
    (Float32.of_nat 1) _ amplitude_2204
  rw [h, decrement_sustain, Binary32.amplitude_after]
  have hneg : Float32.le (Float32.of_nat 0)
      (Float32.sub (Float32.finite false 314749226349906014460765377610843072495616)
        (Float32.finite false 323638937032216058704261926254115481976832)) = false := by
    decide!
  rw [hneg]
  rfl

theorem decrement_short : Binary32.decrement (Float32.of_ratio 3 100)
    = Float32.finite false 539398269925401632785724238667496437055488 := by decide!

theorem amplitude_1323 :
    Binary32.amplitude_after (Binary32.decrement (Float32.of_ratio 3 100)) 1323
        (Float32.of_nat 1) = some (Float32.finite false 7459544435595211321494108734352026238976) := by
  have hruns : Float32.decay_runs 539398269925401632785724238667496437055488
      [(125, 661), (124, 331), (123, 165), (122, 83), (121, 41), (120, 21), (119, 10), (118, 5), (117, 3), (116, 1), (115, 1), (109, 1)]
      Float32.ONE_UNITS = some 7459544435595211321494108734352026238976 := by
    decide!
  have hsum : (([(125, 661), (124, 331), (123, 165), (122, 83), (121, 41), (120, 21), (119, 10), (118, 5), (117, 3), (116, 1), (115, 1), (109, 1)] : List (Nat × Nat)).map fun run => run.2).sum = 1323 := by
    decide
  have h := decay_runs_amplitude _ _ _ _ hruns
  rw [hsum] at h
  rw [decrement_short, of_nat_one]
  exact h

theorem lt_zero_not_le (x : Float32) (h : Float32.lt x (Float32.of_nat 0) = true) :
    ¬ Float32.le (Float32.of_nat 0) x = true := by
  rw [of_nat_zero] at h ⊢
  cases x with
  | finite s k =>
    simp only [Float32.lt, Float32.le, Float32.key, decide_eq_true_eq] at h ⊢
    omega
  | infinite s =>
    simp only [Float32.lt, Float32.le, Float32.key, decide_eq_true_eq] at h ⊢
    omega
  | nan => simp [Float32.le, Float32.key]

/-! ## The normalized value in binary32 -/

theorem shift_mono (n m : Nat) (h : n ≤ m) : Float32.shift n ≤ Float32.shift m := by
  obtain ⟨_, h2⟩ := shift_spec n
  obtain ⟨h3, _⟩ := shift_spec m
  by_contra hgt
  have hlt : Float32.shift m < Float32.shift n := Nat.lt_of_not_le hgt
  rcases h2 with h2 | h2
  · omega
  · have hb : 8388608 * 2 ^ Float32.shift n ≤ n :=
      (Nat.le_div_iff_mul_le (Nat.two_pow_pos _)).mp h2
    have ha : m < 16777216 * 2 ^ Float32.shift m :=
      (Nat.div_lt_iff_lt_mul (Nat.two_pow_pos _)).mp h3
    have hpow : 2 ^ (Float32.shift m + 1) ≤ 2 ^ Float32.shift n :=
      Nat.pow_le_pow_right (by norm_num) hlt
    rw [pow_succ] at hpow
    omega

theorem rne_ge_floor (n s : Nat) : n / 2 ^ s * 2 ^ s ≤ Float32.rne n s := by
  unfold Float32.rne
  apply Nat.mul_le_mul_right
  split
  · omega
  · split
    · omega
    · split <;> omega

theorem rne_mono (n m s : Nat) (h : n ≤ m) : Float32.rne n s ≤ Float32.rne m s := by
  have hpos : 0 < 2 ^ s := Nat.two_pow_pos _
  have hq : n / 2 ^ s ≤ m / 2 ^ s := Nat.div_le_div_right h
  rcases Nat.lt_or_eq_of_le hq with hlt | heq
  · calc Float32.rne n s ≤ (n / 2 ^ s + 1) * 2 ^ s := rne_le n s
      _ ≤ m / 2 ^ s * 2 ^ s := Nat.mul_le_mul_right _ hlt
      _ ≤ Float32.rne m s := rne_ge_floor m s
  · have hn := Nat.div_add_mod n (2 ^ s)
    have hm := Nat.div_add_mod m (2 ^ s)
    have hr : n % 2 ^ s ≤ m % 2 ^ s := by
      rw [heq] at hn
      omega
    unfold Float32.rne
    apply Nat.mul_le_mul_right
    rw [heq]
    generalize m / 2 ^ s = q at *
    generalize n % 2 ^ s = rn at *
    generalize m % 2 ^ s = rm at *
    generalize 2 ^ s = Q at *
    split_ifs <;> omega

theorem round_units_mono (n m : Nat) (h : n ≤ m) :
    Float32.round_units n 1 ≤ Float32.round_units m 1 := by
  rw [round_units_one, round_units_one]
  have hs := shift_mono n m h
  rcases Nat.lt_or_eq_of_le hs with hlt | heq
  · obtain ⟨h1, _⟩ := shift_spec n
    obtain ⟨_, h4⟩ := shift_spec m
    have h5 : 8388608 ≤ m / 2 ^ Float32.shift m := by
      rcases h4 with h4 | h4
      · omega
      · exact h4
    have hpow : 2 ^ (Float32.shift n + 1) ≤ 2 ^ Float32.shift m :=
      Nat.pow_le_pow_right (by norm_num) hlt
    rw [pow_succ] at hpow
    calc Float32.rne n (Float32.shift n)
        ≤ (n / 2 ^ Float32.shift n + 1) * 2 ^ Float32.shift n := rne_le _ _
      _ ≤ 16777216 * 2 ^ Float32.shift n := Nat.mul_le_mul_right _ h1
      _ = 8388608 * (2 ^ Float32.shift n * 2) := by ring
      _ ≤ 8388608 * 2 ^ Float32.shift m := Nat.mul_le_mul_left _ hpow
      _ ≤ m / 2 ^ Float32.shift m * 2 ^ Float32.shift m := Nat.mul_le_mul_right _ h5
      _ ≤ Float32.rne m (Float32.shift m) := rne_ge_floor _ _
  · rw [heq]
    exact rne_mono n m _ h

theorem round_units_quotient_le_one (n d : Nat) (hd : 0 < d) (h : n ≤ d * Float32.ONE_UNITS) :
    Float32.round_units n d ≤ Float32.ONE_UNITS := by
  have hq0 : n / d ≤ Float32.ONE_UNITS := by
    apply Nat.div_le_of_le_mul
    exact h
  unfold Float32.round_units
  simp only []
  rw [ONE_UNITS_eq] at h hq0 ⊢
  obtain ⟨h1, h2⟩ := shift_spec (n / d)
  generalize Float32.shift (n / d) = s at h1 h2
  have hpos : 0 < 2 ^ s := Nat.two_pow_pos _
  have hs : s ≤ 149 := by
    rcases h2 with h2 | h2
    · omega
    · have h3 : 8388608 * 2 ^ s ≤ n / d := (Nat.le_div_iff_mul_le hpos).mp h2
      by_contra hgt
      have h4 : 2 ^ 150 ≤ 2 ^ s := Nat.pow_le_pow_right (by norm_num) (by omega)
      have h5 : (2 : Nat) ^ 149 < 2 ^ 150 := by norm_num
      omega
  have hsplit : (2 : Nat) ^ 149 = 2 ^ (149 - s) * 2 ^ s := by
    rw [← pow_add]
    congr 1
    omega
  have hD : 0 < d * 2 ^ s := Nat.mul_pos hd hpos
  have hqle : n / (d * 2 ^ s) ≤ 2 ^ (149 - s) := by
    apply Nat.div_le_of_le_mul
    calc n ≤ d * 2 ^ 149 := h
      _ = d * 2 ^ s * 2 ^ (149 - s) := by rw [hsplit]; ring
  rcases Nat.lt_or_eq_of_le hqle with hlt | heq
  · have hle : ∀ x, x ≤ n / (d * 2 ^ s) + 1 → x * 2 ^ s ≤ 2 ^ 149 := by
      intro x hx
      rw [hsplit]
      exact Nat.mul_le_mul_right _ (by omega)
    apply hle
    split_ifs <;> omega
  · have hn : n = d * 2 ^ 149 := by
      have h6 : 2 ^ (149 - s) * (d * 2 ^ s) ≤ n := by
        rw [← heq]
        exact Nat.div_mul_le_self n (d * 2 ^ s)
      have h7 : 2 ^ (149 - s) * (d * 2 ^ s) = d * 2 ^ 149 := by rw [hsplit]; ring
      omega
    have hmod : n % (d * 2 ^ s) = 0 := by
      rw [hn, hsplit]
      apply Nat.mod_eq_zero_of_dvd
      exact ⟨2 ^ (149 - s), by ring⟩
    rw [hmod, if_pos (by omega), heq, ← hsplit]

theorem of_nat_units (n : Nat) (h : n ≤ 1073741824) :
    Float32.of_nat n = Float32.finite false (Float32.round_units (n * Float32.ONE_UNITS) 1) := by
  unfold Float32.of_nat Float32.round
  have h1 := round_units_mono (n * Float32.ONE_UNITS) (1073741824 * Float32.ONE_UNITS)
    (Nat.mul_le_mul_right _ h)
  have h2 : Float32.round_units (1073741824 * Float32.ONE_UNITS) 1
      = 1073741824 * Float32.ONE_UNITS := by
    rw [round_units_of_valid 156 _ (by decide!)]
    exact rne_exact _ _ (by decide!)
  rw [h2] at h1
  have h3 : 1073741824 * Float32.ONE_UNITS < Float32.LIMIT_UNITS := by decide!
  rw [if_pos (lt_of_le_of_lt h1 h3)]

theorem normalized_value_bounds (v len : Nat) (hv : v < len) (hlen : len ≤ 1073741824) :
    Float32.le (Float32.of_nat 0) (Float32.div (Float32.of_nat v) (Float32.of_nat len))
      = true ∧
    Float32.le (Float32.div (Float32.of_nat v) (Float32.of_nat len)) (Float32.of_nat 1)
      = true := by
  rw [of_nat_units v (by omega), of_nat_units len hlen]
  have hmono := round_units_mono (v * Float32.ONE_UNITS) (len * Float32.ONE_UNITS)
    (Nat.mul_le_mul_right _ (Nat.le_of_lt hv))
  have hone : Float32.ONE_UNITS ≤ Float32.round_units (len * Float32.ONE_UNITS) 1 := by
    have h1 := round_units_mono (1 * Float32.ONE_UNITS) (len * Float32.ONE_UNITS)
      (Nat.mul_le_mul_right _ (by omega))
    have h2 : Float32.round_units (1 * Float32.ONE_UNITS) 1 = Float32.ONE_UNITS := by
      rw [round_units_of_valid 126 _ (by decide!)]
      rw [rne_exact _ _ (by decide!)]
      exact Nat.one_mul _
    rw [h2] at h1
    exact h1
  have hpos : 0 < Float32.ONE_UNITS := by decide
  generalize Float32.round_units (v * Float32.ONE_UNITS) 1 = j at hmono
  generalize Float32.round_units (len * Float32.ONE_UNITS) 1 = k at hmono hone
  have hk : k ≠ 0 := by omega
  have hq := round_units_quotient_le_one (j * Float32.ONE_UNITS) k (by omega)
    (Nat.mul_le_mul_right _ hmono)
  have hdiv : Float32.div (Float32.finite false j) (Float32.finite false k)
      = Float32.finite false (Float32.round_units (j * Float32.ONE_UNITS) k) := by
    simp only [Float32.div, if_neg hk, Float32.round, Bool.xor_false]
    rw [if_pos (lt_of_le_of_lt hq (by decide!))]
  rw [hdiv]
  exact ⟨(le_zero_iff _).mpr (Or.inl ⟨_, rfl⟩), (le_one_iff _).mpr (Or.inl ⟨_, rfl, hq⟩)⟩

/-! ## Claims -/

/-- C1: for a valid array, callbacks that leave the array alone, an index `i < len` and any
value `v`, `Array_set` returns `ARRAY_OK`, the array afterwards is the original with
position `i` replaced by `v` (same length, other positions unchanged), and a following
`Array_at` at `i` returns `ARRAY_OK` with value `v`. -/
theorem Array_set_then_at {σ : Type} (cb : Callbacks σ) (a : Array) (i v : Nat) (w : σ)
    (hcb : cb.preserves) (ha : a.valid) (hi : i < a.len) :
    (Array_set cb a i v w).1 = ARRAY_OK ∧
    (Array_set cb a i v w).2.1 = ⟨a._arr.set i v, a.len⟩ ∧
    (Array_set cb a i v w).2.1.len = a.len ∧
    (Array_set cb a i v w).2.1._arr.length = a._arr.length ∧
    (Array_set cb a i v w).2.1._arr[i]? = some v ∧
    (∀ k, k ≠ i → (Array_set cb a i v w).2.1._arr[k]? = a._arr[k]?) ∧
    (Array_at cb (Array_set cb a i v w).2.1 i (Array_set cb a i v w).2.2).1 = ⟨ARRAY_OK, v⟩ := by
  have hlen : i < a._arr.length := by rw [ha.1]; exact hi
  rw [Array_set_ok cb hcb a i v w hi]
  refine ⟨rfl, rfl, rfl, by simp, by simp [hlen], ?_, ?_⟩
  · intro k hk
    simp [List.getElem?_set, Ne.symm hk]
  · dsimp only
    rw [Array_at_ok cb hcb ⟨a._arr.set i v, a.len⟩ i _ hi]
    simp [List.getD_eq_getElem?_getD, hlen]

theorem Array_set_then_at_witness :
    (Callbacks.default : Callbacks Unit).preserves ∧ (⟨[5, 3, 1], 3⟩ : Array).valid ∧
    (Array_set Callbacks.default ⟨[5, 3, 1], 3⟩ 1 9 ()).1 = ARRAY_OK ∧
    (Array_at Callbacks.default (Array_set Callbacks.default ⟨[5, 3, 1], 3⟩ 1 9 ()).2.1 1
      (Array_set Callbacks.default ⟨[5, 3, 1], 3⟩ 1 9 ()).2.2).1 = ⟨ARRAY_OK, 9⟩ :=
  have h := Array_set_then_at (Callbacks.default : Callbacks Unit) ⟨[5, 3, 1], 3⟩ 1 9 ()
    Callbacks.default_preserves (by decide) (by decide)
  ⟨Callbacks.default_preserves, by decide, h.1, h.2.2.2.2.2.2⟩

/-- C2: `Array_at` and `Array_set` return `ARRAY_ERR` exactly when the index is not below
`len` (and `ARRAY_OK` exactly when it is); on an error the array and the world are returned
as they were, no callback having run. -/
theorem Array_at_set_err_iff {σ : Type} (cb : Callbacks σ) (a : Array) (i v : Nat) (w : σ) :
    ((Array_at cb a i w).1.condition = ARRAY_ERR ↔ a.len ≤ i) ∧
    ((Array_set cb a i v w).1 = ARRAY_ERR ↔ a.len ≤ i) ∧
    ((Array_at cb a i w).1.condition = ARRAY_OK ↔ i < a.len) ∧
    ((Array_set cb a i v w).1 = ARRAY_OK ↔ i < a.len) ∧
    (a.len ≤ i → (Array_at cb a i w).2 = (a, w) ∧ (Array_set cb a i v w).2 = (a, w)) := by
  by_cases h : a.len ≤ i
  · have h1 : ¬ i < a.len := Nat.not_lt.mpr h
    simp [Array_at_err cb a i w h, Array_set_err cb a i v w h, h, h1]
  · have h1 : i < a.len := Nat.lt_of_not_le h
    simp [Array_at, Array_set, h, h1]

/-- C4: for a valid array, callbacks that leave the array alone and indices `i, j < len`
(equal or not), `Array_swap` returns `ARRAY_OK`; the result holds the old `a[j]` at `i` and
the old `a[i]` at `j`, every other position and the length being unchanged. -/
theorem Array_swap_exchanges {σ : Type} (cb : Callbacks σ) (a : Array) (i j : Nat) (w : σ)
    (hcb : cb.preserves) (ha : a.valid) (hi : i < a.len) (hj : j < a.len) :
    (Array_swap cb a i j w).1 = ARRAY_OK ∧
    (Array_swap cb a i j w).2.1.len = a.len ∧
    (Array_swap cb a i j w).2.1._arr.length = a._arr.length ∧
    (Array_swap cb a i j w).2.1._arr[i]? = a._arr[j]? ∧
    (Array_swap cb a i j w).2.1._arr[j]? = a._arr[i]? ∧
    (∀ k, k ≠ i → k ≠ j → (Array_swap cb a i j w).2.1._arr[k]? = a._arr[k]?) := by
  have hli : i < a._arr.length := by rw [ha.1]; exact hi
  have hlj : j < a._arr.length := by rw [ha.1]; exact hj
  obtain ⟨w1, hw⟩ := Array_swap_ok cb hcb a i j w hi hj
  rw [hw]
  have h := set_set_getElem? a._arr i j hli hlj
  exact ⟨rfl, rfl, by simp, h.1, h.2.1, h.2.2⟩

theorem Array_swap_exchanges_witness :
    (Array_swap (Callbacks.default : Callbacks Unit) ⟨[5, 3, 1, 4], 4⟩ 0 2 ()).1 = ARRAY_OK ∧
    (Array_swap (Callbacks.default : Callbacks Unit) ⟨[5, 3, 1, 4], 4⟩ 0 2 ()).2.1._arr[0]?
      = some 1 ∧
    (Array_swap (Callbacks.default : Callbacks Unit) ⟨[5, 3, 1, 4], 4⟩ 0 2 ()).2.1._arr[2]?
      = some 5 :=
  have h := Array_swap_exchanges (Callbacks.default : Callbacks Unit) ⟨[5, 3, 1, 4], 4⟩ 0 2 ()
    Callbacks.default_preserves (by decide) (by decide) (by decide)
  ⟨h.1, h.2.2.2.1, h.2.2.2.2.1⟩

/-- C5: for a valid array, callbacks that leave the array alone and indices `i, j < len`,
`Array_reorder` returns `ARRAY_OK`; its flag is true exactly when the lower of the two
positions holds the larger value, in which case the two elements are exchanged, and
otherwise the array is unchanged; in particular equal values are never exchanged.  On
`[5,3,1,4,2]`, `reorder(0, 2)` gives `[1,3,5,4,2]` and reports true. -/
theorem Array_reorder_spec {σ : Type} (cb : Callbacks σ) (a : Array) (i j : Nat) (w : σ)
    (hcb : cb.preserves) (ha : a.valid) (hi : i < a.len) (hj : j < a.len) :
    (Array_reorder cb a i j w).1.condition = ARRAY_OK ∧
    ((Array_reorder cb a i j w).1.value = true ↔
      a._arr.getD (max i j) 0 < a._arr.getD (min i j) 0) ∧
    ((Array_reorder cb a i j w).1.value = true →
      (Array_reorder cb a i j w).2.1.len = a.len ∧
      (Array_reorder cb a i j w).2.1._arr.length = a._arr.length ∧
      (Array_reorder cb a i j w).2.1._arr[i]? = a._arr[j]? ∧
      (Array_reorder cb a i j w).2.1._arr[j]? = a._arr[i]? ∧
      (∀ k, k ≠ i → k ≠ j → (Array_reorder cb a i j w).2.1._arr[k]? = a._arr[k]?)) ∧
    ((Array_reorder cb a i j w).1.value = false → (Array_reorder cb a i j w).2.1 = a) ∧
    (a._arr.getD i 0 = a._arr.getD j 0 →
      (Array_reorder cb a i j w).1.value = false ∧ (Array_reorder cb a i j w).2.1 = a) ∧
    (Array_reorder (Callbacks.default : Callbacks Unit) ⟨[5, 3, 1, 4, 2], 5⟩ 0 2 ()).1
      = ⟨ARRAY_OK, true⟩ ∧
    (Array_reorder (Callbacks.default : Callbacks Unit) ⟨[5, 3, 1, 4, 2], 5⟩ 0 2 ()).2.1
      = ⟨[1, 3, 5, 4, 2], 5⟩ := by
  have hskip := Array_reorder_skip_iff i j (a._arr.getD i 0) (a._arr.getD j 0)
    (fun h => by rw [h])
  have hord : (a._arr.getD (max i j) 0 < a._arr.getD (min i j) 0) ↔
      ((i < j ∧ a._arr.getD j 0 < a._arr.getD i 0) ∨
        (j < i ∧ a._arr.getD i 0 < a._arr.getD j 0)) := by
    rcases Nat.lt_trichotomy i j with h | h | h
    · rw [Nat.max_eq_right (Nat.le_of_lt h), Nat.min_eq_left (Nat.le_of_lt h)]; omega
    · subst h; simp
    · rw [Nat.max_eq_left (Nat.le_of_lt h), Nat.min_eq_right (Nat.le_of_lt h)]; omega
  have hx := set_set_getElem? a._arr i j (by rw [ha.1]; exact hi) (by rw [ha.1]; exact hj)
  cases hs : Array_reorder_skip i j (a._arr.getD i 0) (a._arr.getD j 0)
  · obtain ⟨w1, hw⟩ := Array_reorder_skip_false cb hcb a i j w hi hj hs
    have hn : ¬ ¬ ((i < j ∧ a._arr.getD j 0 < a._arr.getD i 0) ∨
        (j < i ∧ a._arr.getD i 0 < a._arr.getD j 0)) := by
      rw [← hskip, hs]; exact Bool.false_ne_true
    have hp := not_not.mp hn
    rw [hw]
    refine ⟨rfl, ⟨fun _ => hord.mpr hp, fun _ => rfl⟩,
      fun _ => ⟨rfl, by simp, hx.1, hx.2.1, hx.2.2⟩,
      fun hc => Bool.noConfusion hc, ?_, by decide, by decide⟩
    intro heq
    exfalso
    omega
  · obtain ⟨w1, hw⟩ := Array_reorder_skip_true cb hcb a i j w hi hj hs
    have hn : ¬ ((i < j ∧ a._arr.getD j 0 < a._arr.getD i 0) ∨
        (j < i ∧ a._arr.getD i 0 < a._arr.getD j 0)) := hskip.mp hs
    rw [hw]
    exact ⟨rfl, ⟨fun hc => Bool.noConfusion hc, fun hc => absurd (hord.mp hc) hn⟩,
      fun hc => Bool.noConfusion hc, fun _ => rfl, fun _ => ⟨rfl, rfl⟩,
      by decide, by decide⟩

theorem Array_reorder_spec_witness :
    (⟨[5, 3, 1, 4, 2], 5⟩ : Array).valid ∧
    ((Array_reorder (Callbacks.default : Callbacks Unit) ⟨[5, 3, 1, 4, 2], 5⟩ 0 2 ()).1.value
      = true ↔ (([5, 3, 1, 4, 2] : List Nat).getD (max 0 2) 0
        < ([5, 3, 1, 4, 2] : List Nat).getD (min 0 2) 0)) :=
  ⟨by decide,
    (Array_reorder_spec (Callbacks.default : Callbacks Unit) ⟨[5, 3, 1, 4, 2], 5⟩ 0 2 ()
      Callbacks.default_preserves (by decide) (by decide) (by decide)).2.1⟩

/-- C7: for a valid array of length `n` and callbacks that leave the array alone,
`Array_reverse` with fuel above `n / 2` returns `ARRAY_OK`; the result has length `n`, its
element `k` is the old `a[n-1-k]` for every `k < n`, so its buffer is the reversed buffer;
an array of length 0 or 1 comes back unchanged, with the world untouched. -/
theorem Array_reverse_spec {σ : Type} (cb : Callbacks σ) (fuel : Nat) (a : Array) (w : σ)
    (hcb : cb.preserves) (ha : a.valid) (hfuel : a.len / 2 < fuel) :
    (∃ r w1, Array_reverse cb fuel a w = some (ARRAY_OK, r, w1) ∧
      r.len = a.len ∧ r._arr.length = a.len ∧
      (∀ k, k < a.len → r._arr[k]? = a._arr[a.len - 1 - k]?) ∧
      r._arr = a._arr.reverse) ∧
    (a.len ≤ 1 → Array_reverse cb fuel a w = some (ARRAY_OK, a, w)) := by
  constructor
  · obtain ⟨l1, w1, h, hlen, hel⟩ :=
      Array_reverse_loop_ok cb hcb a ha fuel 0 a._arr w ha.1 (by omega)
        (fun k _ => by rw [if_neg (by omega)])
    refine ⟨⟨l1, a.len⟩, w1, h, rfl, hlen, hel, ?_⟩
    apply List.ext_getElem?
    intro k
    by_cases hk : k < a.len
    · rw [hel k hk, List.getElem?_reverse (by rw [ha.1]; exact hk), ha.1]
    · rw [List.getElem?_eq_none (by omega : l1.length ≤ k),
        List.getElem?_eq_none (by rw [List.length_reverse, ha.1]; omega)]
  · intro h1
    obtain ⟨f, hf⟩ : ∃ f, fuel = f + 1 := ⟨fuel - 1, by omega⟩
    subst hf
    unfold Array_reverse Array_reverse_loop
    rw [if_neg (by omega)]

theorem Array_reverse_spec_witness :
    (⟨[5, 3, 1, 4], 4⟩ : Array).valid ∧
    ∃ r w1, Array_reverse (Callbacks.default : Callbacks Unit) 3 ⟨[5, 3, 1, 4], 4⟩ () =
        some (ARRAY_OK, r, w1) ∧ r._arr = ([5, 3, 1, 4] : List Nat).reverse :=
  ⟨by decide,
    match (Array_reverse_spec (Callbacks.default : Callbacks Unit) 3 ⟨[5, 3, 1, 4], 4⟩ ()
      Callbacks.default_preserves (by decide) (by decide)).1 with
    | ⟨r, w1, h1, _, _, _, h5⟩ => ⟨r, w1, h1, h5⟩⟩

/-- C8, as stated, fails: at `n = 2^62` the byte count `n * sizeof (unsigned int)` wraps to
zero, so `Array_new` gives `len = 2^62` over an empty buffer, and position 0, although below
`len`, holds no element.  The smallest such length is `n = 2^30`, where the byte count
`2^32` becomes 0 in the `unsigned int` size of the allocator. -/
theorem Array_new_size_wraps :
    (Array_new 4611686018427387904).len = 4611686018427387904 ∧
    (Array_new 4611686018427387904)._arr = [] ∧
    (Array_new 4611686018427387904)._arr[0]? = none ∧
    (Array_new 1073741824).len = 1073741824 ∧
    (Array_new 1073741824)._arr = [] ∧
    (Array_new 1073741824)._arr[0]? = none := by
  decide

/-- C8, amended: for every length `n` whose byte count `n * sizeof (unsigned int)` fits the
`unsigned int` size of the allocator, that is `n < 2^30`, `Array_new n` has length `n` and
every element 0; with callbacks that leave the array alone and fuel above `n`,
`Array_new_init n` is a non-`NULL` array of length `n` whose element `i` is `i`; `Array_at`
on either at an index `>= n` returns `ARRAY_ERR`.  `Array_new_init 5` has 4 at index 4 and
`ARRAY_ERR` at index 10. -/
theorem Array_new_init_spec {σ : Type} (cb : Callbacks σ) (fuel n : Nat) (w : σ)
    (hcb : cb.preserves) (hn : n * sizeof_unsigned_int < UINT_MOD) (hfuel : n < fuel) :
    ((Array_new n).len = n ∧ (Array_new n)._arr.length = n ∧
      ∀ k, k < n → (Array_new n)._arr[k]? = some 0) ∧
    (∃ r w1, Array_new_init cb fuel n w = some (some r, w1) ∧
      r.len = n ∧ r._arr.length = n ∧ (∀ i, i < n → r._arr[i]? = some i) ∧
      ∀ i w2, n ≤ i → (Array_at cb r i w2).1.condition = ARRAY_ERR) ∧
    (∀ i w2, n ≤ i → (Array_at cb (Array_new n) i w2).1.condition = ARRAY_ERR) ∧
    Array_new_init (Callbacks.default : Callbacks Unit) 6 5 () =
      some (some ⟨[0, 1, 2, 3, 4], 5⟩, ()) ∧
    (Array_at (Callbacks.default : Callbacks Unit) ⟨[0, 1, 2, 3, 4], 5⟩ 4 ()).1 = ⟨ARRAY_OK, 4⟩ ∧
    (Array_at (Callbacks.default : Callbacks Unit) ⟨[0, 1, 2, 3, 4], 5⟩ 10 ()).1.condition
      = ARRAY_ERR := by
  have hnew := Array_new_eq n hn
  have hn64 : n * sizeof_unsigned_int < SIZE_MOD :=
    Nat.lt_trans hn (by simp only [UINT_MOD, SIZE_MOD]; omega)
  refine ⟨?_, ?_, ?_, by decide, by decide, by decide⟩
  · rw [hnew]
    exact ⟨rfl, by simp, fun k hk => by simp [hk]⟩
  · obtain ⟨l1, w1, h, hlen, hel⟩ :=
      Array_new_init_loop_ok cb hcb n hn64 fuel 0 (List.replicate n 0) w (by simp)
        (Nat.zero_le _) (by omega) (fun k hk => absurd hk (Nat.not_lt_zero k))
    refine ⟨⟨l1, n⟩, w1, ?_, rfl, hlen, ?_, ?_⟩
    · unfold Array_new_init
      rw [hnew]
      exact h
    · intro i hi
      rw [hel i hi, Nat.mod_eq_of_lt]
      simp only [sizeof_unsigned_int, UINT_MOD] at *
      omega
    · intro i w2 hi
      rw [Array_at_err cb ⟨l1, n⟩ i w2 hi]
  · intro i w2 hi
    rw [Array_at_err cb (Array_new n) i w2 (by rw [hnew]; exact hi)]

theorem Array_new_init_spec_witness :
    5 * sizeof_unsigned_int < UINT_MOD ∧
    ∃ r w1, Array_new_init (Callbacks.default : Callbacks Unit) 6 5 () = some (some r, w1) ∧
      r.len = 5 ∧ r._arr[4]? = some 4 :=
  ⟨by decide,
    match (Array_new_init_spec (Callbacks.default : Callbacks Unit) 6 5 ()
      Callbacks.default_preserves (by decide) (by decide)).2.1 with
    | ⟨r, w1, h1, h2, _, h4, _⟩ => ⟨r, w1, h1, h2, h4 4 (by decide)⟩⟩

/-- C9, as stated, fails: the array `Array_new (2^30 - 1)` is a valid array of `2^30 - 1`
zeros, and `Array_push` on it returns `ARRAY_OK` with `len = 2^30`, but the byte count
`2^32` of the resize is 0 in the `unsigned int` size of `Array_mem_realloc`: the buffer is
left with no element, so neither the pushed value nor any old element is held. -/
theorem Array_push_size_wraps :
    (Array_new 1073741823).valid ∧
    (Array_new 1073741823)._arr[0]? = some 0 ∧
    (Array_push (Callbacks.default : Callbacks Unit) (fun _ => 0) (Array_new 1073741823) 7 ())
      = (ARRAY_OK, ⟨[], 1073741824⟩, ()) ∧
    (Array_push (Callbacks.default : Callbacks Unit) (fun _ => 0) (Array_new 1073741823) 7
      ()).2.1._arr[1073741823]? = none ∧
    (Array_push (Callbacks.default : Callbacks Unit) (fun _ => 0) (Array_new 1073741823) 7
      ()).2.1._arr[0]? = none := by
  have hnew := Array_new_eq 1073741823 (by decide)
  have hpush := Array_push_wraps (fun _ => 0) (Array_new 1073741823)._arr 7
  have hrw : (⟨(Array_new 1073741823)._arr, 1073741823⟩ : Array) = Array_new 1073741823 := rfl
  rw [hrw] at hpush
  rw [hpush]
  refine ⟨?_, ?_, rfl, rfl, rfl⟩
  · rw [hnew]
    exact ⟨List.length_replicate _ _, by decide⟩
  · rw [hnew]
    show (List.replicate 1073741823 0)[0]? = some 0
    rw [List.getElem?_replicate]
    rfl

/-- C9, amended: for a valid array whose grown buffer of `(len + 1) * sizeof (unsigned int)`
bytes fits the `unsigned int` size of `Array_mem_realloc`, callbacks that leave the array
alone and any value `v`, `Array_push` returns `ARRAY_OK`, the length grows by exactly one,
the buffer grows with it, the new last element is `v`, and every element below the old
length is unchanged, whatever the fresh memory held. -/
theorem Array_push_spec {σ : Type} (cb : Callbacks σ) (junk : Nat → Nat) (a : Array) (v : Nat)
    (w : σ) (hcb : cb.preserves) (ha : a.valid)
    (hsz : (a.len + 1) * sizeof_unsigned_int < UINT_MOD) :
    (Array_push cb junk a v w).1 = ARRAY_OK ∧
    (Array_push cb junk a v w).2.1.len = a.len + 1 ∧
    (Array_push cb junk a v w).2.1._arr.length = a.len + 1 ∧
    (Array_push cb junk a v w).2.1._arr[a.len]? = some v ∧
    (∀ k, k < a.len → (Array_push cb junk a v w).2.1._arr[k]? = a._arr[k]?) ∧
    (Array_push cb junk a v w).2.1._arr = a._arr ++ [v] := by
  obtain ⟨w1, hw⟩ := Array_push_ok cb hcb junk a v w ha hsz
  rw [hw]
  refine ⟨rfl, rfl, by simp [ha.1], ?_, ?_, rfl⟩
  · show (a._arr ++ [v])[a.len]? = some v
    rw [List.getElem?_append_right (by rw [ha.1])]
    simp [ha.1]
  · intro k hk
    show (a._arr ++ [v])[k]? = a._arr[k]?
    rw [List.getElem?_append_left (by rw [ha.1]; exact hk)]

theorem Array_push_spec_witness :
    (⟨[5, 3, 1], 3⟩ : Array).valid ∧ (3 + 1) * sizeof_unsigned_int < UINT_MOD ∧
    (Array_push (Callbacks.default : Callbacks Unit) (fun _ => 77) ⟨[5, 3, 1], 3⟩ 9 ()).2.1._arr
      = [5, 3, 1] ++ [9] :=
  ⟨by decide, by decide,
    (Array_push_spec (Callbacks.default : Callbacks Unit) (fun _ => 77) ⟨[5, 3, 1], 3⟩ 9 ()
      Callbacks.default_preserves (by decide) (by decide)).2.2.2.2.2⟩

/-- C10, the code at `[1,2,3,4,5]`: `Array_pop` returns `ARRAY_OK` with 5 and sets `len` to 4,
but it resizes the buffer to 4 bytes, which is one element: positions 1 to 3, all below the
new length, are no longer held by the buffer. -/
theorem Array_pop_drops_elements :
    Array_pop (Callbacks.default : Callbacks Unit) (fun _ => 0) ⟨[1, 2, 3, 4, 5], 5⟩ () =
      (⟨ARRAY_OK, 5⟩, ⟨[1], 4⟩, ()) ∧
    (Array_pop (Callbacks.default : Callbacks Unit) (fun _ => 0)
      ⟨[1, 2, 3, 4, 5], 5⟩ ()).2.1._arr[1]? = none ∧
    ¬ (Array_pop (Callbacks.default : Callbacks Unit) (fun _ => 0)
      ⟨[1, 2, 3, 4, 5], 5⟩ ()).2.1.valid := by
  refine ⟨by decide, by decide, by decide⟩

/-- C3: for a valid non-empty array and callbacks that leave the array alone, the selection
sort strategy with fuel above `len` returns true, and the resulting array has the same
length, is sorted in non-decreasing order and is a permutation of the input. -/
theorem SelectionSort_sorts {σ : Type} (cb : Callbacks σ) (fuel : Nat) (a : Array) (w : σ)
    (hcb : cb.preserves) (ha : a.valid) (hne : a.len ≠ 0) (hfuel : a.len < fuel) :
    ∃ r w1, SelectionSort.fun_ cb fuel a w = some (true, r, w1) ∧
      r.len = a.len ∧ r._arr.length = a._arr.length ∧
      List.Sorted (fun x y => x ≤ y) r._arr ∧ List.Perm r._arr a._arr := by
  obtain ⟨l1, w1, h, hlen, hperm, hsorted⟩ :=
    _ewweew_loop_ok cb hcb a._arr a.len (valid_len_lt a ha) hne fuel 0 a._arr w (by omega)
      ha.1 (List.Perm.refl _) (fun p q hp _ _ => absurd hp (Nat.not_lt_zero p))
  refine ⟨⟨l1, a.len⟩, w1, h, rfl, by rw [hlen, ha.1], ?_, hperm⟩
  show List.Pairwise (fun x y => x ≤ y) l1
  rw [List.pairwise_iff_getElem]
  intro p q hp hq hpq
  have h1 := hsorted p q hpq (by omega)
  rw [List.getD_eq_getElem?_getD, List.getD_eq_getElem?_getD,
    List.getElem?_eq_getElem hp, List.getElem?_eq_getElem hq] at h1
  exact h1

theorem SelectionSort_sorts_witness :
    (⟨[5, 3, 1, 4, 2], 5⟩ : Array).valid ∧
    ∃ r w1, SelectionSort.fun_ (Callbacks.default : Callbacks Unit) 6 ⟨[5, 3, 1, 4, 2], 5⟩ () =
        some (true, r, w1) ∧
      List.Sorted (fun x y => x ≤ y) r._arr ∧ List.Perm r._arr [5, 3, 1, 4, 2] :=
  ⟨by decide,
    match SelectionSort_sorts (Callbacks.default : Callbacks Unit) 6 ⟨[5, 3, 1, 4, 2], 5⟩ ()
      Callbacks.default_preserves (by decide) (by decide) (by decide) with
    | ⟨r, w1, h1, _, _, h4, h5⟩ => ⟨r, w1, h1, h4, h5⟩⟩


/-- C11: with callbacks that leave the array alone, `Array_swap` returns `ARRAY_ERR` exactly
when `i >= len` or `j >= len`; whenever it does, the array is as before the call and no
write has happened: the result is the untouched array, after no callback at all (first index
out of range) or after the single read callback of the first get (second index out of
range). -/
theorem Array_swap_err_iff {σ : Type} (cb : Callbacks σ) (a : Array) (i j : Nat) (w : σ)
    (hcb : cb.preserves) :
    ((Array_swap cb a i j w).1 = ARRAY_ERR ↔ a.len ≤ i ∨ a.len ≤ j) ∧
    ((Array_swap cb a i j w).1 = ARRAY_ERR → (Array_swap cb a i j w).2.1 = a) ∧
    (a.len ≤ i → Array_swap cb a i j w = (ARRAY_ERR, a, w)) ∧
    (i < a.len → a.len ≤ j →
      Array_swap cb a i j w = (ARRAY_ERR, a, (cb._Array_at_callback a i w).2)) := by
  have h1 : a.len ≤ i → Array_swap cb a i j w = (ARRAY_ERR, a, w) := by
    intro h
    unfold Array_swap
    simp only [Array_at_err cb a i w h, reduceIte]
  have h2 : i < a.len → a.len ≤ j →
      Array_swap cb a i j w = (ARRAY_ERR, a, (cb._Array_at_callback a i w).2) := by
    intro hi hj
    unfold Array_swap
    simp only [Array_at_ok cb hcb a i w hi, reduceCtorEq, reduceIte]
    simp only [Array_at_err cb a j _ hj, reduceIte]
  by_cases hi : a.len ≤ i
  · rw [h1 hi]
    exact ⟨⟨fun _ => Or.inl hi, fun _ => rfl⟩, fun _ => rfl, fun _ => rfl,
      fun hlt => absurd hi (Nat.not_le.mpr hlt)⟩
  · have hi1 : i < a.len := Nat.lt_of_not_le hi
    by_cases hj : a.len ≤ j
    · refine ⟨?_, ?_, h1, h2⟩
      · rw [h2 hi1 hj]
        exact ⟨fun _ => Or.inr hj, fun _ => rfl⟩
      · rw [h2 hi1 hj]
        exact fun _ => rfl
    · have hj1 : j < a.len := Nat.lt_of_not_le hj
      obtain ⟨w1, hw⟩ := Array_swap_ok cb hcb a i j w hi1 hj1
      refine ⟨?_, ?_, h1, h2⟩
      · rw [hw]
        constructor
        · intro hc; exact Array_ResultCondition.noConfusion hc
        · intro hc; rcases hc with hc | hc
          · exact absurd hc hi
          · exact absurd hc hj
      · rw [hw]
        intro hc; exact Array_ResultCondition.noConfusion hc

theorem Array_swap_err_iff_witness :
    (Array_swap (Callbacks.default : Callbacks Unit) ⟨[5, 3, 1], 3⟩ 1 7 ()).1 = ARRAY_ERR ∧
    (Array_swap (Callbacks.default : Callbacks Unit) ⟨[5, 3, 1], 3⟩ 1 7 ()).2.1 = ⟨[5, 3, 1], 3⟩ :=
  have h := Array_swap_err_iff (Callbacks.default : Callbacks Unit) ⟨[5, 3, 1], 3⟩ 1 7 ()
    Callbacks.default_preserves
  ⟨h.1.mpr (Or.inr (by decide)), h.2.1 (h.1.mpr (Or.inr (by decide)))⟩

/-- C12: for a valid array, callbacks that leave the array alone and indices `i, j < len`
(in particular `i ≠ j`), two calls of `Array_swap` in a row both return `ARRAY_OK` and the
second one gives back the original array, so the original values stand at `i` and `j`. -/
theorem Array_swap_involution {σ : Type} (cb : Callbacks σ) (a : Array) (i j : Nat) (w : σ)
    (hcb : cb.preserves) (ha : a.valid) (hi : i < a.len) (hj : j < a.len) :
    (Array_swap cb a i j w).1 = ARRAY_OK ∧
    (Array_swap cb (Array_swap cb a i j w).2.1 i j (Array_swap cb a i j w).2.2).1 = ARRAY_OK ∧
    (Array_swap cb (Array_swap cb a i j w).2.1 i j (Array_swap cb a i j w).2.2).2.1 = a ∧
    (Array_swap cb (Array_swap cb a i j w).2.1 i j (Array_swap cb a i j w).2.2).2.1._arr[i]?
      = a._arr[i]? ∧
    (Array_swap cb (Array_swap cb a i j w).2.1 i j (Array_swap cb a i j w).2.2).2.1._arr[j]?
      = a._arr[j]? := by
  have hli : i < a._arr.length := by rw [ha.1]; exact hi
  have hlj : j < a._arr.length := by rw [ha.1]; exact hj
  obtain ⟨w1, hw1⟩ := Array_swap_ok cb hcb a i j w hi hj
  rw [hw1]
  obtain ⟨w2, hw2⟩ := Array_swap_ok cb hcb
    ⟨(a._arr.set i (a._arr.getD j 0)).set j (a._arr.getD i 0), a.len⟩ i j w1 hi hj
  dsimp only
  rw [hw2]
  have hx := set_set_getElem? a._arr i j hli hlj
  have hy := set_set_getElem? ((a._arr.set i (a._arr.getD j 0)).set j (a._arr.getD i 0)) i j
    (by simp [hli]) (by simp [hlj])
  have hback : ((((a._arr.set i (a._arr.getD j 0)).set j (a._arr.getD i 0)).set i
      (((a._arr.set i (a._arr.getD j 0)).set j (a._arr.getD i 0)).getD j 0)).set j
      (((a._arr.set i (a._arr.getD j 0)).set j (a._arr.getD i 0)).getD i 0)) = a._arr := by
    apply List.ext_getElem?
    intro k
    by_cases hki : k = i
    · subst hki; rw [hy.1, hx.2.1]
    · by_cases hkj : k = j
      · subst hkj; rw [hy.2.1, hx.1]
      · rw [hy.2.2 k hki hkj, hx.2.2 k hki hkj]
  dsimp only
  rw [hback]
  exact ⟨rfl, rfl, rfl, rfl, rfl⟩

theorem Array_swap_involution_witness :
    (⟨[5, 3, 1, 4], 4⟩ : Array).valid ∧
    (Array_swap (Callbacks.default : Callbacks Unit)
      (Array_swap (Callbacks.default : Callbacks Unit) ⟨[5, 3, 1, 4], 4⟩ 0 2 ()).2.1 0 2
      (Array_swap (Callbacks.default : Callbacks Unit) ⟨[5, 3, 1, 4], 4⟩ 0 2 ()).2.2).2.1
      = ⟨[5, 3, 1, 4], 4⟩ :=
  ⟨by decide,
    (Array_swap_involution (Callbacks.default : Callbacks Unit) ⟨[5, 3, 1, 4], 4⟩ 0 2 ()
      Callbacks.default_preserves (by decide) (by decide) (by decide)).2.2.1⟩


/-- C15: let `R` and `W` be the callbacks registered last (registration overwrites the slot
and leaves the other slot alone; the initial callback does nothing).  A successful
`Array_at a i` returns the value stored at `i` on entry and is followed by exactly one run of
`R` on `(a, i)`, `W` playing no part; a successful `Array_set a i v` runs `W` exactly once
on the array already holding `v` at `i`, `R` playing no part; a failing call runs no
callback.  With callbacks that count their runs, a successful get adds one read and no
write, a successful set one write and no read, a failing call nothing. -/
theorem callbacks_run_once {σ : Type} (R R0 W W0 : Array_CallbackType σ) (s0 : Callbacks σ)
    (a : Array) (i v : Nat) (w : σ) (n : Nat × Nat) :
    (Array_set_at_callback R (Array_set_at_callback R0 s0)) = Array_set_at_callback R s0 ∧
    (Array_set_set_callback W (Array_set_set_callback W0 s0)) = Array_set_set_callback W s0 ∧
    (Array_set_set_callback W (Array_set_at_callback R s0)) = ⟨R, W⟩ ∧
    (Array_set_at_callback R (Array_set_set_callback W s0)) = ⟨R, W⟩ ∧
    (_Array_default_callback a i w = (a, w)) ∧
    (Array_at ⟨R, W⟩ a i w =
      if a.len ≤ i then (⟨ARRAY_ERR, 0⟩, a, w)
      else (⟨ARRAY_OK, a._arr.getD i 0⟩, R a i w)) ∧
    (Array_set ⟨R, W⟩ a i v w =
      if a.len ≤ i then (ARRAY_ERR, a, w)
      else (ARRAY_OK, W ⟨a._arr.set i v, a.len⟩ i w)) ∧
    ((Array_at ⟨counting_at_callback, counting_set_callback⟩ a i n).2.2 =
      if a.len ≤ i then n else (n.1 + 1, n.2)) ∧
    ((Array_set ⟨counting_at_callback, counting_set_callback⟩ a i v n).2.2 =
      if a.len ≤ i then n else (n.1, n.2 + 1)) := by
  refine ⟨rfl, rfl, rfl, rfl, rfl, ?_, ?_, ?_, ?_⟩
  · unfold Array_at
    by_cases h : a.len ≤ i
    · simp only [ge_iff_le, h, reduceIte]
    · simp only [ge_iff_le, h, reduceIte]
  · unfold Array_set
    by_cases h : a.len ≤ i
    · simp only [ge_iff_le, h, reduceIte]
    · simp only [ge_iff_le, h, reduceIte]
  · unfold Array_at
    by_cases h : a.len ≤ i
    · simp only [ge_iff_le, h, reduceIte]
    · simp only [ge_iff_le, h, reduceIte, counting_at_callback]
  · unfold Array_set
    by_cases h : a.len ≤ i
    · simp only [ge_iff_le, h, reduceIte]
    · simp only [ge_iff_le, h, reduceIte, counting_set_callback]


/-- C13: for a valid array, callbacks that leave the array alone and indices `i, j < len`,
the number of inversions among the positions `min i j .. max i j` is after `Array_reorder`
at most what it was before; and when `a[i] = a[j]` the array is returned as it was and the
flag is false. -/
theorem Array_reorder_inversions {σ : Type} (cb : Callbacks σ) (a : Array) (i j : Nat) (w : σ)
    (hcb : cb.preserves) (ha : a.valid) (hi : i < a.len) (hj : j < a.len) :
    inversions (Array_reorder cb a i j w).2.1._arr (min i j) (max i j)
      ≤ inversions a._arr (min i j) (max i j) ∧
    (a._arr.getD i 0 = a._arr.getD j 0 →
      (Array_reorder cb a i j w).2.1 = a ∧ (Array_reorder cb a i j w).1.value = false) := by
  have hli : i < a._arr.length := by rw [ha.1]; exact hi
  have hlj : j < a._arr.length := by rw [ha.1]; exact hj
  have hskip := Array_reorder_skip_iff i j (a._arr.getD i 0) (a._arr.getD j 0)
    (fun h => by rw [h])
  cases hs : Array_reorder_skip i j (a._arr.getD i 0) (a._arr.getD j 0)
  · obtain ⟨w1, hw⟩ := Array_reorder_skip_false cb hcb a i j w hi hj hs
    have hn : ¬ ¬ ((i < j ∧ a._arr.getD j 0 < a._arr.getD i 0) ∨
        (j < i ∧ a._arr.getD i 0 < a._arr.getD j 0)) := by
      rw [← hskip, hs]; exact Bool.false_ne_true
    have hp := not_not.mp hn
    have hx := set_set_getD a._arr i j hli hlj
    rw [hw]
    constructor
    · rcases hp with ⟨hij, hv⟩ | ⟨hji, hv⟩
      · rw [Nat.min_eq_left (Nat.le_of_lt hij), Nat.max_eq_right (Nat.le_of_lt hij)]
        exact inversions_le_of_exchange a._arr _ i j hv hx.1 hx.2.1 hx.2.2
      · rw [Nat.min_eq_right (Nat.le_of_lt hji), Nat.max_eq_left (Nat.le_of_lt hji)]
        exact inversions_le_of_exchange a._arr _ j i hv hx.2.1 hx.1
          (fun k hk1 hk2 => hx.2.2 k hk2 hk1)
    · intro heq
      exfalso
      omega
  · obtain ⟨w1, hw⟩ := Array_reorder_skip_true cb hcb a i j w hi hj hs
    rw [hw]
    exact ⟨Nat.le_refl _, fun _ => ⟨rfl, rfl⟩⟩

theorem Array_reorder_inversions_witness :
    (⟨[5, 3, 1, 4, 2], 5⟩ : Array).valid ∧
    inversions (Array_reorder (Callbacks.default : Callbacks Unit)
        ⟨[5, 3, 1, 4, 2], 5⟩ 0 2 ()).2.1._arr (min 0 2) (max 0 2)
      ≤ inversions [5, 3, 1, 4, 2] (min 0 2) (max 0 2) :=
  ⟨by decide,
    (Array_reorder_inversions (Callbacks.default : Callbacks Unit) ⟨[5, 3, 1, 4, 2], 5⟩ 0 2 ()
      Callbacks.default_preserves (by decide) (by decide) (by decide)).1⟩

/-- C14: for a valid non-empty array of length `n`, callbacks that leave the array alone and
a random source whose draw in iteration `i` lies in the requested range `i .. n-1`, the
standard shuffle with fuel above `n` returns true and the resulting array has the same
length and is a permutation of the input. -/
theorem StandardShuffle_permutes {σ : Type} (cb : Callbacks σ) (rand : Nat → Int → Int → Int)
    (fuel : Nat) (a : Array) (w : σ) (hcb : cb.preserves) (ha : a.valid) (hne : a.len ≠ 0)
    (hfuel : a.len < fuel)
    (hrand : ∀ i, i < a.len - 1 →
      (i : Int) ≤ rand i (size_to_int i) (size_to_int (a.len - 1)) ∧
      rand i (size_to_int i) (size_to_int (a.len - 1)) ≤ ((a.len - 1 : Nat) : Int)) :
    ∃ r w1, (StandardShuffle rand).fun_ cb fuel a w = some (true, r, w1) ∧
      r.len = a.len ∧ r._arr.length = a._arr.length ∧ List.Perm r._arr a._arr := by
  obtain ⟨l1, w1, h, hlen, hperm⟩ :=
    _kjfeefnje_loop_ok cb hcb rand a._arr a.len (valid_len_lt a ha) hne hrand fuel 0 a._arr w
      (by omega) ha.1 (List.Perm.refl _)
  exact ⟨⟨l1, a.len⟩, w1, h, rfl, by rw [hlen, ha.1], hperm⟩

theorem StandardShuffle_permutes_witness :
    (⟨[5, 3, 1, 4], 4⟩ : Array).valid ∧
    ∃ r w1, (StandardShuffle (fun _ _ hi => hi)).fun_ (Callbacks.default : Callbacks Unit) 5
        ⟨[5, 3, 1, 4], 4⟩ () = some (true, r, w1) ∧ List.Perm r._arr [5, 3, 1, 4] :=
  ⟨by decide,
    match StandardShuffle_permutes (Callbacks.default : Callbacks Unit) (fun _ _ hi => hi) 5
      ⟨[5, 3, 1, 4], 4⟩ () Callbacks.default_preserves (by decide) (by decide) (by decide)
      (by decide) with
    | ⟨r, w1, h1, _, _, h4⟩ => ⟨r, w1, h1, h4⟩⟩


/-- C16, as stated, fails: an event of duration `0.03f` is pushed onto the empty registry.
The `float` `0.03f` is a little below 0.03, so `ceil (duration * 44100) = 1323`, but after
1323 calls of `next_sample` the registry still holds the event: each call decreases the
amplitude by the rounded value of `1.0f / 0.03f / 44100` with a rounded subtraction, and
after 1323 decreases the amplitude is not yet negative. -/
theorem event_outlives_ceil :
    ⌈Float32.toRat (Float32.of_ratio 3 100) * 44100⌉ = 1323 ∧
    Float32.lt (Float32.of_nat 0) (Float32.of_ratio 3 100) = true ∧
    ∃ samples st1, Binary32.next_samples 2 1323
        (Binary32.push_sound (fun x => x) (Float32.of_nat 1) (Float32.of_ratio 1 2)
          (Float32.of_ratio 3 100) Binary32.AudioState.empty) = some (samples, st1) ∧
      st1.sound_list ≠ none := by
  refine ⟨?_, by decide!, ?_⟩
  · have h : Float32.of_ratio 3 100 = Float32.finite false 21408714912067319733304575296371885344817152 := by decide!
    rw [h, Int.ceil_eq_iff]
    simp only [Float32.toRat, Float32.ONE_UNITS]
    norm_num
  · obtain ⟨samples, st1, addrs1, h1, _, _, h4⟩ :=
      b32_registry_after
        [((fun x => x), Float32.of_nat 1, Float32.of_ratio 1 2, Float32.of_ratio 3 100)]
        1323 2 (by decide)
    refine ⟨samples, st1, h1, ?_⟩
    intro hnone
    have h5 := h4.mp hnone
      ⟨fun x => x, Float32.of_nat 1, Float32.of_ratio 1 2, Float32.of_ratio 3 100,
        Float32.of_nat 0, Float32.of_nat 1⟩
      (by simp [Binary32.pushed_events])
    have h7 : Binary32.amplitude_after (Binary32.decrement (Float32.of_ratio 3 100)) 1323
        (Float32.of_nat 1) = none := h5
    rw [amplitude_1323] at h7
    simp at h7

/-- C16, amended.  After any calls of `push_sound` on the empty registry and `k` calls of
`next_sample`, with fuel above the number of events, the registry consists of the events that
`k` render steps retain; it is empty exactly when the amplitude of every pushed event, which
starts at 1 and is decreased at each call by the `float` value of `1.0f / duration / 44100`
with a rounded subtraction, has become negative within the `k` calls; and on the empty
registry a further call returns the sample 0 and leaves it empty.  The number of calls after
which an event is gone is decided by this `float` arithmetic and is not
`ceil (duration * 44100)` for every duration.  For the duration `0.05f` it is: the
amplitude is still there after 2204 decreases and negative at the 2205th. -/
theorem registry_lifetime
    (calls : List ((Float32 → Float32) × Float32 × Float32 × Float32)) (k fuel : Nat)
    (hf : calls.length < fuel) :
    (∃ samples st1 addrs1,
      Binary32.next_samples fuel k (Binary32.push_sounds calls Binary32.AudioState.empty)
        = some (samples, st1) ∧
      samples.length = k ∧
      st1.holds addrs1
        ((Binary32.pushed_events calls).filterMap (Binary32.spec_advance_times k)) ∧
      (st1.sound_list = none ↔
        ∀ c ∈ calls,
          Binary32.amplitude_after (Binary32.decrement c.2.2.2) k (Float32.of_nat 1) = none) ∧
      (st1.sound_list = none → Binary32.next_sample fuel st1 = some (0, st1))) ∧
    (∀ (e : Binary32.SoundEvent) (j : Nat),
      (Binary32.spec_advance_times j e).map (fun e1 => e1.remaining_amplitude)
        = Binary32.amplitude_after (Binary32.decrement e.duration) j e.remaining_amplitude) ∧
    Binary32.amplitude_after (Binary32.decrement (Float32.of_ratio 1 20)) 2204
        (Float32.of_nat 1) = some (Float32.finite false 314749226349906014460765377610843072495616) ∧
    Binary32.amplitude_after (Binary32.decrement (Float32.of_ratio 1 20)) 2205
        (Float32.of_nat 1) = none := by
  refine ⟨?_, fun e j => spec_advance_times_amplitude j e, amplitude_2204, amplitude_2205⟩
  obtain ⟨samples, st1, addrs1, h1, h2, h3, h4⟩ := b32_registry_after calls k fuel hf
  refine ⟨samples, st1, addrs1, h1, h2, h3, ?_, ?_⟩
  · rw [h4]
    constructor
    · intro h c hc
      exact h _ ((mem_pushed_events calls _).mpr ⟨c, hc, rfl⟩)
    · intro h e he
      obtain ⟨c, hc, hec⟩ := (mem_pushed_events calls e).mp he
      subst hec
      exact h c hc
  · intro hnone
    exact next_sample_empty fuel st1 hnone (by omega)

theorem registry_lifetime_witness :
    ([((fun x => x), Float32.of_nat 1, Float32.of_ratio 1 2, Float32.of_ratio 1 20)] :
      List ((Float32 → Float32) × Float32 × Float32 × Float32)).length < 2 ∧
    ∃ samples st1, Binary32.next_samples 2 2205
        (Binary32.push_sound (fun x => x) (Float32.of_nat 1) (Float32.of_ratio 1 2)
          (Float32.of_ratio 1 20) Binary32.AudioState.empty) = some (samples, st1) ∧
      samples.length = 2205 ∧ st1.sound_list = none ∧
      Binary32.next_sample 2 st1 = some (0, st1) :=
  ⟨by decide,
    match registry_lifetime
      [((fun x => x), Float32.of_nat 1, Float32.of_ratio 1 2, Float32.of_ratio 1 20)] 2205 2
      (by decide) with
    | ⟨⟨samples, st1, _, h1, h2, _, h4, h5⟩, _, _, h8⟩ =>
      have hnone : st1.sound_list = none :=
        h4.mpr (fun c hc => by
          have hc1 : c = ((fun x => x), Float32.of_nat 1, Float32.of_ratio 1 2,
              Float32.of_ratio 1 20) := by simpa using hc
          rw [hc1]
          exact h8)
      ⟨samples, st1, h1, h2, hnone, h5 hnone⟩⟩

/-- C17, as stated, fails: an event of duration `d`, the `float` nearest to `1 / 44100`, and
amplitude 1 is in the registry.  Decreased by `1 / (d * 44100)` the amplitude is negative,
so the claim has the event removed; the program computes `1.0f / d / 44100`, where
`1.0f / d` is rounded to 44100, decreases the amplitude to 0 and keeps the event. -/
theorem next_sample_keeps_rounded_event :
    (1 : ℚ) - 1 / (Float32.toRat (Float32.of_ratio 1 44100) * 44100) < 0 ∧
    Float32.toRat (Float32.of_nat 1) = 1 ∧
    (Binary32.next_sample 2
      (Binary32.push_sound (fun x => x) (Float32.of_nat 1) (Float32.of_ratio 1 2)
        (Float32.of_ratio 1 44100) Binary32.AudioState.empty)).map
      (fun r => r.2.sound_list) = some (some 0) ∧
    (Binary32.next_sample 2
      (Binary32.push_sound (fun x => x) (Float32.of_nat 1) (Float32.of_ratio 1 2)
        (Float32.of_ratio 1 44100) Binary32.AudioState.empty)).bind
      (fun r => (r.2.mem 0).map fun node => node.remaining_amplitude)
        = some (Float32.finite false 0) := by
  refine ⟨?_, ?_, by decide!, by decide!⟩
  · have h : Float32.of_ratio 1 44100
        = Float32.finite false 16181946332381117081730333459656141176832 := by decide!
    rw [h]
    simp only [Float32.toRat, Float32.ONE_UNITS]
    norm_num
  · rw [of_nat_one]
    simp only [Float32.toRat, Float32.ONE_UNITS]
    norm_num

/-- C17, amended: on a state that holds the registry `events` at the addresses `addrs`, one
call of `next_sample` with fuel above the length of the list is the filter-map of the
specification, in `float` arithmetic: the sample is that of the contributions
`waveform(frequency(value) * elapsed) * volume * remaining_amplitude`, taken before the
decrement and added to `0.0f` one after the other from the head of the list on; the state
afterwards holds, in the same order and at their old addresses, exactly the events whose
amplitude decreased by the `float` value of `1.0f / duration / 44100` is `>= 0`, each with
`elapsed` advanced by the `float` value of `1 / 44100`. -/
theorem next_sample_refines_filterMap (fuel : Nat) (st : Binary32.AudioState)
    (addrs : List Nat) (events : List Binary32.SoundEvent) (h : st.holds addrs events)
    (hf : addrs.length < fuel) :
    ∃ st1 addrs1, Binary32.next_sample fuel st =
        some (Binary32.sample_of
          ((events.map Binary32.spec_contribution).foldl Float32.add (Float32.of_nat 0)), st1) ∧
      st1.holds addrs1 (events.filterMap Binary32.spec_advance) ∧ addrs1.Sublist addrs ∧
      st1.brk = st.brk :=
  b32_next_sample_holds fuel st addrs events h hf

theorem next_sample_refines_filterMap_witness :
    (Binary32.push_sound (fun x => x) (Float32.of_nat 1) (Float32.of_ratio 1 2)
      (Float32.of_ratio 1 20) Binary32.AudioState.empty).holds [0]
      [⟨fun x => x, Float32.of_nat 1, Float32.of_ratio 1 2, Float32.of_ratio 1 20,
        Float32.of_nat 0, Float32.of_nat 1⟩] ∧
    ∃ st1 addrs1, Binary32.next_sample 2
        (Binary32.push_sound (fun x => x) (Float32.of_nat 1) (Float32.of_ratio 1 2)
          (Float32.of_ratio 1 20) Binary32.AudioState.empty) =
        some (Binary32.sample_of
          ((([⟨fun x => x, Float32.of_nat 1, Float32.of_ratio 1 2, Float32.of_ratio 1 20,
            Float32.of_nat 0, Float32.of_nat 1⟩] : List Binary32.SoundEvent).map
              Binary32.spec_contribution).foldl Float32.add (Float32.of_nat 0)), st1) ∧
      st1.holds addrs1
        (([⟨fun x => x, Float32.of_nat 1, Float32.of_ratio 1 2, Float32.of_ratio 1 20,
          Float32.of_nat 0, Float32.of_nat 1⟩] : List Binary32.SoundEvent).filterMap
            Binary32.spec_advance) :=
  have hempty : Binary32.AudioState.empty.holds [] [] :=
    ⟨rfl, List.nodup_nil, fun _ ha => absurd ha (List.not_mem_nil _)⟩
  have hpush := b32_push_sound_holds (fun x => x) (Float32.of_nat 1) (Float32.of_ratio 1 2)
    (Float32.of_ratio 1 20) Binary32.AudioState.empty [] [] hempty
  ⟨hpush,
    match next_sample_refines_filterMap 2 _ _ _ hpush (by decide) with
    | ⟨st1, addrs1, h1, h2, _, _⟩ => ⟨st1, addrs1, h1, h2⟩⟩

/-- C18: on a state that holds a registry, pushing `A` then `B` and pushing `B` then `A`
give, for every number `k` of calls of `next_sample` (fuel above the length of the list),
the same sequence of `k` samples; sums are exact. -/
theorem push_order_irrelevant (fuel k : Nat) (st : AudioState) (addrs : List Nat)
    (events : List SoundEvent) (wA wB : ℚ → ℚ) (volA valA durA volB valB durB : ℚ)
    (h : st.holds addrs events) (hf : addrs.length + 2 < fuel) :
    ∃ samples st1 st2,
      next_samples fuel k (push_sound wB volB valB durB (push_sound wA volA valA durA st))
        = some (samples, st1) ∧
      next_samples fuel k (push_sound wA volA valA durA (push_sound wB volB valB durB st))
        = some (samples, st2) ∧ samples.length = k := by
  have hAB := push_sound_holds wB volB valB durB _ _ _
    (push_sound_holds wA volA valA durA st addrs events h)
  have hBA := push_sound_holds wA volA valA durA _ _ _
    (push_sound_holds wB volB valB durB st addrs events h)
  obtain ⟨st1, h1⟩ := next_samples_holds fuel k _ _ _ hAB (by simp; omega)
  obtain ⟨st2, h2⟩ := next_samples_holds fuel k _ _ _ hBA (by simp; omega)
  have hperm := spec_samples_perm k _ _
    (List.Perm.swap (⟨wA, volA, valA, durA, 0, 1⟩ : SoundEvent) ⟨wB, volB, valB, durB, 0, 1⟩
      events)
  refine ⟨_, st1, st2, h1, ?_, ?_⟩
  · rw [h2, hperm]
  · clear h1 h2 hperm hAB hBA
    generalize (⟨wB, volB, valB, durB, 0, 1⟩ : SoundEvent) ::
      (⟨wA, volA, valA, durA, 0, 1⟩ : SoundEvent) :: events = l
    induction k generalizing l with
    | zero => rfl
    | succ k ih => simp [spec_samples, ih]

theorem push_order_irrelevant_witness :
    AudioState.empty.holds [] [] ∧
    ∃ samples st1 st2,
      next_samples 3 5 (push_sound id 1 (1 / 2) 1 (push_sound id (1 / 2) 1 2 AudioState.empty))
        = some (samples, st1) ∧
      next_samples 3 5 (push_sound id (1 / 2) 1 2 (push_sound id 1 (1 / 2) 1 AudioState.empty))
        = some (samples, st2) ∧ samples.length = 5 :=
  have hempty : AudioState.empty.holds [] [] :=
    ⟨rfl, List.nodup_nil, fun _ ha => absurd ha (List.not_mem_nil _)⟩
  ⟨hempty, push_order_irrelevant 3 5 AudioState.empty [] [] id id (1 / 2) 1 2 1 (1 / 2) 1
    hempty (by decide)⟩


/-- C19: the sample `next_sample` returns is `sample_of` of the accumulated sum `s`: 32767
when `s >= 1`, -32768 when `s < -1`, and otherwise `s * 32768` truncated toward zero (the
floor of a non-negative value, the ceiling of a negative one); it always lies in
`[-32768, 32767]`, the range of `short`, and is non-decreasing in `s`.  On a state whose
`sound_list` is `NULL` the sample is 0 and the state is unchanged. -/
theorem sample_of_spec (s t : ℚ) (fuel : Nat) (st : AudioState)
    (mem : Nat → Option SoundList) (brk : Nat) :
    (next_sample fuel st =
      (next_sample_loop fuel 0 none st.sound_list st).map fun r => (sample_of r.1, r.2)) ∧
    (1 ≤ s → sample_of s = 32767) ∧
    (s < -1 → sample_of s = -32768) ∧
    (-1 ≤ s → s < 1 → sample_of s = float_to_short (s * 32768)) ∧
    (0 ≤ s → float_to_short s = ⌊s⌋) ∧ (s < 0 → float_to_short s = ⌈s⌉) ∧
    (-32768 ≤ sample_of s ∧ sample_of s ≤ 32767) ∧
    (s ≤ t → sample_of s ≤ sample_of t) ∧
    next_sample (fuel + 1) ⟨mem, brk, none⟩ = some (0, ⟨mem, brk, none⟩) := by
  refine ⟨rfl, ?_, ?_, ?_, ?_, ?_, sample_of_range s, sample_of_mono s t, ?_⟩
  · intro h
    unfold sample_of
    rw [if_pos h]
  · intro h
    have h1 : ¬ s ≥ 1 := by intro h2; linarith
    unfold sample_of
    rw [if_neg h1, if_pos h]
  · intro h1 h2
    unfold sample_of
    rw [if_neg (not_le.mpr h2), if_neg (not_lt.mpr h1)]
  · intro h
    unfold float_to_short
    rw [if_pos h]
  · intro h
    unfold float_to_short
    rw [if_neg (not_le.mpr h)]
  · have h0 : sample_of 0 = 0 := by
      unfold sample_of float_to_short
      norm_num
    simp [next_sample, next_sample_loop, h0]

/-- C20, as stated, fails, with `CLOCKS_PER_SEC = 1000000`.  At `pause = 2^24` ticks,
`pause_for (0.125f)` is to add 125 ticks, but the floats are 2 apart there and the sum
`16777341` is rounded to `16777340`: 124 ticks are added.  At `pause = 2^34` ticks,
`pause_for (1.0f)` is to add 1000 ticks, but the floats are 2048 apart there and the sum is
rounded back to `2^34`: the call, and any number of further calls, leave `pause` as it was. -/
theorem pause_for_rounds_delay :
    pause_ticks 1000000 (Float32.of_ratio 1 8) = Float32.of_nat 125 ∧
    pause_for 1000000 (fun _ => 16777340) 1 (Float32.of_ratio 1 8)
        ⟨Float32.of_nat 16777216, 0, 0⟩
      = some ⟨Float32.of_nat 16777340, 1, 0⟩ ∧
    Float32.toRat (Float32.of_nat 16777340) = 16777216 + 124 ∧
    pause_ticks 1000000 (Float32.of_nat 1) = Float32.of_nat 1000 ∧
    pause_for 1000000 (fun _ => 17179869184) 1 (Float32.of_nat 1)
        ⟨Float32.of_nat 17179869184, 0, 0⟩
      = some ⟨Float32.of_nat 17179869184, 1, 0⟩ ∧
    pause_for_times 1000000 (fun _ => 17179869184) 1 (Float32.of_nat 1) 3
        ⟨Float32.of_nat 17179869184, 0, 0⟩
      = some ⟨Float32.of_nat 17179869184, 3, 0⟩ := by
  refine ⟨by decide!, by decide!, ?_, by decide!, by decide!, by decide!⟩
  have h : Float32.of_nat 16777340
      = Float32.finite false (16777340 * Float32.ONE_UNITS) := by decide!
  rw [h]
  simp only [Float32.toRat, Float32.ONE_UNITS]
  norm_num

/-- C20, amended: `pause_for (ms)` first replaces `pause` by the binary32 sum of `pause` and
the binary32 value of `ms * CLOCKS_PER_SEC / 1000`, whatever the clock shows.  For a clock
whose readings, converted to `float`, are eventually not below the accumulator, the call
returns for all large enough fuel; the reading it returned on is not below `pause` and every
earlier reading of the call was below `pause`, one `sched_yield` having been made for each of
them; when the first reading is already not below `pause` it returns after that single
reading without yielding.  After `n` calls with the same delay the accumulator is what `n`
rounded additions of the delay to `p0` give, for every clock; it is `p0 + n * d` exactly
when every sum `p0 + j * d` on the way is a binary32 value. -/
theorem pause_for_accumulates (CPS : Nat) (clock : Nat → Nat) (ms : Float32) (st : Pacing)
    (n : Nat)
    (hclock : ∀ (t j : Nat), 1 ≤ j → j ≤ max n 1 →
      ∃ k, Float32.lt (Float32.of_nat (clock (t + k)))
        (pause_after (pause_ticks CPS ms) j st.pause) = false) :
    (∃ fuel0 st1, ∀ fuel, fuel0 ≤ fuel →
      pause_for CPS clock fuel ms st = some st1 ∧
      st1.pause = Float32.add st.pause (pause_ticks CPS ms) ∧
      st.reads < st1.reads ∧
      Float32.lt (Float32.of_nat (clock (st1.reads - 1))) st1.pause = false ∧
      (∀ t, st.reads ≤ t → t < st1.reads - 1 →
        Float32.lt (Float32.of_nat (clock t)) st1.pause = true) ∧
      st1.yields + st.reads + 1 = st1.reads + st.yields ∧
      (Float32.lt (Float32.of_nat (clock st.reads))
          (Float32.add st.pause (pause_ticks CPS ms)) = false →
        st1.reads = st.reads + 1 ∧ st1.yields = st.yields)) ∧
    (∃ fuel0 st1, ∀ fuel, fuel0 ≤ fuel →
      pause_for_times CPS clock fuel ms n st = some st1 ∧
      st1.pause = pause_after (pause_ticks CPS ms) n st.pause) ∧
    (∀ (clock2 : Nat → Nat) (fuel : Nat) (st1 : Pacing),
      pause_for_times CPS clock2 fuel ms n st = some st1 →
      st1.pause = pause_after (pause_ticks CPS ms) n st.pause) ∧
    (∀ p0 d : Nat, st.pause = Float32.finite false p0 →
      pause_ticks CPS ms = Float32.finite false d →
      (∀ j, 1 ≤ j → j ≤ n → Float32.round_units (p0 + j * d) 1 = p0 + j * d ∧
        p0 + j * d < Float32.LIMIT_UNITS) →
      pause_after (pause_ticks CPS ms) n st.pause = Float32.finite false (p0 + n * d)) := by
  refine ⟨?_, ?_, ?_, ?_⟩
  · obtain ⟨k, hk⟩ := hclock st.reads 1 (le_refl _) (le_max_right _ _)
    obtain ⟨st1, h1, h2, h3, h4, h5, h6, h7⟩ := pause_for_wait_ok clock k (k + 1)
      ⟨Float32.add st.pause (pause_ticks CPS ms), st.reads, st.yields⟩ hk (Nat.lt_succ_self _)
    refine ⟨k + 1, st1, ?_⟩
    intro fuel hfuel
    refine ⟨pause_for_wait_fuel clock (k + 1) _ _ h1 fuel hfuel, h2, h3, h4, h5, h6, ?_⟩
    intro hc
    rw [h7 hc]
    exact ⟨rfl, rfl⟩
  · obtain ⟨fuel0, st1, h⟩ := pause_for_times_returns CPS clock ms n st
      (fun t j h1 h2 => hclock t j h1 (le_trans h2 (le_max_left _ _)))
    refine ⟨fuel0, st1, ?_⟩
    intro fuel hfuel
    exact ⟨h fuel hfuel, pause_for_times_pause CPS clock fuel ms n st st1 (h fuel hfuel)⟩
  · intro clock2 fuel st1 h
    exact pause_for_times_pause CPS clock2 fuel ms n st st1 h
  · intro p0 d hp hd hex
    rw [hp, hd]
    exact pause_after_exact p0 d n hex

theorem pause_for_accumulates_witness :
    (∀ (t j : Nat), 1 ≤ j → j ≤ max 3 1 →
      ∃ k, Float32.lt (Float32.of_nat ((fun _ : Nat => 6000) (t + k)))
        (pause_after (pause_ticks 1000000 (Float32.of_nat 2)) j (Float32.of_nat 0)) = false) ∧
    ∃ fuel0 st1, ∀ fuel, fuel0 ≤ fuel →
      pause_for_times 1000000 (fun _ => 6000) fuel (Float32.of_nat 2) 3
          ⟨Float32.of_nat 0, 0, 0⟩ = some st1 ∧
      st1.pause = pause_after (pause_ticks 1000000 (Float32.of_nat 2)) 3 (Float32.of_nat 0) :=
  have hclock : ∀ (t j : Nat), 1 ≤ j → j ≤ max 3 1 →
      ∃ k, Float32.lt (Float32.of_nat ((fun _ : Nat => 6000) (t + k)))
        (pause_after (pause_ticks 1000000 (Float32.of_nat 2)) j (Float32.of_nat 0))
          = false := by
    intro t j h1 h2
    refine ⟨0, ?_⟩
    have h3 : j ≤ 3 := h2
    have h4 : j = 1 ∨ j = 2 ∨ j = 3 := by omega
    rcases h4 with h | h | h
    · subst h
      show Float32.lt (Float32.of_nat 6000)
        (pause_after (pause_ticks 1000000 (Float32.of_nat 2)) 1 (Float32.of_nat 0)) = false
      decide!
    · subst h
      show Float32.lt (Float32.of_nat 6000)
        (pause_after (pause_ticks 1000000 (Float32.of_nat 2)) 2 (Float32.of_nat 0)) = false
      decide!
    · subst h
      show Float32.lt (Float32.of_nat 6000)
        (pause_after (pause_ticks 1000000 (Float32.of_nat 2)) 3 (Float32.of_nat 0)) = false
      decide!
  ⟨hclock,
    (pause_for_accumulates 1000000 (fun _ => 6000) (Float32.of_nat 2)
      ⟨Float32.of_nat 0, 0, 0⟩ 3 hclock).2.1⟩


/-- C25: on an array with `len = 0` the bound `len - 1` of both strategies wraps to
`2^64 - 1`, so the loop is entered; the first `Array_at(array, 0)` of the selection sort
fails and it returns false, and the first `Array_swap` of the standard shuffle fails and it
returns false, whatever the random source gives; array and world are returned as they were,
no callback having run. -/
theorem strategies_fail_on_empty {σ : Type} (cb : Callbacks σ) (rand : Nat → Int → Int → Int)
    (fuel : Nat) (buf : List Nat) (w : σ) :
    size_sub 0 1 = 18446744073709551615 ∧
    SelectionSort.fun_ cb (fuel + 1) ⟨buf, 0⟩ w = some (false, ⟨buf, 0⟩, w) ∧
    (StandardShuffle rand).fun_ cb (fuel + 1) ⟨buf, 0⟩ w = some (false, ⟨buf, 0⟩, w) ∧
    (Array_at cb ⟨buf, 0⟩ 0 w).1.condition = ARRAY_ERR ∧
    (Array_swap cb ⟨buf, 0⟩ 0 (int_to_size (rand 0 (size_to_int 0)
      (size_to_int (size_sub 0 1)))) w).1 = ARRAY_ERR := by
  have hs : size_sub 0 1 = 18446744073709551615 := by decide
  have hat : Array_at cb ⟨buf, 0⟩ 0 w = (⟨ARRAY_ERR, 0⟩, ⟨buf, 0⟩, w) :=
    Array_at_err cb ⟨buf, 0⟩ 0 w (Nat.le_refl _)
  have hsw : ∀ j, Array_swap cb ⟨buf, 0⟩ 0 j w = (ARRAY_ERR, ⟨buf, 0⟩, w) := by
    intro j
    unfold Array_swap
    simp only [hat, reduceIte]
  refine ⟨hs, ?_, ?_, by rw [hat], by rw [hsw]⟩
  · have hlt : 0 < size_sub (⟨buf, 0⟩ : Array).len 1 := by rw [hs]; omega
    simp only [SelectionSort, _ewweew]
    rw [_ewweew_loop, if_pos hlt]
    simp only [hat, reduceIte]
  · have hlt : 0 < size_sub (⟨buf, 0⟩ : Array).len 1 := by rw [hs]; omega
    simp only [StandardShuffle, _kjfeefnje]
    rw [_kjfeefnje_loop, if_pos hlt]
    simp only [hsw, reduceIte]


/-- C24, as stated, fails: at the phase `-1/2` the argument of `fmod` is `-1/4`, `fmod`
keeps its sign, and `triangle_wave` returns `4 * (-1/4) - 1 = -2`. -/
theorem triangle_wave_negative_phase :
    fmod (-1 / 2 + 1 / 4) 1 = -1 / 4 ∧ triangle_wave (-1 / 2) = -2 ∧
    ¬ (-1 ≤ triangle_wave (-1 / 2) ∧ triangle_wave (-1 / 2) ≤ 1) := by
  have hc : ⌈(-1 / 4 : ℚ)⌉ = 0 := by
    rw [Int.ceil_eq_iff]
    norm_num
  have hf : fmod (-1 / 2 + 1 / 4) 1 = -1 / 4 := by
    unfold fmod
    have h1 : (-1 / 2 + 1 / 4 : ℚ) / 1 = -1 / 4 := by norm_num
    rw [h1, if_neg (by norm_num), hc]
    norm_num
  have ht : triangle_wave (-1 / 2) = -2 := by
    unfold triangle_wave
    simp only [hf]
    norm_num
  refine ⟨hf, ht, ?_⟩
  rw [ht]
  norm_num

/-- C24, amended: for every phase `x >= -1/4`, so for every non-negative phase,
`triangle_wave x` lies in `[-1, 1]`, where `triangle_wave x` takes `m = fmod (x + 1/4) 1`
and returns `4m - 1` if `m < 1/2` and `-4m + 3` otherwise; for a phase `x < -1/4` the value
`m` is in `(-1, 0]` and the result `4m - 1` is at most `-1`. -/
theorem triangle_wave_range (x : ℚ) (hx : -1 / 4 ≤ x) :
    (triangle_wave x =
      if fmod (x + 1 / 4) 1 < 1 / 2 then 4 * fmod (x + 1 / 4) 1 - 1
      else -4 * fmod (x + 1 / 4) 1 + 3) ∧
    -1 ≤ triangle_wave x ∧ triangle_wave x ≤ 1 ∧
    (∀ z : ℚ, z < -1 / 4 → triangle_wave z = 4 * fmod (z + 1 / 4) 1 - 1 ∧
      triangle_wave z ≤ -1) := by
  have hm := fmod_one_nonneg (x + 1 / 4) (by linarith)
  refine ⟨rfl, ?_, ?_, ?_⟩
  · unfold triangle_wave
    by_cases h : fmod (x + 1 / 4) 1 < 1 / 2
    · simp only [h, reduceIte]; linarith [hm.1]
    · simp only [h, reduceIte]; linarith [hm.2]
  · unfold triangle_wave
    by_cases h : fmod (x + 1 / 4) 1 < 1 / 2
    · simp only [h, reduceIte]; linarith [hm.1]
    · simp only [h, reduceIte]; linarith [hm.2, not_lt.mp h]
  · intro z hz
    have hn := fmod_one_neg (z + 1 / 4) (by linarith)
    have hlt : fmod (z + 1 / 4) 1 < 1 / 2 := by linarith [hn.2]
    unfold triangle_wave
    simp only [hlt, reduceIte, true_and]
    linarith [hn.2]

theorem triangle_wave_range_witness :
    (-1 / 4 : ℚ) ≤ 1 / 3 ∧ -1 ≤ triangle_wave (1 / 3) ∧ triangle_wave (1 / 3) ≤ 1 :=
  have h := triangle_wave_range (1 / 3) (by norm_num)
  ⟨by norm_num, h.2.1, h.2.2.1⟩


/-- C21, the code at `[7, 9]`: the array satisfies the invariant before `Array_pop`;
afterwards `len` is 1 while the buffer, resized to 1 byte, holds no whole element: index 0
is below `len` and refers to no element of the buffer. -/
theorem Array_pop_breaks_buffer_size :
    (⟨[7, 9], 2⟩ : Array).valid ∧
    (Array_pop (Callbacks.default : Callbacks Unit) (fun _ => 0) ⟨[7, 9], 2⟩ ()).1
      = ⟨ARRAY_OK, 9⟩ ∧
    (Array_pop (Callbacks.default : Callbacks Unit) (fun _ => 0) ⟨[7, 9], 2⟩ ()).2.1.len = 1 ∧
    (Array_pop (Callbacks.default : Callbacks Unit) (fun _ => 0) ⟨[7, 9], 2⟩ ()).2.1._arr.length
      = 0 ∧
    (Array_pop (Callbacks.default : Callbacks Unit) (fun _ => 0) ⟨[7, 9], 2⟩ ()).2.1._arr[0]?
      = none := by
  refine ⟨by decide, by decide, by decide, by decide, by decide⟩


/-- C22: every registry state reachable from the empty registry by calls of `push_sound`
with a duration above 0 and calls of `next_sample`, in any order, holds a list of events
each of which has, in the `float` comparisons of the program, `remaining_amplitude >= 0`,
`remaining_amplitude <= 1` and `elapsed >= 0`; `push_sound` puts an event with
`elapsed = 0` and `remaining_amplitude = 1` at the head; and a call of `next_sample` leaves
exactly the events whose decreased amplitude is `>= 0`, so none with an amplitude below 0
survives the call that produced it. -/
theorem registry_bounds (st : Binary32.AudioState) (h : Binary32.Reachable st) :
    ∃ addrs events, st.holds addrs events ∧
      (∀ e ∈ events, Float32.le (Float32.of_nat 0) e.remaining_amplitude = true ∧
        Float32.le e.remaining_amplitude (Float32.of_nat 1) = true ∧
        Float32.le (Float32.of_nat 0) e.elapsed = true) ∧
      (∀ (waveform : Float32 → Float32) (volume value duration : Float32),
        (Binary32.push_sound waveform volume value duration st).holds (st.brk :: addrs)
          (⟨waveform, volume, value, duration, Float32.of_nat 0, Float32.of_nat 1⟩ ::
            events)) ∧
      (∀ (fuel : Nat) (s : Int) (st1 : Binary32.AudioState),
        Binary32.next_sample fuel st = some (s, st1) →
        ∃ addrs1, st1.holds addrs1 (events.filterMap Binary32.spec_advance) ∧
          (∀ e1 ∈ events.filterMap Binary32.spec_advance,
            Float32.le (Float32.of_nat 0) e1.remaining_amplitude = true ∧
            Float32.le e1.remaining_amplitude (Float32.of_nat 1) = true ∧
            Float32.le (Float32.of_nat 0) e1.elapsed = true) ∧
          (∀ e ∈ events,
            Float32.lt (Float32.sub e.remaining_amplitude (Binary32.decrement e.duration))
              (Float32.of_nat 0) = true →
            Binary32.spec_advance e = none)) := by
  obtain ⟨addrs, events, hh, hb⟩ := b32_reachable_holds st h
  refine ⟨addrs, events, hh, fun e he => ⟨(hb e he).1, (hb e he).2.1, (hb e he).2.2.1⟩,
    fun waveform volume value duration =>
      b32_push_sound_holds waveform volume value duration st addrs events hh, ?_⟩
  intro fuel s st1 hs
  obtain ⟨st2, addrs1, h1, h2, _, _⟩ :=
    b32_next_sample_holds (max fuel (addrs.length + 1)) st addrs events hh
      (lt_of_lt_of_le (Nat.lt_succ_self _) (le_max_right _ _))
  have h3 := b32_next_sample_fuel fuel (max fuel (addrs.length + 1)) st _ hs (le_max_left _ _)
  rw [h1] at h3
  have h4 : st2 = st1 := (Prod.mk.inj (Option.some.inj h3)).2
  subst h4
  refine ⟨addrs1, h2, ?_, ?_⟩
  · intro e1 he1
    obtain ⟨e0, he0, hadv⟩ := List.mem_filterMap.mp he1
    have hb1 := b32_spec_advance_bounded e0 e1 (hb e0 he0) hadv
    exact ⟨hb1.1, hb1.2.1, hb1.2.2.1⟩
  · intro e _ hneg
    unfold Binary32.spec_advance
    rw [if_neg (lt_zero_not_le _ hneg)]

theorem registry_bounds_witness :
    ∃ s st1, Binary32.next_sample 2
        (Binary32.push_sound (fun x => x) (Float32.of_nat 1) (Float32.of_ratio 1 2)
          (Float32.of_ratio 1 20) Binary32.AudioState.empty) = some (s, st1) ∧
      Binary32.Reachable st1 ∧
      ∃ addrs events, st1.holds addrs events ∧
        (∀ e ∈ events, Float32.le (Float32.of_nat 0) e.remaining_amplitude = true ∧
          Float32.le e.remaining_amplitude (Float32.of_nat 1) = true ∧
          Float32.le (Float32.of_nat 0) e.elapsed = true) :=
  have hempty : Binary32.AudioState.empty.holds [] [] :=
    ⟨rfl, List.nodup_nil, fun _ ha => absurd ha (List.not_mem_nil _)⟩
  have hpush := b32_push_sound_holds (fun x => x) (Float32.of_nat 1) (Float32.of_ratio 1 2)
    (Float32.of_ratio 1 20) Binary32.AudioState.empty [] [] hempty
  have hr0 : Binary32.Reachable
      (Binary32.push_sound (fun x => x) (Float32.of_nat 1) (Float32.of_ratio 1 2)
        (Float32.of_ratio 1 20) Binary32.AudioState.empty) :=
    Binary32.Reachable.push _ _ _ _ _ Binary32.Reachable.empty (by decide!)
  match b32_next_sample_holds 2 _ _ _ hpush (by decide) with
  | ⟨st1, _, h1, _, _, _⟩ =>
    have hr1 : Binary32.Reachable st1 := Binary32.Reachable.next _ st1 2 _ hr0 h1
    match registry_bounds st1 hr1 with
    | ⟨addrs, events, h2, h3, _, _⟩ => ⟨_, st1, h1, hr1, addrs, events, h2, h3⟩


/-- C26, as stated, fails: at `n = 2^30`, with every draw the largest of its range (a C
`int` lying in `i .. n-1`), the buffer `Array_new` allocates inside `Array_new_init` has no
element, because its byte count `2^32` is 0 in the `unsigned int` size of the allocator; no
write of the pipeline lands in it, and whatever the fuel the pipeline does not end with the
array `[0, 1, ..., n-1]`. -/
theorem show_sort_size_wraps :
    (∀ i : Nat, i < 1073741824 - 1 →
      (i : Int) ≤ (fun (_ : Nat) (_ : Int) (hi : Int) => hi) i (size_to_int i)
        (size_to_int (1073741824 - 1)) ∧
      (fun (_ : Nat) (_ : Int) (hi : Int) => hi) i (size_to_int i)
        (size_to_int (1073741824 - 1)) ≤ ((1073741824 - 1 : Nat) : Int) ∧
      (fun (_ : Nat) (_ : Int) (hi : Int) => hi) i (size_to_int i)
        (size_to_int (1073741824 - 1)) ≤ INT_MAX) ∧
    (Array_new 1073741824)._arr = [] ∧
    ¬ ∃ fuel w1, show_sort (Callbacks.default : Callbacks Unit) SelectionSort fuel 1073741824
        (StandardShuffle (fun _ _ hi => hi)) ()
      = some (true, ⟨List.range 1073741824, 1073741824⟩, w1) := by
  refine ⟨?_, by decide, ?_⟩
  · intro i hi
    have h : size_to_int (1073741824 - 1) = 1073741823 := by decide
    simp only [h, INT_MAX]
    omega
  · rintro ⟨fuel, w1, h⟩
    have hzero : 1073741824 * sizeof_unsigned_int % SIZE_MOD % UINT_MOD / sizeof_unsigned_int
        = 0 := by decide
    have hnew : Array_new 1073741824 = ⟨[], 1073741824⟩ := by
      unfold Array_new Array_mem_alloc
      rw [hzero]
      rfl
    have hshape := nil_show_sort (fun _ _ hi => hi) fuel 1073741824 hnew _ h
    exact range_buffer_ne_nil 1073741824 (by omega) hshape

/-- C26, amended: for every `n >= 1` whose byte count `n * sizeof (unsigned int)` fits the
`unsigned int` size of the allocator, that is `n < 2^30`, callbacks that leave the array
alone and a random source whose draws lie in the requested range `i .. n-1`, the pipeline
of `show_sort` (`Array_new_init n`, the standard shuffle, the selection sort) with fuel above
`n` passes both strategy steps, returns true and ends with the array `[0, 1, ..., n-1]`. -/
theorem show_sort_identity {σ : Type} (cb : Callbacks σ) (rand : Nat → Int → Int → Int)
    (fuel n : Nat) (w : σ) (hcb : cb.preserves) (hn : 1 ≤ n)
    (hn32 : n * sizeof_unsigned_int < UINT_MOD) (hfuel : n < fuel)
    (hrand : ∀ i, i < n - 1 →
      (i : Int) ≤ rand i (size_to_int i) (size_to_int (n - 1)) ∧
      rand i (size_to_int i) (size_to_int (n - 1)) ≤ ((n - 1 : Nat) : Int)) :
    ∃ w1, show_sort cb SelectionSort fuel n (StandardShuffle rand) w
      = some (true, ⟨List.range n, n⟩, w1) :=
  show_sort_ok cb hcb rand fuel n w hn hn32 hfuel hrand

theorem show_sort_identity_witness :
    4 * sizeof_unsigned_int < UINT_MOD ∧
    ∃ w1, show_sort (Callbacks.default : Callbacks Unit) SelectionSort 5 4
        (StandardShuffle (fun _ _ hi => hi)) () = some (true, ⟨List.range 4, 4⟩, w1) :=
  ⟨by decide,
    show_sort_identity (Callbacks.default : Callbacks Unit) (fun _ _ hi => hi) 5 4 ()
      Callbacks.default_preserves (by decide) (by decide) (by decide) (by decide)⟩


/-- C23: the callback `range_check_callback` checks at every invocation that the accessed
element is below `len` and its world stays true only while every check has passed.  For
`1 <= n` with a byte count that fits the `unsigned int` size of the allocator, that is
`n < 2^30`, the lengths at which `Array_new_init` does create the array, the pipeline
`Array_new_init n`, standard shuffle, selection sort, run with this callback in both slots,
ends, whenever it returns and whatever the draws, with the world still true: at every read
and write callback, the states in the middle of a swap included, `a[index] < len` held; with
draws in range and fuel above `n` it does return, with true.  A value below `len` divided by
`len` lies in `[0, 1]`, as a rational number and as the `float` quotient
`(float) a[index] / len` the program hands to `push_sound`. -/
theorem callbacks_see_values_below_len (rand : Nat → Int → Int → Int) (fuel n : Nat)
    (hn : 1 ≤ n) (hnsz : n * sizeof_unsigned_int < UINT_MOD) :
    (∀ (a : Array) (i : Nat) (ok : Bool),
      range_check_callback a i ok = (a, ok && decide (a._arr.getD i 0 < a.len)) ∧
      ((range_check_callback a i ok).2 = true → ok = true ∧ a._arr.getD i 0 < a.len)) ∧
    (∀ r, show_sort range_check SelectionSort fuel n (StandardShuffle rand) true = some r →
      r.2.2 = true) ∧
    (n < fuel →
      (∀ i, i < n - 1 →
        (i : Int) ≤ rand i (size_to_int i) (size_to_int (n - 1)) ∧
        rand i (size_to_int i) (size_to_int (n - 1)) ≤ ((n - 1 : Nat) : Int)) →
      ∃ l3, show_sort range_check SelectionSort fuel n (StandardShuffle rand) true
        = some (true, ⟨l3, n⟩, true)) ∧
    (∀ v len : Nat, v < len → 0 ≤ (v : ℚ) / (len : ℚ) ∧ (v : ℚ) / (len : ℚ) ≤ 1) ∧
    (∀ v : Nat, v < n →
      Float32.le (Float32.of_nat 0) (Float32.div (Float32.of_nat v) (Float32.of_nat n))
        = true ∧
      Float32.le (Float32.div (Float32.of_nat v) (Float32.of_nat n)) (Float32.of_nat 1)
        = true) := by
  refine ⟨?_, fun r h => chk_show_sort rand fuel n hn hnsz r h, ?_, ?_,
    fun v hv => normalized_value_bounds v n hv
      (by simp only [sizeof_unsigned_int, UINT_MOD] at hnsz; omega)⟩
  · intro a i ok
    refine ⟨rfl, ?_⟩
    intro h
    have h1 : (ok && decide (a._arr.getD i 0 < a.len)) = true := h
    rw [Bool.and_eq_true] at h1
    exact ⟨h1.1, of_decide_eq_true h1.2⟩
  · intro hfuel hrand
    obtain ⟨l3, w3, h⟩ := show_sort_returns range_check range_check_preserves rand fuel n true
      hn hnsz hfuel hrand
    have hw := chk_show_sort rand fuel n hn hnsz _ h
    have hw3 : w3 = true := hw
    subst hw3
    exact ⟨l3, h⟩
  · intro v len hv
    have hlen : (0 : ℚ) < (len : ℚ) := by exact_mod_cast Nat.lt_of_le_of_lt (Nat.zero_le v) hv
    have hvl : (v : ℚ) ≤ (len : ℚ) := by exact_mod_cast Nat.le_of_lt hv
    exact ⟨div_nonneg (by exact_mod_cast Nat.zero_le v) (le_of_lt hlen),
      (div_le_one hlen).mpr hvl⟩

theorem callbacks_see_values_below_len_witness :
    4 * sizeof_unsigned_int < UINT_MOD ∧
    ∃ l3, show_sort range_check SelectionSort 5 4 (StandardShuffle (fun _ _ hi => hi)) true
      = some (true, ⟨l3, 4⟩, true) :=
  ⟨by decide,
    (callbacks_see_values_below_len (fun _ _ hi => hi) 5 4 (by decide) (by decide)).2.2.1
      (by decide) (by decide)⟩

end SortVis
